import Mathlib

/-!
# kube-bench `cmd/util.go`: runtime resolution of binaries, config files and versions

A shallow embedding of `cmd/util.go` and of the parts of the Go standard library it
calls (`strings`, `regexp`), followed by theorems about the embedded functions.

Conventions of the embedding:

* a Go `string` is a list of characters (`Str`);
* the swappable package variables `psFunc` and `statFunc` are explicit parameters;
* `exitWithError` (which ends the process) and a Go run-time panic are results of
  type `Fault`, so every function that can reach one returns `Except Fault _`;
* the component catalog read through `viper` is a record of what the calls
  `GetStringSlice`, `Sub`, `GetBool`, `IsSet`, `GetString` return;
* a `map[string]string` that is ranged over is the list of its entries in the order
  in which the loop visits them, an order that Go leaves unspecified.
-/

namespace KubeBench

set_option maxRecDepth 100000

/-! ## Definitions

The embedding of the Go library functions used by the source (`strings`, `unicode`,
`regexp`), then of `cmd/util.go`, then the predicates, the reference definitions and
the sample data of the theorems. -/

/-- Go strings are modelled as lists of characters. -/
abbrev Str := List Char

/-! ## The `strings` and `unicode` functions used by the source -/

/-- Model of `unicode.IsSpace`: the Latin-1 cases and the `White_Space` table. -/
def isSpace (c : Char) : Bool :=
  let n := c.toNat
  (9 ≤ n && n ≤ 13) || n == 32 || n == 0x85 || n == 0xA0 || n == 0x1680 ||
  (0x2000 ≤ n && n ≤ 0x200A) || n == 0x2028 || n == 0x2029 || n == 0x202F ||
  n == 0x205F || n == 0x3000

/-- Model of `strings.Trim(s, cutset)`: drops the leading and the trailing
characters that occur in `cutset`. -/
def trim (s cutset : Str) : Str :=
  ((s.dropWhile (fun c => cutset.contains c)).reverse.dropWhile
    (fun c => cutset.contains c)).reverse

/-- Model of `strings.Fields`: the maximal runs of non-space characters. -/
def fields : Str → List Str
  | [] => []
  | c :: t =>
    if isSpace c then fields t
    else
      match t with
      | [] => [[c]]
      | d :: _ =>
        if isSpace d then [c] :: fields t
        else
          match fields t with
          | w :: ws => (c :: w) :: ws
          | [] => [[c]]

/-- Model of `strings.Split(s, sep)` for a separator of one character: the pieces
between the separators, `n + 1` of them when `sep` occurs `n` times. -/
def split (s : Str) (sep : Char) : List Str :=
  match s with
  | [] => [[]]
  | c :: t =>
    if c = sep then [] :: split t sep
    else
      match split t sep with
      | l :: ls => (c :: l) :: ls
      | [] => [[c]]

/-- Model of `strings.HasPrefix(s, p)`: whether the text `s` starts with `p`. -/
def startsWith : Str → Str → Bool
  | _, [] => true
  | [], _ :: _ => false
  | c :: s, x :: p => c == x && startsWith s p

/-- The scan of `strings.Replace` for a non-empty `old`, from left to right: an
occurrence of `old` at the current position is replaced by `new` and passed over
(`skip` counts its characters still to pass), any other character is copied. -/
def replaceScan (old new : Str) : Nat → Str → Str
  | _, [] => []
  | skip + 1, _ :: t => replaceScan old new skip t
  | 0, c :: t =>
    if startsWith (c :: t) old then new ++ replaceScan old new (old.length - 1) t
    else c :: replaceScan old new 0 t

/-- Model of `strings.Replace(s, old, new, -1)`: every non-overlapping occurrence of
`old`, taken from the left, is replaced by `new`; an empty `old` matches before every
character and at the end. -/
def replaceAll (s old new : Str) : Str :=
  if old = [] then new ++ s.flatMap (fun c => c :: new) else replaceScan old new 0 s

/-! ## The `regexp` package: syntax trees, matching, parsing

The fragment of RE2 syntax modelled here: literals, `.`, `^`, `$`, capturing
groups, `|`, the operators `*`, `+`, `?` with their lazy forms, bracket classes with
ranges and negation, the Perl classes `\d \D \s \S \w \W`, escaped punctuation and
the control escapes `\a \f \n \r \t \v`. The flags are those of `regexp.Compile`
(`syntax.Perl`): `^` and `$` are the ends of the text, `.` excludes the newline,
negated classes include it. -/

/-- One item of a character class: a set of code-point ranges, possibly complemented
(the complemented form is what `\D`, `\S`, `\W` contribute). -/
structure ClassItem where
  neg : Bool
  ranges : List (Nat × Nat)
  deriving DecidableEq, Repr

/-- Syntax tree of a regular expression. -/
inductive Regex where
  | empty
  | lit (c : Char)
  | anyNotNL
  | cls (neg : Bool) (items : List ClassItem)
  | beginText
  | endText
  | cat (a b : Regex)
  | alt (a b : Regex)
  | star (greedy : Bool) (r : Regex)
  | plus (greedy : Bool) (r : Regex)
  | quest (greedy : Bool) (r : Regex)
  | group (idx : Nat) (r : Regex)
  deriving DecidableEq, Repr

/-- Capture registers: group index and captured text, the latest first. -/
abbrev Caps := List (Nat × Str)

/-- A matching thread: the text still to be read and the captures so far. -/
abbrev Thread := Str × Caps

/-- Whether the code point of `c` lies in one of the ranges. -/
def inRanges (rs : List (Nat × Nat)) (c : Char) : Bool :=
  rs.any (fun r => r.1 ≤ c.toNat && c.toNat ≤ r.2)

/-- Whether `c` belongs to a class item. -/
def ClassItem.has (i : ClassItem) (c : Char) : Bool :=
  inRanges i.ranges c != i.neg

/-- Whether `c` belongs to the class `[items]`, or to `[^items]` when `neg`. -/
def classHas (neg : Bool) (items : List ClassItem) (c : Char) : Bool :=
  items.any (fun i => i.has c) != neg

/-- Reads one character satisfying `p`. -/
def stepChar (p : Char → Bool) : Thread → List Thread
  | (c :: t, cp) => if p c then [(t, cp)] else []
  | ([], _) => []

/-- Iteration of `f` for `*`: the threads after zero or more rounds of `f`, in
priority order (a greedy star prefers another round). A round that reads nothing is
dropped; `compile` gives a tree only when no round of a repetition can read nothing,
so that nothing is dropped for the trees it gives. -/
def starLoop (f : Thread → List Thread) (greedy : Bool) : Nat → Thread → List Thread
  | 0, th => [th]
  | k + 1, th =>
    let more := ((f th).filter (fun th1 => th1.1.length < th.1.length)).flatMap
      (starLoop f greedy k)
    if greedy then more ++ [th] else th :: more

/-- Backtracking semantics: all threads that result from matching `r` at the
start of the thread's text, in the priority order of leftmost-first matching.
`n` is the length of the whole text, so the text start is where `n` characters
remain. -/
def run (n : Nat) : Regex → Thread → List Thread
  | .empty, th => [th]
  | .lit c, th => stepChar (fun x => x == c) th
  | .anyNotNL, th => stepChar (fun x => x != '\n') th
  | .cls neg items, th => stepChar (classHas neg items) th
  | .beginText, th => if th.1.length = n then [th] else []
  | .endText, th => if th.1.length = 0 then [th] else []
  | .cat a b, th => (run n a th).flatMap (run n b)
  | .alt a b, th => run n a th ++ run n b th
  | .star g r, th => starLoop (run n r) g th.1.length th
  | .plus g r, th => (run n r th).flatMap (fun th1 => starLoop (run n r) g th1.1.length th1)
  | .quest g r, th => if g then run n r th ++ [th] else th :: run n r th
  | .group i r, th =>
    (run n r th).map (fun th1 => (th1.1, (i, th.1.take (th.1.length - th1.1.length)) :: th1.2))

/-- Leftmost search: the first suffix of the text at which `r` matches, with the
preferred thread of that match. -/
def search (n : Nat) (r : Regex) : Str → Option (Str × Thread)
  | [] => (run n r ([], [])).head?.map (fun th => ([], th))
  | c :: t =>
    match (run n r (c :: t, [])).head? with
    | some th => some (c :: t, th)
    | none => search n r t

/-- Model of `(*Regexp).Match` / `MatchString`: whether the text contains a match. -/
def Regex.matchString (r : Regex) (s : Str) : Bool :=
  (search s.length r s).isSome

/-- Model of `(*Regexp).FindString`: the text of the leftmost match, or the empty
string when there is none. -/
def Regex.findString (r : Regex) (s : Str) : Str :=
  match search s.length r s with
  | some (start, th) => start.take (start.length - th.1.length)
  | none => []

/-- Number of capturing groups of `r`. -/
def Regex.numGroups : Regex → Nat
  | .cat a b => a.numGroups + b.numGroups
  | .alt a b => a.numGroups + b.numGroups
  | .star _ r => r.numGroups
  | .plus _ r => r.numGroups
  | .quest _ r => r.numGroups
  | .group _ r => r.numGroups + 1
  | _ => 0

/-- Model of `(*Regexp).FindStringSubmatch`: `none` for Go's nil slice, otherwise
the match followed by the text of each group (empty for a group that took no part). -/
def Regex.findStringSubmatch (r : Regex) (s : Str) : Option (List Str) :=
  match search s.length r s with
  | some (start, th) =>
    some (start.take (start.length - th.1.length) ::
      (List.range r.numGroups).map (fun i => (th.2.lookup (i + 1)).getD []))
  | none => none

/-- Error codes of `regexp/syntax` that the modelled fragment can raise. -/
inductive ErrorCode where
  | missingParen
  | unexpectedParen
  | missingRepeatArgument
  | invalidRepeatOp
  | trailingBackslash
  | invalidEscape
  | missingBracket
  | invalidCharRange
  | tooLarge
  deriving DecidableEq, Repr

/-- Why a pattern has no syntax tree: `regexp.Compile` returns an error with the
given code, or the pattern uses syntax outside the modelled fragment (flags and
non-capturing groups `(?`, counted repetition `{n,m}`, POSIX classes `[:name:]`,
escapes made of a letter or digit other than those listed above), about which the
model says nothing. The same holds for a pattern that is not small enough to be
certainly below the limits of `regexp/syntax` on the size and the nesting depth of an
expression (see `compile`), and for a pattern that applies `*` or `+` to an expression
that can match the empty string, where the order of preference among the matches is
not modelled. -/
inductive CompileError where
  | bad (code : ErrorCode)
  | unmodelled
  deriving DecidableEq, Repr

/-- What a backslash escape stands for. -/
inductive Escape where
  | perl (item : ClassItem)
  | chr (c : Char)
  deriving DecidableEq, Repr

/-- Ranges of `\d`. -/
def perlDigit : List (Nat × Nat) := [(48, 57)]

/-- Ranges of `\s`, which is `[\t\n\f\r ]`. -/
def perlSpace : List (Nat × Nat) := [(9, 10), (12, 13), (32, 32)]

/-- Ranges of `\w`, which is `[0-9A-Za-z_]`. -/
def perlWord : List (Nat × Nat) := [(48, 57), (65, 90), (95, 95), (97, 122)]

/-- Parses the text after a backslash (`parsePerlClassEscape`, `parseEscape`). -/
def parseEscape : Str → Except CompileError (Escape × Str)
  | [] => .error (.bad .trailingBackslash)
  | c :: t =>
    if c = 'd' then .ok (.perl ⟨false, perlDigit⟩, t)
    else if c = 'D' then .ok (.perl ⟨true, perlDigit⟩, t)
    else if c = 's' then .ok (.perl ⟨false, perlSpace⟩, t)
    else if c = 'S' then .ok (.perl ⟨true, perlSpace⟩, t)
    else if c = 'w' then .ok (.perl ⟨false, perlWord⟩, t)
    else if c = 'W' then .ok (.perl ⟨true, perlWord⟩, t)
    else if c = 'a' then .ok (.chr (Char.ofNat 7), t)
    else if c = 'f' then .ok (.chr (Char.ofNat 12), t)
    else if c = 'n' then .ok (.chr '\n', t)
    else if c = 'r' then .ok (.chr '\r', t)
    else if c = 't' then .ok (.chr '\t', t)
    else if c = 'v' then .ok (.chr (Char.ofNat 11), t)
    else if 128 ≤ c.toNat then .error (.bad .invalidEscape)
    else if c.isAlphanum then .error .unmodelled
    else .ok (.chr c, t)

/-- Reads one character of a bracket class (`parseClassChar`). -/
def classChar : Str → Except CompileError (Char × Str)
  | [] => .error (.bad .missingBracket)
  | c :: t =>
    if c = '\\' then
      match parseEscape t with
      | .ok (.chr x, t1) => .ok (x, t1)
      | .ok (.perl _, _) => .error (.bad .invalidEscape)
      | .error e => .error e
    else .ok (c, t)

/-- The loop of `parseClass` over the text after `[` or `[^`: the items of the
class and the text after the closing `]`. -/
def classLoop : Nat → Bool → List ClassItem → Str →
    Except CompileError (List ClassItem × Str)
  | 0, _, _, _ => .error .unmodelled
  | k + 1, first, acc, t =>
    if t.head? = some ']' ∧ first = false then .ok (acc.reverse, t.tail)
    else if t.head? = some '[' ∧ t.tail.head? = some ':' ∧ 2 < t.length then
      .error .unmodelled
    else
      match (if t.head? = some '\\' then parseEscape t.tail
             else (classChar t).map (fun p => (Escape.chr p.1, p.2))) with
      | .error e => .error e
      | .ok (.perl it, t1) => classLoop k false (it :: acc) t1
      | .ok (.chr lo, t1) =>
        if t1.head? = some '-' ∧ t1.tail ≠ [] ∧ t1.tail.head? ≠ some ']' then
          match classChar t1.tail with
          | .error e => .error e
          | .ok (hi, t2) =>
            if hi.toNat < lo.toNat then .error (.bad .invalidCharRange)
            else classLoop k false (⟨false, [(lo.toNat, hi.toNat)]⟩ :: acc) t2
        else classLoop k false (⟨false, [(lo.toNat, lo.toNat)]⟩ :: acc) t1

/-- Concatenation of the items of a sequence (the empty sequence matches the
empty string). -/
def mkCat : List Regex → Regex
  | [] => .empty
  | [r] => r
  | r :: rs => .cat r (mkCat rs)

/-- Alternation of the branches of a group. -/
def mkAlt : List Regex → Regex
  | [] => .empty
  | [r] => r
  | r :: rs => .alt r (mkAlt rs)

/-- The parser's view of one open group: its finished alternatives and the items of
the alternative being read (both latest first), and its capture index. -/
structure Frame where
  alts : List Regex
  items : List Regex
  cap : Nat
  deriving DecidableEq, Repr

/-- Parser state: the enclosing open groups, the innermost one, the number of
capturing groups opened so far, and whether the last token was a repetition. -/
structure PState where
  outer : List Frame
  cur : Frame
  numCap : Nat
  lastRepeat : Bool
  deriving DecidableEq, Repr

/-- The tree of a finished group body. -/
def Frame.collapse (f : Frame) : Regex :=
  mkAlt ((mkCat f.items.reverse :: f.alts).reverse)

/-- Adds a finished item to the alternative being read. -/
def PState.push (st : PState) (r : Regex) : PState :=
  { st with cur := { st.cur with items := r :: st.cur.items }, lastRepeat := false }

/-- Whether the text after `{` spells an integer as `parseInt` accepts it; returns
the text after the digits. -/
def skipInt (t : Str) : Option Str :=
  match t with
  | [] => none
  | c :: t1 =>
    if ¬ c.isDigit then none
    else if c = '0' ∧ (t1.head?.map Char.isDigit) = some true then none
    else some (t1.dropWhile Char.isDigit)

/-- Whether the text after `{` completes a counted repetition `{n}`, `{n,}` or
`{n,m}` (`parseRepeat`); otherwise the brace is a literal. -/
def isRepeat (t : Str) : Bool :=
  match skipInt t with
  | none => false
  | some t1 =>
    match t1 with
    | [] => false
    | c :: t2 =>
      if c = ',' then
        match t2 with
        | [] => false
        | d :: _ =>
          if d = '}' then true
          else
            match skipInt t2 with
            | none => false
            | some t3 => t3.head? = some '}'
      else c = '}'

/-- Applies a repetition operator to the last item (`repeat`); `t` is the text
after the operator character. -/
def applyRepeat (mk : Bool → Regex → Regex) (st : PState) (t : Str) :
    Except CompileError (PState × Str) :=
  let lazy := t.head? = some '?'
  let t1 := if lazy then t.tail else t
  if st.lastRepeat then .error (.bad .invalidRepeatOp)
  else
    match st.cur.items with
    | [] => .error (.bad .missingRepeatArgument)
    | x :: xs =>
      .ok ({ st with cur := { st.cur with items := mk (!lazy) x :: xs },
                     lastRepeat := true }, t1)

/-- The main loop of `syntax.Parse` with the flags `syntax.Perl`. The first
argument bounds the number of rounds; each round reads at least one character. -/
def parseLoop : Nat → PState → Str → Except CompileError Regex
  | 0, _, _ => .error .unmodelled
  | _ + 1, st, [] =>
    if st.outer = [] then .ok st.cur.collapse else .error (.bad .missingParen)
  | k + 1, st, c :: t =>
    if c = '(' then
      if t.head? = some '?' then .error .unmodelled
      else
        parseLoop k { outer := st.cur :: st.outer, cur := ⟨[], [], st.numCap + 1⟩,
                      numCap := st.numCap + 1, lastRepeat := false } t
    else if c = '|' then
      parseLoop k { st with cur := { st.cur with
                                     alts := mkCat st.cur.items.reverse :: st.cur.alts,
                                     items := [] },
                            lastRepeat := false } t
    else if c = ')' then
      match st.outer with
      | [] => .error (.bad .unexpectedParen)
      | p :: ps =>
        parseLoop k { st with outer := ps,
                              cur := { p with items := .group st.cur.cap st.cur.collapse :: p.items },
                              lastRepeat := false } t
    else if c = '^' then parseLoop k (st.push .beginText) t
    else if c = '$' then parseLoop k (st.push .endText) t
    else if c = '.' then parseLoop k (st.push .anyNotNL) t
    else if c = '[' then
      match classLoop (t.length + 1) true []
          (if t.head? = some '^' then t.tail else t) with
      | .error e => .error e
      | .ok (items, t1) =>
        parseLoop k (st.push (.cls (t.head? = some '^') items)) t1
    else if c = '*' then
      match applyRepeat .star st t with
      | .error e => .error e
      | .ok (st1, t1) => parseLoop k st1 t1
    else if c = '+' then
      match applyRepeat .plus st t with
      | .error e => .error e
      | .ok (st1, t1) => parseLoop k st1 t1
    else if c = '?' then
      match applyRepeat .quest st t with
      | .error e => .error e
      | .ok (st1, t1) => parseLoop k st1 t1
    else if c = '{' then
      if isRepeat t then .error .unmodelled
      else parseLoop k (st.push (.lit c)) t
    else if c = '\\' then
      match parseEscape t with
      | .error e => .error e
      | .ok (.perl it, t1) => parseLoop k (st.push (.cls false [it])) t1
      | .ok (.chr x, t1) => parseLoop k (st.push (.lit x)) t1
    else parseLoop k (st.push (.lit c)) t

/-- Model of `syntax.Parse` with the flags `syntax.Perl`, apart from its limits on the
size and the nesting depth of the expression. -/
def parsePattern (p : Str) : Except CompileError Regex :=
  parseLoop (p.length + 1) ⟨[], ⟨[], [], 0⟩, 0, false⟩ p

/-- The limit `maxRunes` of `regexp/syntax` (128 MB of runes): the parser adds up the
runes of every literal and class that it pushes and fails with `ErrLarge`
(`expression too large`) as soon as the sum exceeds this number. -/
def maxRunes : Nat := 33554432

/-- A pattern of at most this many characters stays below every limit of
`regexp/syntax`: its tree is less than `maxHeight = 1000` nodes deep, and the
parser pushes fewer than `maxRunes` runes and allocates fewer than `maxSize` nodes
for it. -/
def smallPattern : Nat := 512

/-- Characters of a plain binary name: ASCII letters, digits, `-` and `_`. Outside a
bracket, an escape and a group header the parser pushes each as one literal. -/
def plainChar (c : Char) : Bool :=
  c.isAlphanum || c == '-' || c == '_'

/-- The trailing run of plain characters of a pattern. -/
def plainSuffix (p : Str) : Str :=
  (p.reverse.takeWhile plainChar).reverse

/-- A case in which the parser certainly fails with `ErrLarge`: a small pattern, which
parses when one plain character follows it, followed by a run of more than `maxRunes`
plain characters. The parser reads the small pattern without error and then pushes
the characters of the run as literals, one rune each, until the sum of the runes
exceeds the limit. -/
def tooLarge (p : Str) : Bool :=
  let r := plainSuffix p
  let q := p.take (p.length - r.length)
  decide (maxRunes < r.length) && decide (q.length < smallPattern) &&
    (parsePattern (q ++ r.take 1)).toBool

/-- Whether the expression can match the empty string. -/
def Regex.nullable : Regex → Bool
  | .empty => true
  | .lit _ => false
  | .anyNotNL => false
  | .cls _ _ => false
  | .beginText => true
  | .endText => true
  | .cat a b => a.nullable && b.nullable
  | .alt a b => a.nullable || b.nullable
  | .star _ _ => true
  | .plus _ r => r.nullable
  | .quest _ _ => true
  | .group _ r => r.nullable

/-- Whether every `*` and `+` of the expression is applied to an expression that
cannot match the empty string, so that each round of the repetition reads at least
one character. -/
def Regex.loopsConsume : Regex → Bool
  | .cat a b => a.loopsConsume && b.loopsConsume
  | .alt a b => a.loopsConsume && b.loopsConsume
  | .star _ r => !r.nullable && r.loopsConsume
  | .plus _ r => !r.nullable && r.loopsConsume
  | .quest _ r => r.loopsConsume
  | .group _ r => r.loopsConsume
  | _ => true

/-- Model of `regexp.Compile`, on the modelled fragment. A small pattern is parsed; the
tree is given when each of its repetitions reads at least one character per round.
Of the patterns that are not small, the model decides those that are `tooLarge`; about
the others it says nothing, since `regexp/syntax` refuses an expression that is too
large or nested too deeply. -/
def compile (p : Str) : Except CompileError Regex :=
  if p.length ≤ smallPattern then
    match parsePattern p with
    | .error e => .error e
    | .ok re => if re.loopsConsume then .ok re else .error .unmodelled
  else if tooLarge p then .error (.bad .tooLarge)
  else .error .unmodelled

/-! ## `cmd/util.go` -/

/-- Ways in which a call does not return normally. -/
inductive Fault where
  /-- `exitWithError(err)`: the message is printed and the process exits with
  status 1. -/
  | exit (msg : Str)
  /-- Run-time panic `index out of range`. -/
  | indexOutOfRange
  /-- Panic of `regexp.MustCompile` on an invalid pattern. -/
  | badPattern (code : ErrorCode)
  /-- The call depends on `regexp` syntax or output outside the modelled fragment. -/
  | unmodelled
  deriving DecidableEq, Repr

deriving instance DecidableEq for Except

/-- A `map[string]string`, as the list of its entries. -/
abbrev StrMap := List (Str × Str)

/-- Model of `m[k]` with the comma-ok form. -/
def StrMap.get (m : StrMap) (k : Str) : Option Str :=
  m.lookup k

/-- Model of `m[k] = v`. -/
def StrMap.set (m : StrMap) (k v : Str) : StrMap :=
  (k, v) :: m.filter (fun e => e.1 != k)

/-- What `viper.Sub(component)` holds for one component: the values of
`GetBool("optional")`, `GetStringSlice("bins")`, `GetStringSlice("confs")`, and of
`GetString("defaultconf")` when `IsSet("defaultconf")`. -/
structure Component where
  optional : Bool
  bins : List Str
  confs : List Str
  defaultconf : Option Str
  deriving DecidableEq, Repr

/-- The configuration `v`: `GetStringSlice("components")` and `Sub`, which is nil
(`none`) for a name without a sub-configuration. -/
structure Catalog where
  components : List Str
  sub : Str → Option Component

/-- The cutset of `strings.Trim(bin, "'\"")`. -/
def quoteCutset : Str := ['\'', '"']

/-- The fixed part of the pattern of `verifyBin`. -/
def firstWordPattern : Str := "^(\\S*\\/)*".toList

/-- Model of `verifyBin`: checks that the binary specified is running. The index
`strings.Fields(bin)[0]` panics when `bin` has no field, `regexp.MustCompile`
panics when the pattern does not compile. -/
def verifyBin (psFunc : Str → Str) (bin : Str) : Except Fault Bool :=
  let bin := trim bin quoteCutset
  match fields bin with
  | [] => .error .indexOutOfRange
  | proc :: _ =>
    let out := psFunc proc
    match compile (firstWordPattern ++ bin) with
    | .error (.bad code) => .error (.badPattern code)
    | .error .unmodelled => .error .unmodelled
    | .ok reFirstWord =>
      let lines := split out '\n'
      .ok (lines.any (fun l => reFirstWord.matchString l))

/-- The error of `findExecutable`. -/
def noCandidatesRunning : Str := "no candidates running".toList

/-- Model of `findExecutable`: the pair `(string, error)`, with `none` for a nil
error. -/
def findExecutable (psFunc : Str → Str) : List Str → Except Fault (Str × Option Str)
  | [] => .ok ([], some noCandidatesRunning)
  | c :: candidates =>
    match verifyBin psFunc c with
    | .error f => .error f
    | .ok true => .ok (c, none)
    | .ok false => findExecutable psFunc candidates

/-- The message of the fatal error of `getBinaries`. -/
def needExecutable (component : Str) : Str :=
  "need ".toList ++ component ++ " executable but none of the candidates are running".toList

/-- The loop of `getBinaries` over the components, from the map built so far. -/
def getBinariesLoop (psFunc : Str → Str) (v : Catalog) : List Str → StrMap → Except Fault StrMap
  | [], binmap => .ok binmap
  | component :: rest, binmap =>
    match v.sub component with
    | none => getBinariesLoop psFunc v rest binmap
    | some s =>
      if s.bins.length > 0 then
        match findExecutable psFunc s.bins with
        | .error f => .error f
        | .ok (bin, err) =>
          if err ≠ none ∧ s.optional = false then .error (.exit (needExecutable component))
          else
            getBinariesLoop psFunc v rest
              (binmap.set component (if bin = [] then component else bin))
      else getBinariesLoop psFunc v rest binmap

/-- Model of `getBinaries`: finds which of the candidate executables are running. -/
def getBinaries (psFunc : Str → Str) (v : Catalog) : Except Fault StrMap :=
  getBinariesLoop psFunc v v.components []

/-- Outcome of `statFunc(path)`: a nil error, an error for which `os.IsNotExist`
holds, or another error with its text. -/
inductive StatResult where
  | found
  | notExist
  | failed (err : Str)
  deriving DecidableEq, Repr

/-- The message of the fatal error of `findConfigFile`. -/
def errorLookingFor (c err : Str) : Str :=
  "error looking for file ".toList ++ c ++ ": ".toList ++ err

/-- Model of `findConfigFile`: the first candidate that exists, or the empty string. -/
def findConfigFile (statFunc : Str → StatResult) : List Str → Except Fault Str
  | [] => .ok []
  | c :: candidates =>
    match statFunc c with
    | .found => .ok c
    | .notExist => findConfigFile statFunc candidates
    | .failed err => .error (.exit (errorLookingFor c err))

/-- The loop of `getConfigFiles` over the components, from the map built so far. -/
def getConfigFilesLoop (statFunc : Str → StatResult) (v : Catalog) :
    List Str → StrMap → Except Fault StrMap
  | [], confmap => .ok confmap
  | component :: rest, confmap =>
    match v.sub component with
    | none => getConfigFilesLoop statFunc v rest confmap
    | some s =>
      match findConfigFile statFunc s.confs with
      | .error f => .error f
      | .ok conf =>
        getConfigFilesLoop statFunc v rest
          (confmap.set component
            (if conf = [] then
              (match s.defaultconf with
               | some d => d
               | none => component)
             else conf))

/-- Model of `getConfigFiles`: finds which of the candidate config files exist. -/
def getConfigFiles (statFunc : Str → StatResult) (v : Catalog) : Except Fault StrMap :=
  getConfigFilesLoop statFunc v v.components []

/-- The tree of `regexVersionMajor`, the pattern `Major:"([0-9]+)"`. -/
def regexVersionMajor : Regex :=
  mkCat ("Major:\"".toList.map Regex.lit ++
    [.group 1 (.plus true (.cls false [⟨false, [(48, 57)]⟩])), .lit '"'])

/-- The tree of `regexVersionMinor`, the pattern `Minor:"([0-9]+)"`. -/
def regexVersionMinor : Regex :=
  mkCat ("Minor:\"".toList.map Regex.lit ++
    [.group 1 (.plus true (.cls false [⟨false, [(48, 57)]⟩])), .lit '"'])

/-- Model of `versionMatch`: the text of the first group of the leftmost match. -/
def versionMatch (r : Regex) (s : Str) : Str :=
  match r.findStringSubmatch s with
  | none => []
  | some m => if m.length < 2 then [] else m.getD 1 []

/-- The fixed part of the pattern of `checkVersion`. -/
def versionInfoPattern : Str := " Version: version.Info\x7b(.*)\x7d".toList

/-- Model of `checkVersion`. When the pattern does not compile the source returns
a message made from the text of the compile error, which is not modelled. -/
def checkVersion (x s expMajor expMinor : Str) : Except Fault Str :=
  match compile (x ++ versionInfoPattern) with
  | .error _ => .error .unmodelled
  | .ok regexVersion =>
    let ss := regexVersion.findString s
    let major := versionMatch regexVersionMajor ss
    let minor := versionMatch regexVersionMinor ss
    if major = [] ∨ minor = [] then
      .ok ("Couldn't find ".toList ++ x ++ " version from kubectl output '".toList ++ s ++
        "'".toList)
    else if major ≠ expMajor ∨ minor ≠ expMinor then
      .ok ("Unexpected ".toList ++ x ++ " version ".toList ++ major ++ ".".toList ++ minor)
    else .ok []

/-- The loop `for _, id := range ids { id = strings.Trim(id, " ") }` of `cleanIDs`:
each round assigns the trimmed text to the loop variable `id`, which is a copy of the
element, so the slice `ids` is what it was. -/
def cleanIDsLoop (ids : List Str) : List Str → List Str
  | [] => ids
  | id :: rest =>
    let _id := trim id [' ']
    cleanIDsLoop ids rest

/-- Model of `cleanIDs`. -/
def cleanIDs (list : Str) : List Str :=
  let list := trim list [',']
  let ids := split list ','
  cleanIDsLoop ids ids

/-- Model of `multiWordReplace`. -/
def multiWordReplace (s subname sub : Str) : Str :=
  let f := fields sub
  let sub := if f.length > 1 then "'".toList ++ sub ++ "'".toList else sub
  replaceAll s subname sub

/-- Model of `makeSubstitutions`. The map `m` is given as the list of its entries in
the order in which `range m` visits them, which Go leaves unspecified. -/
def makeSubstitutions (s ext : Str) : List (Str × Str) → Str
  | [] => s
  | (k, v) :: m =>
    let subst := "$".toList ++ k ++ ext
    if v = [] then makeSubstitutions s ext m
    else makeSubstitutions (multiWordReplace s subst v) ext m

/-! ## Predicates, reference definitions and sample data of the theorems -/

/-- The entry that `getBinaries` writes for a component, when it writes one. -/
def binOf (psFunc : Str → Str) (v : Catalog) (k : Str) : Option Str :=
  match v.sub k with
  | none => none
  | some s =>
    if s.bins.length > 0 then
      match findExecutable psFunc s.bins with
      | .ok (bin, _) => some (if bin = [] then k else bin)
      | .error _ => none
    else none

/-- A required component none of whose candidates is running: it has a
sub-configuration, is not optional, declares candidates, and `verifyBin` returns
false on each of them. -/
def Unresolved (psFunc : Str → Str) (v : Catalog) (comp : Str) : Prop :=
  ∃ s, v.sub comp = some s ∧ s.optional = false ∧ s.bins ≠ [] ∧
    ∀ b ∈ s.bins, verifyBin psFunc b = .ok false

/-- `verifyBin` returns (true or false) on each candidate binary of the component. -/
def VerifyReturns (psFunc : Str → Str) (v : Catalog) (comp : Str) : Prop :=
  ∀ s, v.sub comp = some s → ∀ b ∈ s.bins, ∃ r, verifyBin psFunc b = .ok r

/-- A process table in which only `kubelet` runs, started from `/usr/bin`. -/
def psKubelet : Str → Str := fun proc =>
  if proc = "kubelet".toList then "/usr/bin/kubelet --config=/etc/k.yaml\n".toList else []

/-- A process table in which nothing runs. -/
def psNothing : Str → Str := fun _ => []

/-- A catalog of an optional `etcd` and a required `kubelet`. -/
def sampleCatalog : Catalog where
  components := ["etcd".toList, "kubelet".toList]
  sub := fun k =>
    if k = "etcd".toList then
      some ⟨true, ["etcd".toList], ["/etc/etcd/etcd.conf".toList], none⟩
    else if k = "kubelet".toList then
      some ⟨false, ["hyperkube kubelet".toList, "kubelet".toList],
        ["/etc/kubernetes/kubelet.conf".toList, "/var/lib/kubelet/config.yaml".toList],
        some "kubelet.conf".toList⟩
    else none

/-- A catalog of optional components only. -/
def optionalCatalog : Catalog where
  components := ["etcd".toList, "flanneld".toList]
  sub := fun k =>
    if k = "etcd".toList then some ⟨true, ["etcd".toList], [], none⟩
    else if k = "flanneld".toList then some ⟨true, ["flanneld".toList], [], none⟩
    else none

/-- The entry that `getConfigFiles` writes for a component with a sub-configuration. -/
def confOf (statFunc : Str → StatResult) (v : Catalog) (k : Str) : Option Str :=
  match v.sub k with
  | none => none
  | some s =>
    match findConfigFile statFunc s.confs with
    | .ok conf =>
      some (if conf = [] then (match s.defaultconf with
                                | some d => d
                                | none => k) else conf)
    | .error _ => none

/-- A file system in which only `/etc/b.conf` exists. -/
def statOnlyB : Str → StatResult := fun path =>
  if path = "/etc/b.conf".toList then .found else .notExist

/-- A file system in which `/etc/a.conf` is missing, the check of `/etc/b.conf` fails
with a permission error, and `/etc/c.conf` exists. -/
def statDenied : Str → StatResult := fun path =>
  if path = "/etc/b.conf".toList then .failed "permission denied".toList
  else if path = "/etc/c.conf".toList then .found
  else .notExist

/-- A catalog for the config fallback: `etcd` has no default config name, `kubelet`
has one, and `proxy` lists the existing `/etc/b.conf` second. -/
def confCatalog : Catalog where
  components := ["etcd".toList, "kubelet".toList, "proxy".toList]
  sub := fun k =>
    if k = "etcd".toList then some ⟨true, [], ["/etc/a.conf".toList], none⟩
    else if k = "kubelet".toList then some ⟨false, [], [], some "kubelet.conf".toList⟩
    else if k = "proxy".toList then
      some ⟨false, [], ["/etc/a.conf".toList, "/etc/b.conf".toList], some "proxy.conf".toList⟩
    else none

/-- The tree of one path component `(\S*\/)`. -/
def pathPart : Regex :=
  .group 1 (.cat (.star true (.cls false [⟨true, perlSpace⟩])) (.lit '/'))

/-- The tree of `(\S*\/)*`: any number of path components. -/
def pathStar : Regex :=
  .star true pathPart

/-- Matching a sequence of trees one after the other. -/
def runSeq (n : Nat) : List Regex → Thread → List Thread
  | [], th => [th]
  | r :: rs, th => (run n r th).flatMap (runSeq n rs)

/-- The class `\s` of RE2: tab, newline, form feed, carriage return and space. -/
def reSpace (c : Char) : Bool :=
  inRanges perlSpace c

/-- A leading path as the pattern of `verifyBin` allows it: nothing, or a text
without `\s` characters that ends in `/`. -/
def LeadingPath (p : Str) : Prop :=
  p = [] ∨ ∃ w, p = w ++ ['/'] ∧ ∀ x ∈ w, reSpace x = false

/-- The threads of a greedy star over one character class: one per prefix of
characters of the class, the longest first. -/
def classTails (p : Char → Bool) : Str → List Str
  | [] => [[]]
  | x :: t => if p x then classTails p t ++ [x :: t] else [x :: t]

/-- The tree of the pattern of `verifyBin` for the name `c`. -/
def firstWordRegex (c : Str) : Regex :=
  mkCat ([.beginText, pathStar] ++ c.map Regex.lit)

/-- A candidate made of one or more letters, digits, `-` and `_`. -/
def PlainName (c : Str) : Prop :=
  c ≠ [] ∧ ∀ x ∈ c, plainChar x = true

/-- A process table with one line: a binary `apiserver` with an argument that
mentions `kube-apiserver`. -/
def psApiserverPeer : Str → Str := fun _ => "apiserver --peer=kube-apiserver".toList

/-- A process table of two `kube-apiserver` processes, one started with its path. -/
def psKubeApiserver : Str → Str := fun _ =>
  "/usr/local/bin/kube-apiserver --etcd-servers=http://127.0.0.1:2379\nkube-apiserver\n".toList

/-- A process table with the line `/usr/bin/kubelet --flag`. -/
def psKubeletFlag : Str → Str := fun _ => "/usr/bin/kubelet --flag".toList

/-- A process table with one line, of a binary `kubelet-proxy`. -/
def psKubeletProxy : Str → Str := fun _ => "/usr/bin/kubelet-proxy --v=2".toList

/-- A process table with one line, of a binary `kube-proxy`. -/
def psKubeProxy : Str → Str := fun _ => "kube-proxy --v=2".toList

/-- The part of a word after its last `/`. -/
def baseName (w : Str) : Str :=
  (w.reverse.takeWhile (fun c => c != '/')).reverse

/-- The first whitespace-delimited word of a line with its leading path removed. -/
def lineCommand (l : Str) : Option Str :=
  (fields l).head?.map baseName

/-- The text after the literal `lit` when the text starts with it. -/
def dropLit : Str → Str → Option Str
  | [], u => some u
  | _ :: _, [] => none
  | x :: l, y :: u => if y = x then dropLit l u else none

/-- The digits `d` when the text starts with `name:"d"` for one or more digits `d`. -/
def quotedAt (name u : Str) : Option Str :=
  match dropLit (name ++ [':', '"']) u with
  | none => none
  | some r0 =>
    if r0.takeWhile Char.isDigit ≠ [] ∧ (r0.dropWhile Char.isDigit).head? = some '"' then
      some (r0.takeWhile Char.isDigit)
    else none

/-- The digits of the first quoted numeric field `name:"<digits>"` of a text. -/
def quotedField (name : Str) : Str → Option Str
  | [] => none
  | x :: u =>
    match quotedAt name (x :: u) with
    | some d => some d
    | none => quotedField name u

/-- The tree of the pattern `name:"([0-9]+)"`. -/
def fieldRegex (name : Str) : Regex :=
  mkCat ((name ++ [':', '"']).map Regex.lit ++
    [.group 1 (.plus true (.cls false [⟨false, [(48, 57)]⟩])), .lit '"'])

/-- A version text as `kubectl version` prints it, client 1.20 and server 1.21. -/
def sampleVersionText : Str :=
  ("Client Version: version.Info\x7bMajor:\"1\", Minor:\"20\", GitVersion:\"v1.20.0\"\x7d\n" ++
   "Server Version: version.Info\x7bMajor:\"1\", Minor:\"21\", GitVersion:\"v1.21.0\"\x7d\n").toList

/-- The value as `multiWordReplace` inserts it: wrapped in single quotes when it
consists of two or more whitespace-separated words, unchanged otherwise. -/
def quoteWords (v : Str) : Str :=
  if 1 < (fields v).length then "'".toList ++ v ++ "'".toList else v

/-- The pieces of a text joined by a separator. -/
def joinWith (sep : Str) : List Str → Str
  | [] => []
  | [p] => p
  | p :: q :: ps => p ++ sep ++ joinWith sep (q :: ps)

/-- The placeholder token of a key: `$`, the key, the suffix. -/
def token (k ext : Str) : Str :=
  "$".toList ++ k ++ ext

/-- The arguments with which `verifyBin` calls `psFunc`, in order: the first field of
the stripped candidate, when the index does not panic. -/
def psQueries (bin : Str) : List Str :=
  let bin := trim bin quoteCutset
  match fields bin with
  | [] => []
  | proc :: _ => [proc]

/-- Whether the character is one of the two quote characters. -/
def isQuote (c : Char) : Bool := quoteCutset.contains c

/-- The tree of the pattern `<role> Version: version.Info{(.*)}` of `checkVersion`;
the `.` of `version.Info` stands for any character but the newline. -/
def segmentRegex (role : Str) : Regex :=
  mkCat ((role ++ " Version: version".toList).map Regex.lit ++ [Regex.anyNotNL] ++
    "Info\x7b".toList.map Regex.lit ++ [.group 1 (.star true .anyNotNL), .lit '\x7d'])

/-- The text after the last `}` of the first line of a text, if that line has one. -/
def afterLastBrace : Str → Option Str
  | [] => none
  | c :: t =>
    if c = '\n' then none
    else
      match afterLastBrace t with
      | some r => some r
      | none => if c = '\x7d' then some t else none

/-- The first line of a text up to and including its last `}`, if that line has one. -/
def upToLastBrace : Str → Option Str
  | [] => none
  | c :: t =>
    if c = '\n' then none
    else
      match upToLastBrace t with
      | some b => some (c :: b)
      | none => if c = '\x7d' then some [c] else none

/-- The segment of a role that starts a text `u`: when `u` starts with
`<role> Version: version`, one character other than the newline and `Info{`, and the
rest of that line has a `}`, the text of `u` up to and including the last `}` of that
line. -/
def segmentAt (role u : Str) : Option Str :=
  match dropLit (role ++ " Version: version".toList) u with
  | some (c :: r1) =>
    if c = '\n' then none
    else
      match dropLit "Info\x7b".toList r1 with
      | some r2 =>
        (upToLastBrace r2).map
          (fun b => role ++ " Version: version".toList ++ c :: "Info\x7b".toList ++ b)
      | none => none
  | _ => none

/-- The segment of a role in a text: the segment that starts at the first position
where one starts, the empty string when there is none. -/
def segmentOf (role : Str) : Str → Str
  | [] => []
  | x :: u =>
    match segmentAt role (x :: u) with
    | some seg => seg
    | none => segmentOf role u

/-- A version text with client 1.21 and server 1.20. -/
def sampleOldServerText : Str :=
  ("Client Version: version.Info\x7bMajor:\"1\", Minor:\"21\", GitVersion:\"v1.21.0\"\x7d\n" ++
   "Server Version: version.Info\x7bMajor:\"1\", Minor:\"20\", GitVersion:\"v1.20.0\"\x7d\n").toList

/-- A version text on one line: a client segment without `Minor`, followed by a
server segment with both fields. -/
def sampleOneLineText : Str :=
  ("Client Version: version.Info\x7bMajor:\"1\"\x7d " ++
   "Server Version: version.Info\x7bMajor:\"1\", Minor:\"20\"\x7d").toList

/-- A version text on two lines: a client segment without `Minor`, and a server
segment with both fields. -/
def sampleTwoLineText : Str :=
  ("Client Version: version.Info\x7bMajor:\"1\"\x7d\n" ++
   "Server Version: version.Info\x7bMajor:\"1\", Minor:\"20\"\x7d\n").toList

/-- The header `<role> Version: version.Info{` of the segment of a role. -/
def infoHeader (role : Str) : Str :=
  role ++ " Version: version.Info\x7b".toList

/-- The segment of a role that starts a text `u`: when `u` starts with the header
`<role> Version: version.Info{` and the rest of that line has a `}`, the text of `u`
up to and including the last `}` of that line. -/
def infoSegmentAt (role u : Str) : Option Str :=
  match dropLit (infoHeader role) u with
  | some r2 => (upToLastBrace r2).map (fun b => infoHeader role ++ b)
  | none => none

/-- The segment of a role in a text: the one that starts at the first header
`<role> Version: version.Info{` with a `}` after it on the same line, and ends with
the last `}` of that line; the empty string when there is none. -/
def infoSegmentOf (role : Str) : Str → Str
  | [] => []
  | x :: u =>
    match infoSegmentAt role (x :: u) with
    | some seg => seg
    | none => infoSegmentOf role u

/-- Whether, wherever the text has `<role> Version: version`, one character and
`Info{`, that character is `.` or a line break. -/
def dottedHeaders (role : Str) : Str → Bool
  | [] => true
  | x :: u =>
    (match dropLit (role ++ " Version: version".toList) (x :: u) with
      | some (c :: r1) => !(startsWith r1 "Info\x7b".toList) || c == '.' || c == '\n'
      | _ => true) && dottedHeaders role u

/-- A version text in which another character stands for the `.` of `version.Info`. -/
def sampleWildcardText : Str :=
  "Client Version: versionXInfo\x7bMajor:\"1\", Minor:\"20\"\x7d".toList

/-- The text made of a first piece and of further pieces, each after a `$`. -/
def joinDollar : Str → List Str → Str
  | h, [] => h
  | h, t :: ts => h ++ '$' :: joinDollar t ts

/-- The text made of pieces with a `$` between each two. -/
def joinPieces : List Str → Str
  | [] => []
  | h :: ts => joinDollar h ts

/-- Replacing the token `$` + `body` by `v` in a text given by its pieces between the
`$` characters, `cur` being the piece in hand: a piece that starts with `body` loses
its `$` and the body, and `v` and the rest of it are added to the piece in hand. -/
def fillFrom (body v : Str) : Str → List Str → List Str
  | cur, [] => [cur]
  | cur, t :: ts =>
    match dropLit body t with
    | some r => fillFrom body v (cur ++ v ++ r) ts
    | none => cur :: fillFrom body v t ts

/-- Replacing the token `$` + `body` by `v` in a text given by its pieces between the
`$` characters. -/
def fill (body v : Str) : List Str → List Str
  | [] => []
  | h :: ts => fillFrom body v h ts

/-- The pieces after one entry of the map has been visited. -/
def fillStep (ext : Str) (l : List Str) (e : Str × Str) : List Str :=
  if e.2 = [] then l else fill (e.1 ++ ext) (quoteWords e.2) l

/-- No piece but the last is an incomplete body: a piece that is followed by a `$`
and is the beginning of a body is the whole body. -/
def NoPartial (bodies : List Str) (ts : List Str) : Prop :=
  ∀ t ∈ ts.dropLast, ∀ b ∈ bodies, startsWith b t = true → t = b

/-- The conditions under which the replacements of a map do not produce a token: the
keys are distinct, `$` occurs neither in the suffix nor in a key nor in a value, and
the token of a key is not a prefix of the token of another key. -/
def Independent (ext : Str) (m : List (Str × Str)) : Prop :=
  (m.map Prod.fst).Nodup ∧ '$' ∉ ext ∧ (∀ e ∈ m, '$' ∉ e.1 ∧ '$' ∉ e.2) ∧
  ∀ e1 ∈ m, ∀ e2 ∈ m, e1.1 ≠ e2.1 → startsWith (token e2.1 ext) (token e1.1 ext) = false

/-- The condition under which the replacements of a map do not complete a token of
the template: no text that stands between two `$` characters of the template, one
after the other, is the beginning of `<key><ext>` for a key of the map without
being the whole of it. -/
def NoPartialToken (ext : Str) (m : List (Str × Str)) (s : Str) : Prop :=
  ∀ t ∈ (split s '$').tail.dropLast, ∀ e ∈ m,
    startsWith (e.1 ++ ext) t = true → t = e.1 ++ ext

instance NoPartialToken.decidable (ext : Str) (m : List (Str × Str)) (s : Str) :
    Decidable (NoPartialToken ext m s) := by
  unfold NoPartialToken
  infer_instance

/-! ## Theorems -/

/-- The trees of the two version patterns are what `regexp.Compile` yields. -/
theorem compile_regexVersion :
    compile "Major:\"([0-9]+)\"".toList = .ok regexVersionMajor ∧
    compile "Minor:\"([0-9]+)\"".toList = .ok regexVersionMinor := by
  constructor <;> rfl

/-! ### Maps -/

theorem lookup_filter_ne (l : StrMap) (k k2 : Str) (h : k2 ≠ k) :
    List.lookup k2 (l.filter (fun e => e.1 != k)) = List.lookup k2 l := by
  induction l with
  | nil => rfl
  | cons e l ih =>
    obtain ⟨a, b⟩ := e
    by_cases ha : a = k
    · subst ha
      have h2 : (k2 == a) = false := by simpa using h
      simp [List.filter, List.lookup, ih, h2]
    · have h1 : (a != k) = true := by simpa using ha
      simp only [List.filter, h1, List.lookup, ih]

theorem StrMap.get_set (m : StrMap) (k v k2 : Str) :
    (m.set k v).get k2 = if k2 = k then some v else m.get k2 := by
  unfold StrMap.set StrMap.get
  by_cases h : k2 = k
  · subst h
    simp [List.lookup]
  · have h2 : (k2 == k) = false := by simpa using h
    simp [List.lookup, h, h2, lookup_filter_ne m k k2 h]

/-! ### `findExecutable` -/

theorem findExecutable_accept (psFunc : Str → Str) (pre : List Str) (c : Str) (post : List Str)
    (hc : verifyBin psFunc c = .ok true) (hpre : ∀ x ∈ pre, verifyBin psFunc x = .ok false) :
    findExecutable psFunc (pre ++ c :: post) = .ok (c, none) := by
  induction pre with
  | nil => simp [findExecutable, hc]
  | cons x pre ih =>
    have hx : verifyBin psFunc x = .ok false := hpre x (by simp)
    have := ih (fun y hy => hpre y (by simp [hy]))
    simp [findExecutable, hx, this]

theorem findExecutable_reject (psFunc : Str → Str) (cands : List Str)
    (h : ∀ c ∈ cands, verifyBin psFunc c = .ok false) :
    findExecutable psFunc cands = .ok ([], some noCandidatesRunning) := by
  induction cands with
  | nil => rfl
  | cons x cands ih =>
    have hx : verifyBin psFunc x = .ok false := h x (by simp)
    have := ih (fun y hy => h y (by simp [hy]))
    simp [findExecutable, hx, this]

/-- What a returned pair of `findExecutable` says about the candidates. -/
theorem findExecutable_ok (psFunc : Str → Str) (cands : List Str) (bin : Str) (err : Option Str)
    (h : findExecutable psFunc cands = .ok (bin, err)) :
    (err = none ∧ bin ∈ cands ∧ verifyBin psFunc bin = .ok true) ∨
    (bin = [] ∧ err = some noCandidatesRunning ∧ ∀ c ∈ cands, verifyBin psFunc c = .ok false) := by
  induction cands with
  | nil =>
    simp only [findExecutable, Except.ok.injEq, Prod.mk.injEq] at h
    right
    exact ⟨h.1.symm, h.2.symm, by simp⟩
  | cons x cands ih =>
    unfold findExecutable at h
    cases hx : verifyBin psFunc x with
    | error f => simp [hx] at h
    | ok b =>
      cases b with
      | true =>
        simp only [hx, Except.ok.injEq, Prod.mk.injEq] at h
        left
        refine ⟨h.2.symm, by simp [h.1], ?_⟩
        rw [← h.1]; exact hx
      | false =>
        simp only [hx] at h
        rcases ih h with h1 | h1
        · left; exact ⟨h1.1, by simp [h1.2.1], h1.2.2⟩
        · right
          refine ⟨h1.1, h1.2.1, ?_⟩
          intro c hcm
          rcases List.mem_cons.1 hcm with rfl | hcm
          · exact hx
          · exact h1.2.2 c hcm

/-- When `verifyBin` returns on every candidate, `findExecutable` returns. -/
theorem findExecutable_returns (psFunc : Str → Str) (cands : List Str)
    (h : ∀ b ∈ cands, ∃ r, verifyBin psFunc b = .ok r) :
    ∃ res, findExecutable psFunc cands = .ok res := by
  induction cands with
  | nil => exact ⟨_, rfl⟩
  | cons x cands ih =>
    obtain ⟨r, hr⟩ := h x (by simp)
    obtain ⟨res, hres⟩ := ih (fun y hy => h y (by simp [hy]))
    cases r with
    | true => exact ⟨(x, none), by simp [findExecutable, hr]⟩
    | false => exact ⟨res, by simp [findExecutable, hr, hres]⟩

/-! ### `getBinaries` -/

/-- The entries of the map returned by the loop: those written for the components
visited, over the entries the map had before. -/
theorem getBinariesLoop_get (psFunc : Str → Str) (v : Catalog) :
    ∀ (comps : List Str) (m0 m : StrMap), getBinariesLoop psFunc v comps m0 = .ok m →
      ∀ k, m.get k =
        if k ∈ comps then (binOf psFunc v k).orElse (fun _ => m0.get k) else m0.get k := by
  intro comps
  induction comps with
  | nil =>
    intro m0 m h k
    simp only [getBinariesLoop, Except.ok.injEq] at h
    simp [h]
  | cons comp rest ih =>
    intro m0 m h k
    unfold getBinariesLoop at h
    cases hsub : v.sub comp with
    | none =>
      simp only [hsub] at h
      rw [ih m0 m h k]
      by_cases hk : k = comp
      · subst hk
        by_cases hr : k ∈ rest <;> simp [hr, binOf, hsub]
      · simp [hk]
    | some s =>
      simp only [hsub] at h
      by_cases hb : s.bins.length > 0
      · simp only [hb, if_true] at h
        cases hf : findExecutable psFunc s.bins with
        | error f => simp [hf] at h
        | ok res =>
          obtain ⟨bin, err⟩ := res
          simp only [hf] at h
          by_cases hx : err ≠ none ∧ s.optional = false
          · simp [hx] at h
          · rw [if_neg hx] at h
            rw [ih _ m h k]
            by_cases hk : k = comp
            · subst hk
              by_cases hr : k ∈ rest <;>
                simp [hr, binOf, hsub, hb, hf, StrMap.get_set]
            · simp [hk, StrMap.get_set]
      · simp only [hb, if_false] at h
        rw [ih m0 m h k]
        by_cases hk : k = comp
        · subst hk
          by_cases hr : k ∈ rest <;> simp [hr, binOf, hsub, hb]
        · simp [hk]

/-- A loop that returns has resolved every visited component that declares
candidates, and none of them was a missing required one. -/
theorem getBinariesLoop_ok (psFunc : Str → Str) (v : Catalog) :
    ∀ (comps : List Str) (m0 m : StrMap), getBinariesLoop psFunc v comps m0 = .ok m →
      ∀ comp ∈ comps, ∀ s, v.sub comp = some s → s.bins ≠ [] →
        ∃ bin err, findExecutable psFunc s.bins = .ok (bin, err) ∧
          (err = none ∨ s.optional = true) := by
  intro comps
  induction comps with
  | nil => intro m0 m _ comp hc; simp at hc
  | cons c rest ih =>
    intro m0 m h comp hc s hs hne
    have hlen : s.bins.length > 0 := List.length_pos.2 hne
    unfold getBinariesLoop at h
    rcases List.mem_cons.1 hc with rfl | hc
    · simp only [hs, hlen, if_true] at h
      cases hf : findExecutable psFunc s.bins with
      | error f => simp [hf] at h
      | ok res =>
        obtain ⟨bin, err⟩ := res
        simp only [hf] at h
        by_cases hx : err ≠ none ∧ s.optional = false
        · simp [hx] at h
        · refine ⟨bin, err, rfl, ?_⟩
          by_cases he : err = none
          · exact Or.inl he
          · right
            cases ho : s.optional with
            | true => rfl
            | false => exact absurd ⟨he, ho⟩ hx
    · cases hsub : v.sub c with
      | none =>
        simp only [hsub] at h
        exact ih m0 m h comp hc s hs hne
      | some s2 =>
        simp only [hsub] at h
        by_cases hb : s2.bins.length > 0
        · simp only [hb, if_true] at h
          cases hf : findExecutable psFunc s2.bins with
          | error f => simp [hf] at h
          | ok res =>
            obtain ⟨bin, err⟩ := res
            simp only [hf] at h
            by_cases hx : err ≠ none ∧ s2.optional = false
            · simp [hx] at h
            · rw [if_neg hx] at h
              exact ih _ m h comp hc s hs hne
        · simp only [hb, if_false] at h
          exact ih m0 m h comp hc s hs hne

/-- The loop passes over components on which `verifyBin` returns and that are not
missing required ones. -/
theorem getBinariesLoop_skip (psFunc : Str → Str) (v : Catalog) :
    ∀ (pre rest : List Str) (m0 : StrMap),
      (∀ c ∈ pre, VerifyReturns psFunc v c) → (∀ c ∈ pre, ¬ Unresolved psFunc v c) →
      ∃ m1, getBinariesLoop psFunc v (pre ++ rest) m0 = getBinariesLoop psFunc v rest m1 := by
  intro pre
  induction pre with
  | nil => intro rest m0 _ _; exact ⟨m0, rfl⟩
  | cons c pre ih =>
    intro rest m0 hret hun
    have hret2 : ∀ x ∈ pre, VerifyReturns psFunc v x := fun x hx => hret x (by simp [hx])
    have hun2 : ∀ x ∈ pre, ¬ Unresolved psFunc v x := fun x hx => hun x (by simp [hx])
    rw [List.cons_append, getBinariesLoop]
    cases hsub : v.sub c with
    | none => exact ih rest m0 hret2 hun2
    | some s =>
      simp only []
      by_cases hb : s.bins.length > 0
      · simp only [hb, if_true]
        obtain ⟨res, hres⟩ := findExecutable_returns psFunc s.bins (hret c (by simp) s hsub)
        obtain ⟨bin, err⟩ := res
        simp only [hres]
        by_cases hx : err ≠ none ∧ s.optional = false
        · exfalso
          rcases findExecutable_ok psFunc s.bins bin err hres with h1 | h1
          · exact hx.1 h1.1
          · exact hun c (by simp) ⟨s, hsub, hx.2, List.length_pos.1 hb, h1.2.2⟩
        · rw [if_neg hx]
          exact ih rest _ hret2 hun2
      · simp only [hb, if_false]
        exact ih rest m0 hret2 hun2

/-- At a missing required component the loop ends in the fatal error naming it. -/
theorem getBinariesLoop_fatal (psFunc : Str → Str) (v : Catalog) (F : Str) (post : List Str)
    (m : StrMap) (hF : Unresolved psFunc v F) :
    getBinariesLoop psFunc v (F :: post) m = .error (.exit (needExecutable F)) := by
  obtain ⟨s, hsub, hopt, hne, hrej⟩ := hF
  have hlen : s.bins.length > 0 := List.length_pos.2 hne
  unfold getBinariesLoop
  simp [hsub, hlen, findExecutable_reject psFunc s.bins hrej, hopt]

/-- A list with an element satisfying `P` has a first such element. -/
theorem exists_first {α : Type} (P : α → Prop) (l : List α) (h : ∃ x ∈ l, P x) :
    ∃ pre x post, l = pre ++ x :: post ∧ P x ∧ ∀ y ∈ pre, ¬ P y := by
  classical
  induction l with
  | nil => simp at h
  | cons a l ih =>
    by_cases ha : P a
    · exact ⟨[], a, l, rfl, ha, by simp⟩
    · obtain ⟨x, hx, hPx⟩ := h
      rcases List.mem_cons.1 hx with rfl | hx
      · exact absurd hPx ha
      · obtain ⟨pre, y, post, hl, hy, hpre⟩ := ih ⟨x, hx, hPx⟩
        refine ⟨a :: pre, y, post, by simp [hl], hy, ?_⟩
        intro z hz
        rcases List.mem_cons.1 hz with rfl | hz
        · exact ha
        · exact hpre z hz

/-- `verifyBin` never calls `exitWithError`. -/
theorem verifyBin_ne_exit (psFunc : Str → Str) (bin msg : Str) :
    verifyBin psFunc bin ≠ .error (.exit msg) := by
  unfold verifyBin
  intro h
  dsimp only at h
  cases hf : fields (trim bin quoteCutset) with
  | nil => simp [hf] at h
  | cons proc rest =>
    simp only [hf] at h
    cases hc : compile (firstWordPattern ++ trim bin quoteCutset) with
    | error e => cases e <;> simp [hc] at h
    | ok r => simp [hc] at h

/-- `findExecutable` never calls `exitWithError`. -/
theorem findExecutable_ne_exit (psFunc : Str → Str) (cands : List Str) (msg : Str) :
    findExecutable psFunc cands ≠ .error (.exit msg) := by
  induction cands with
  | nil => simp [findExecutable]
  | cons x cands ih =>
    unfold findExecutable
    cases hx : verifyBin psFunc x with
    | error f =>
      intro h
      simp only [Except.error.injEq] at h
      exact verifyBin_ne_exit psFunc x msg (by rw [hx, h])
    | ok b =>
      cases b with
      | true => simp
      | false => simpa using ih

/-- A fatal error of the loop comes from a required component. -/
theorem getBinariesLoop_exit (psFunc : Str → Str) (v : Catalog) (msg : Str) :
    ∀ (comps : List Str) (m0 : StrMap),
      getBinariesLoop psFunc v comps m0 = .error (.exit msg) →
      ∃ comp ∈ comps, ∃ s, v.sub comp = some s ∧ s.optional = false ∧
        msg = needExecutable comp := by
  intro comps
  induction comps with
  | nil => intro m0 h; simp [getBinariesLoop] at h
  | cons c rest ih =>
    intro m0 h
    rw [getBinariesLoop] at h
    cases hsub : v.sub c with
    | none =>
      simp only [hsub] at h
      obtain ⟨comp, hc, hrest⟩ := ih m0 h
      exact ⟨comp, by simp [hc], hrest⟩
    | some s =>
      simp only [hsub] at h
      by_cases hb : s.bins.length > 0
      · simp only [hb, if_true] at h
        cases hf : findExecutable psFunc s.bins with
        | error f =>
          simp only [hf, Except.error.injEq] at h
          exact absurd (by rw [hf, h]) (findExecutable_ne_exit psFunc s.bins msg)
        | ok res =>
          obtain ⟨bin, err⟩ := res
          simp only [hf] at h
          by_cases hx : err ≠ none ∧ s.optional = false
          · rw [if_pos hx] at h
            simp only [Except.error.injEq, Fault.exit.injEq] at h
            exact ⟨c, by simp, s, hsub, hx.2, h.symm⟩
          · rw [if_neg hx] at h
            obtain ⟨comp, hc, hrest⟩ := ih _ h
            exact ⟨comp, by simp [hc], hrest⟩
      · simp only [hb, if_false] at h
        obtain ⟨comp, hc, hrest⟩ := ih m0 h
        exact ⟨comp, by simp [hc], hrest⟩

/-! ### Claims about binary resolution -/

/-- **C1.** `findExecutable` returns the first verified candidate: a candidate that
`verifyBin` accepts while it rejects every candidate before it is returned with a nil
error; and the empty string with an error is returned exactly when `verifyBin`
rejects every candidate (the empty list included). -/
theorem findExecutable_first_verified (psFunc : Str → Str) (candidates : List Str) :
    (∀ pre c post, candidates = pre ++ c :: post → verifyBin psFunc c = .ok true →
      (∀ x ∈ pre, verifyBin psFunc x = .ok false) →
      findExecutable psFunc candidates = .ok (c, none)) ∧
    ((∃ err, findExecutable psFunc candidates = .ok ([], some err)) ↔
      ∀ c ∈ candidates, verifyBin psFunc c = .ok false) := by
  refine ⟨?_, ?_, ?_⟩
  · intro pre c post hl hc hpre
    rw [hl]
    exact findExecutable_accept psFunc pre c post hc hpre
  · rintro ⟨err, h⟩
    rcases findExecutable_ok psFunc candidates [] (some err) h with h1 | h1
    · simp at h1
    · exact h1.2.2
  · intro h
    exact ⟨_, findExecutable_reject psFunc candidates h⟩

/-- Instance of C1: with only `kubelet` running, the second candidate is returned. -/
theorem findExecutable_first_verified_witness :
    verifyBin psKubelet "kubelet".toList = .ok true ∧
    verifyBin psKubelet "hyperkube kubelet".toList = .ok false ∧
    findExecutable psKubelet ["hyperkube kubelet".toList, "kubelet".toList] =
      .ok ("kubelet".toList, none) :=
  ⟨by decide, by decide,
    (findExecutable_first_verified psKubelet
      ["hyperkube kubelet".toList, "kubelet".toList]).1
      ["hyperkube kubelet".toList] "kubelet".toList [] rfl (by decide) (by decide)⟩

/-- **C2.** A required component without a running candidate is fatal. With
`exitWithError` as an error result: if some component has a sub-configuration, is not
optional, declares candidates and has them all rejected by `verifyBin`, then
`getBinaries` returns no map. When `F` is the first such component of the catalog
and `verifyBin` returns on the candidates of the components before it, `getBinaries`
ends in the fatal error `need F executable but none of the candidates are running`,
which contains the name `F`; so on a catalog on whose candidates `verifyBin` returns,
the fatal error names the first such component. -/
theorem getBinaries_required_unresolved_fatal (psFunc : Str → Str) (v : Catalog) :
    ((∃ comp ∈ v.components, Unresolved psFunc v comp) →
      ∀ m, getBinaries psFunc v ≠ .ok m) ∧
    (∀ pre F post, v.components = pre ++ F :: post → Unresolved psFunc v F →
      (∀ c ∈ pre, ¬ Unresolved psFunc v c) → (∀ c ∈ pre, VerifyReturns psFunc v c) →
      getBinaries psFunc v = .error (.exit (needExecutable F)) ∧
      F <:+: needExecutable F) ∧
    ((∃ comp ∈ v.components, Unresolved psFunc v comp) →
      (∀ c ∈ v.components, VerifyReturns psFunc v c) →
      ∃ pre F post, v.components = pre ++ F :: post ∧ Unresolved psFunc v F ∧
        (∀ c ∈ pre, ¬ Unresolved psFunc v c) ∧
        getBinaries psFunc v = .error (.exit (needExecutable F)) ∧
        F <:+: needExecutable F) := by
  have key : ∀ pre F post, v.components = pre ++ F :: post → Unresolved psFunc v F →
      (∀ c ∈ pre, ¬ Unresolved psFunc v c) → (∀ c ∈ pre, VerifyReturns psFunc v c) →
      getBinaries psFunc v = .error (.exit (needExecutable F)) ∧
      F <:+: needExecutable F := by
    intro pre F post hl hF hfirst hret
    refine ⟨?_, ⟨"need ".toList, " executable but none of the candidates are running".toList, rfl⟩⟩
    unfold getBinaries
    rw [hl]
    obtain ⟨m1, hm1⟩ := getBinariesLoop_skip psFunc v pre (F :: post) [] hret hfirst
    rw [hm1]
    exact getBinariesLoop_fatal psFunc v F post m1 hF
  refine ⟨?_, key, ?_⟩
  · rintro ⟨comp, hc, s, hs, hopt, hne, hrej⟩ m hm
    obtain ⟨bin, err, hf, hor⟩ :=
      getBinariesLoop_ok psFunc v v.components [] m hm comp hc s hs hne
    rw [findExecutable_reject psFunc s.bins hrej] at hf
    simp only [Except.ok.injEq, Prod.mk.injEq] at hf
    rcases hor with h | h
    · rw [h] at hf
      exact absurd hf.2 (by simp)
    · rw [hopt] at h
      exact absurd h (by decide)
  · intro hex hret
    obtain ⟨pre, F, post, hl, hF, hfirst⟩ :=
      exists_first (Unresolved psFunc v) v.components hex
    have h := key pre F post hl hF hfirst (fun c hc => hret c (by simp [hl, hc]))
    exact ⟨pre, F, post, hl, hF, hfirst, h⟩

/-- Instance of C2: nothing runs, `etcd` is optional, `kubelet` is required. -/
theorem getBinaries_required_unresolved_fatal_witness :
    Unresolved psNothing sampleCatalog "kubelet".toList ∧
    getBinaries psNothing sampleCatalog =
      .error (.exit "need kubelet executable but none of the candidates are running".toList) :=
  have hF : Unresolved psNothing sampleCatalog "kubelet".toList :=
    ⟨_, rfl, rfl, by decide, by decide⟩
  ⟨hF, ((getBinaries_required_unresolved_fatal psNothing sampleCatalog).2.1
    ["etcd".toList] "kubelet".toList [] rfl hF
    (by
      intro c hc
      rw [List.mem_singleton] at hc
      subst hc
      rintro ⟨s, hs, hopt, _⟩
      have : s = ⟨true, ["etcd".toList], ["/etc/etcd/etcd.conf".toList], none⟩ :=
        (Option.some.inj hs).symm
      subst this
      exact absurd hopt (by decide))
    (by
      intro c hc
      rw [List.mem_singleton] at hc
      subst hc
      intro s hs
      have : s = ⟨true, ["etcd".toList], ["/etc/etcd/etcd.conf".toList], none⟩ :=
        (Option.some.inj hs).symm
      subst this
      intro b hb
      rw [show b = "etcd".toList from List.mem_singleton.1 hb]
      exact ⟨false, by decide⟩)).1⟩

/-- **C3.** An optional component without a running candidate is not fatal. On a
catalog on which `getBinaries` returns a map, every optional component that declares
candidates none of which is accepted is mapped to its own name; a catalog of optional
components only never ends in the fatal error, and `getBinaries` returns a map for it
whenever `verifyBin` returns on its candidates. -/
theorem getBinaries_optional_defaults (psFunc : Str → Str) (v : Catalog) :
    (∀ m, getBinaries psFunc v = .ok m → ∀ comp ∈ v.components, ∀ s,
      v.sub comp = some s → s.optional = true → s.bins ≠ [] →
      (∀ b ∈ s.bins, verifyBin psFunc b ≠ .ok true) → m.get comp = some comp) ∧
    ((∀ comp ∈ v.components, ∀ s, v.sub comp = some s → s.optional = true) →
      (∀ msg, getBinaries psFunc v ≠ .error (.exit msg)) ∧
      ((∀ c ∈ v.components, VerifyReturns psFunc v c) →
        ∃ m, getBinaries psFunc v = .ok m)) := by
  refine ⟨?_, ?_⟩
  · intro m hm comp hc s hs _ hne hnone
    have hget := getBinariesLoop_get psFunc v v.components [] m hm comp
    obtain ⟨bin, err, hf, _⟩ := getBinariesLoop_ok psFunc v v.components [] m hm comp hc s hs hne
    have hbin : bin = [] := by
      rcases findExecutable_ok psFunc s.bins bin err hf with h1 | h1
      · exact absurd h1.2.2 (hnone bin h1.2.1)
      · exact h1.1
    have hlen : s.bins.length > 0 := List.length_pos.2 hne
    rw [hget]
    simp [hc, binOf, hs, hlen, hf, hbin]
  · intro hopt
    refine ⟨?_, ?_⟩
    · intro msg h
      obtain ⟨comp, hc, s, hs, ho, _⟩ := getBinariesLoop_exit psFunc v msg v.components [] h
      rw [hopt comp hc s hs] at ho
      exact absurd ho (by decide)
    · intro hret
      have hun : ∀ c ∈ v.components, ¬ Unresolved psFunc v c := by
        rintro c hc ⟨s, hs, ho, _⟩
        rw [hopt c hc s hs] at ho
        exact absurd ho (by decide)
      obtain ⟨m1, hm1⟩ := getBinariesLoop_skip psFunc v v.components [] [] hret hun
      refine ⟨m1, ?_⟩
      unfold getBinaries
      rw [← List.append_nil v.components, hm1]
      rfl

/-- Instance of C3: nothing runs and both components are optional, so each is
mapped to its own name. -/
theorem getBinaries_optional_defaults_witness :
    getBinaries psNothing optionalCatalog =
      .ok [("flanneld".toList, "flanneld".toList), ("etcd".toList, "etcd".toList)] ∧
    StrMap.get [("flanneld".toList, "flanneld".toList), ("etcd".toList, "etcd".toList)]
      "etcd".toList = some "etcd".toList :=
  have hm : getBinaries psNothing optionalCatalog =
      .ok [("flanneld".toList, "flanneld".toList), ("etcd".toList, "etcd".toList)] := by
    decide
  ⟨hm, (getBinaries_optional_defaults psNothing optionalCatalog).1 _ hm "etcd".toList
    (by decide) ⟨true, ["etcd".toList], [], none⟩ rfl rfl (by decide) (by decide)⟩

/-! ### `findConfigFile` and `getConfigFiles` -/

theorem findConfigFile_found (statFunc : Str → StatResult) (pre : List Str) (c : Str)
    (post : List Str) (hc : statFunc c = .found) (hpre : ∀ x ∈ pre, statFunc x = .notExist) :
    findConfigFile statFunc (pre ++ c :: post) = .ok c := by
  induction pre with
  | nil => simp [findConfigFile, hc]
  | cons x pre ih =>
    have hx : statFunc x = .notExist := hpre x (by simp)
    have := ih (fun y hy => hpre y (by simp [hy]))
    simp [findConfigFile, hx, this]

theorem findConfigFile_none (statFunc : Str → StatResult) (cands : List Str)
    (h : ∀ c ∈ cands, statFunc c = .notExist) :
    findConfigFile statFunc cands = .ok [] := by
  induction cands with
  | nil => rfl
  | cons x cands ih =>
    have hx : statFunc x = .notExist := h x (by simp)
    have := ih (fun y hy => h y (by simp [hy]))
    simp [findConfigFile, hx, this]

/-- What a returned path of `findConfigFile` says about the candidates. -/
theorem findConfigFile_ok (statFunc : Str → StatResult) (cands : List Str) (conf : Str)
    (h : findConfigFile statFunc cands = .ok conf) :
    (∃ pre post, cands = pre ++ conf :: post ∧ statFunc conf = .found ∧
      ∀ x ∈ pre, statFunc x = .notExist) ∨
    (conf = [] ∧ ∀ c ∈ cands, statFunc c = .notExist) := by
  induction cands with
  | nil =>
    simp only [findConfigFile, Except.ok.injEq] at h
    exact Or.inr ⟨h.symm, by simp⟩
  | cons x cands ih =>
    unfold findConfigFile at h
    cases hx : statFunc x with
    | found =>
      simp only [hx, Except.ok.injEq] at h
      subst h
      exact Or.inl ⟨[], cands, rfl, hx, by simp⟩
    | notExist =>
      simp only [hx] at h
      rcases ih h with ⟨pre, post, hl, hf, hpre⟩ | ⟨he, hall⟩
      · left
        refine ⟨x :: pre, post, by simp [hl], hf, ?_⟩
        intro y hy
        rcases List.mem_cons.1 hy with rfl | hy
        · exact hx
        · exact hpre y hy
      · right
        refine ⟨he, ?_⟩
        intro y hy
        rcases List.mem_cons.1 hy with rfl | hy
        · exact hx
        · exact hall y hy
    | failed err => simp [hx] at h

/-- The fatal error of `findConfigFile` is raised at the first candidate whose check
fails with an error other than not-exist, when no candidate before it exists. -/
theorem findConfigFile_failed (statFunc : Str → StatResult) (pre : List Str) (c : Str)
    (post : List Str) (err : Str) (hc : statFunc c = .failed err)
    (hpre : ∀ x ∈ pre, statFunc x = .notExist) :
    findConfigFile statFunc (pre ++ c :: post) = .error (.exit (errorLookingFor c err)) := by
  induction pre with
  | nil => simp [findConfigFile, hc]
  | cons x pre ih =>
    have hx : statFunc x = .notExist := hpre x (by simp)
    have := ih (fun y hy => hpre y (by simp [hy]))
    simp [findConfigFile, hx, this]

/-- Every fault of `findConfigFile` is the fatal error for a candidate whose check
failed, no earlier candidate existing. -/
theorem findConfigFile_error (statFunc : Str → StatResult) (cands : List Str) (f : Fault)
    (h : findConfigFile statFunc cands = .error f) :
    ∃ pre c post err, cands = pre ++ c :: post ∧ statFunc c = .failed err ∧
      (∀ x ∈ pre, statFunc x = .notExist) ∧ f = .exit (errorLookingFor c err) := by
  induction cands with
  | nil => simp [findConfigFile] at h
  | cons x cands ih =>
    unfold findConfigFile at h
    cases hx : statFunc x with
    | found => simp [hx] at h
    | notExist =>
      simp only [hx] at h
      obtain ⟨pre, c, post, err, hl, hc, hpre, hf⟩ := ih h
      refine ⟨x :: pre, c, post, err, by simp [hl], hc, ?_, hf⟩
      intro y hy
      rcases List.mem_cons.1 hy with rfl | hy
      · exact hx
      · exact hpre y hy
    | failed err =>
      simp only [hx, Except.error.injEq] at h
      exact ⟨[], x, cands, err, rfl, hx, by simp, h.symm⟩

/-- The entries of the map returned by the loop of `getConfigFiles`. -/
theorem getConfigFilesLoop_get (statFunc : Str → StatResult) (v : Catalog) :
    ∀ (comps : List Str) (m0 m : StrMap), getConfigFilesLoop statFunc v comps m0 = .ok m →
      ∀ k, m.get k =
        if k ∈ comps then (confOf statFunc v k).orElse (fun _ => m0.get k) else m0.get k := by
  intro comps
  induction comps with
  | nil =>
    intro m0 m h k
    simp only [getConfigFilesLoop, Except.ok.injEq] at h
    simp [h]
  | cons comp rest ih =>
    intro m0 m h k
    rw [getConfigFilesLoop] at h
    cases hsub : v.sub comp with
    | none =>
      simp only [hsub] at h
      rw [ih m0 m h k]
      by_cases hk : k = comp
      · subst hk
        by_cases hr : k ∈ rest <;> simp [hr, confOf, hsub]
      · simp [hk]
    | some s =>
      simp only [hsub] at h
      cases hf : findConfigFile statFunc s.confs with
      | error f => simp [hf] at h
      | ok conf =>
        simp only [hf] at h
        rw [ih _ m h k]
        by_cases hk : k = comp
        · subst hk
          by_cases hr : k ∈ rest <;> simp [hr, confOf, hsub, hf, StrMap.get_set]
        · simp [hk, StrMap.get_set]

/-- A loop of `getConfigFiles` that returns has found no failing check before the
first existing candidate of any visited component. -/
theorem getConfigFilesLoop_ok (statFunc : Str → StatResult) (v : Catalog) :
    ∀ (comps : List Str) (m0 m : StrMap), getConfigFilesLoop statFunc v comps m0 = .ok m →
      ∀ comp ∈ comps, ∀ s, v.sub comp = some s →
        ∃ conf, findConfigFile statFunc s.confs = .ok conf := by
  intro comps
  induction comps with
  | nil => intro m0 m _ comp hc; simp at hc
  | cons c rest ih =>
    intro m0 m h comp hc s hs
    rw [getConfigFilesLoop] at h
    rcases List.mem_cons.1 hc with rfl | hc
    · simp only [hs] at h
      cases hf : findConfigFile statFunc s.confs with
      | error f => simp [hf] at h
      | ok conf => exact ⟨conf, rfl⟩
    · cases hsub : v.sub c with
      | none =>
        simp only [hsub] at h
        exact ih m0 m h comp hc s hs
      | some s2 =>
        simp only [hsub] at h
        cases hf : findConfigFile statFunc s2.confs with
        | error f => simp [hf] at h
        | ok conf =>
          simp only [hf] at h
          exact ih _ m h comp hc s hs

/-- When no existence check fails, `findConfigFile` returns. -/
theorem findConfigFile_returns (statFunc : Str → StatResult) (cands : List Str)
    (h : ∀ c ∈ cands, statFunc c = .found ∨ statFunc c = .notExist) :
    ∃ conf, findConfigFile statFunc cands = .ok conf := by
  cases hf : findConfigFile statFunc cands with
  | ok conf => exact ⟨conf, rfl⟩
  | error f =>
    obtain ⟨pre, c, post, err, hl, hc, _, _⟩ := findConfigFile_error statFunc cands f hf
    rcases h c (by simp [hl]) with h1 | h1 <;> simp [hc] at h1

/-- When no existence check fails, the loop of `getConfigFiles` returns a map. -/
theorem getConfigFilesLoop_returns (statFunc : Str → StatResult) (v : Catalog) :
    ∀ (comps : List Str) (m0 : StrMap),
      (∀ comp ∈ comps, ∀ s, v.sub comp = some s →
        ∀ c ∈ s.confs, statFunc c = .found ∨ statFunc c = .notExist) →
      ∃ m, getConfigFilesLoop statFunc v comps m0 = .ok m := by
  intro comps
  induction comps with
  | nil => intro m0 _; exact ⟨m0, rfl⟩
  | cons c rest ih =>
    intro m0 h
    have h2 : ∀ comp ∈ rest, ∀ s, v.sub comp = some s →
        ∀ c ∈ s.confs, statFunc c = .found ∨ statFunc c = .notExist :=
      fun comp hc => h comp (by simp [hc])
    rw [getConfigFilesLoop]
    cases hsub : v.sub c with
    | none => exact ih m0 h2
    | some s =>
      obtain ⟨conf, hconf⟩ := findConfigFile_returns statFunc s.confs (h c (by simp) s hsub)
      simp only [hconf]
      exact ih _ h2

theorem findConfigFile_aborts (statFunc : Str → StatResult) (pre : List Str) (c : Str)
    (post : List Str) (err : Str) (hc : statFunc c = .failed err)
    (hpre : ∀ x ∈ pre, statFunc x ≠ .found) :
    ∃ msg, findConfigFile statFunc (pre ++ c :: post) = .error (.exit msg) := by
  induction pre with
  | nil => exact ⟨errorLookingFor c err, by simp [findConfigFile, hc]⟩
  | cons x pre ih =>
    obtain ⟨msg, hmsg⟩ := ih (fun y hy => hpre y (by simp [hy]))
    rw [List.cons_append, findConfigFile]
    cases hx : statFunc x with
    | found => exact absurd hx (hpre x (by simp))
    | notExist => exact ⟨msg, hmsg⟩
    | failed e => exact ⟨_, rfl⟩

/-! ### Claims about config resolution -/

/-- **C7.** `findConfigFile` returns the first candidate that exists. For a stat
function that reports every path as existing or as not existing, the earliest
candidate that exists is returned, the empty string is returned when none exists,
and for candidates `[A, B]` of which only `B` exists the result is `B`. -/
theorem findConfigFile_first_existing (statFunc : Str → StatResult)
    (hstat : ∀ path, statFunc path = .found ∨ statFunc path = .notExist)
    (candidates : List Str) :
    (∀ pre c post, candidates = pre ++ c :: post → statFunc c = .found →
      (∀ x ∈ pre, statFunc x ≠ .found) → findConfigFile statFunc candidates = .ok c) ∧
    ((∀ c ∈ candidates, statFunc c ≠ .found) → findConfigFile statFunc candidates = .ok []) ∧
    (∀ A B, statFunc A ≠ .found → statFunc B = .found →
      findConfigFile statFunc [A, B] = .ok B) := by
  have hne : ∀ x, statFunc x ≠ .found → statFunc x = .notExist := by
    intro x hx
    rcases hstat x with h | h
    · exact absurd h hx
    · exact h
  refine ⟨?_, ?_, ?_⟩
  · intro pre c post hl hc hpre
    rw [hl]
    exact findConfigFile_found statFunc pre c post hc (fun x hx => hne x (hpre x hx))
  · intro h
    exact findConfigFile_none statFunc candidates (fun c hc => hne c (h c hc))
  · intro A B hA hB
    exact findConfigFile_found statFunc [A] B [] hB
      (fun x hx => by rw [List.mem_singleton.1 hx]; exact hne A hA)

/-- Instance of C7: of `[/etc/a.conf, /etc/b.conf]` only the second exists. -/
theorem findConfigFile_first_existing_witness :
    statOnlyB "/etc/a.conf".toList ≠ .found ∧ statOnlyB "/etc/b.conf".toList = .found ∧
    findConfigFile statOnlyB ["/etc/a.conf".toList, "/etc/b.conf".toList] =
      .ok "/etc/b.conf".toList :=
  ⟨by decide, by decide,
    (findConfigFile_first_existing statOnlyB
      (fun path => by unfold statOnlyB; split <;> simp) []).2.2
      "/etc/a.conf".toList "/etc/b.conf".toList (by decide) (by decide)⟩

/-- **C8.** With `exitWithError` as an error result, `findConfigFile` ends in the
fatal error exactly when the existence check of some candidate fails with an error
other than not-exist and no earlier candidate exists. A not-exist error only moves
on to the next candidate; an existing candidate is returned whatever the checks of
the candidates after it would give; and the fatal error is the only fault. -/
theorem findConfigFile_fatal_iff (statFunc : Str → StatResult) (candidates : List Str) :
    ((∃ msg, findConfigFile statFunc candidates = .error (.exit msg)) ↔
      ∃ pre c post err, candidates = pre ++ c :: post ∧ statFunc c = .failed err ∧
        ∀ x ∈ pre, statFunc x ≠ .found) ∧
    (∀ c rest, statFunc c = .notExist →
      findConfigFile statFunc (c :: rest) = findConfigFile statFunc rest) ∧
    (∀ pre c post, candidates = pre ++ c :: post → statFunc c = .found →
      (∀ x ∈ pre, statFunc x = .notExist) → findConfigFile statFunc candidates = .ok c) ∧
    (∀ f, findConfigFile statFunc candidates = .error f →
      ∃ pre c post err, candidates = pre ++ c :: post ∧ statFunc c = .failed err ∧
        (∀ x ∈ pre, statFunc x = .notExist) ∧ f = .exit (errorLookingFor c err)) := by
  refine ⟨⟨?_, ?_⟩, ?_, ?_, ?_⟩
  · rintro ⟨msg, h⟩
    obtain ⟨pre, c, post, err, hl, hc, hpre, _⟩ := findConfigFile_error statFunc candidates _ h
    exact ⟨pre, c, post, err, hl, hc, fun x hx => by simp [hpre x hx]⟩
  · rintro ⟨pre, c, post, err, hl, hc, hpre⟩
    rw [hl]
    exact findConfigFile_aborts statFunc pre c post err hc hpre
  · intro c rest hc
    simp [findConfigFile, hc]
  · intro pre c post hl hc hpre
    rw [hl]
    exact findConfigFile_found statFunc pre c post hc hpre
  · intro f h
    exact findConfigFile_error statFunc candidates f h

/-- Instance of C8: the check of the second candidate fails before the existing
third one is reached. -/
theorem findConfigFile_fatal_iff_witness :
    statDenied "/etc/b.conf".toList = .failed "permission denied".toList ∧
    ∃ msg, findConfigFile statDenied
      ["/etc/a.conf".toList, "/etc/b.conf".toList, "/etc/c.conf".toList] =
        .error (.exit msg) :=
  ⟨by decide,
    (findConfigFile_fatal_iff statDenied
      ["/etc/a.conf".toList, "/etc/b.conf".toList, "/etc/c.conf".toList]).1.2
      ⟨["/etc/a.conf".toList], "/etc/b.conf".toList, ["/etc/c.conf".toList],
        "permission denied".toList, rfl, by decide, by decide⟩⟩

/-- **C9.** Config fallback. The empty path does not exist (as for `os.Stat`). In a
map returned by `getConfigFiles`, a component with a sub-configuration none of whose
config candidates exists (all not-exist, or no candidates) is mapped to its declared
default config name verbatim when it declares one and to its own name otherwise; a
component with an existing candidate is mapped to the first existing one, whatever
the default. A map is returned whenever no existence check fails. -/
theorem getConfigFiles_fallback (statFunc : Str → StatResult) (v : Catalog)
    (hempty : statFunc [] ≠ .found) :
    (∀ m, getConfigFiles statFunc v = .ok m → ∀ comp ∈ v.components, ∀ s,
      v.sub comp = some s →
      ((∀ c ∈ s.confs, statFunc c = .notExist) →
        (∀ d, s.defaultconf = some d → m.get comp = some d) ∧
        (s.defaultconf = none → m.get comp = some comp)) ∧
      (∀ pre c post, s.confs = pre ++ c :: post → statFunc c = .found →
        (∀ x ∈ pre, statFunc x = .notExist) → m.get comp = some c)) ∧
    ((∀ comp ∈ v.components, ∀ s, v.sub comp = some s →
        ∀ c ∈ s.confs, statFunc c = .found ∨ statFunc c = .notExist) →
      ∃ m, getConfigFiles statFunc v = .ok m) := by
  refine ⟨?_, ?_⟩
  · intro m hm comp hc s hs
    have hget := getConfigFilesLoop_get statFunc v v.components [] m hm comp
    refine ⟨?_, ?_⟩
    · intro hall
      have hf := findConfigFile_none statFunc s.confs hall
      refine ⟨?_, ?_⟩
      · intro d hd
        rw [hget]
        simp [hc, confOf, hs, hf, hd]
      · intro hd
        rw [hget]
        simp [hc, confOf, hs, hf, hd]
    · intro pre c post hl hfound hpre
      have hf : findConfigFile statFunc s.confs = .ok c := by
        rw [hl]
        exact findConfigFile_found statFunc pre c post hfound hpre
      have hne : c ≠ [] := by
        intro h
        rw [h] at hfound
        exact hempty hfound
      rw [hget]
      simp [hc, confOf, hs, hf, hne]
  · intro h
    exact getConfigFilesLoop_returns statFunc v v.components [] h

/-- Instance of C9: `etcd` falls back to its own name, `kubelet` to its default,
`proxy` resolves to the existing second candidate. -/
theorem getConfigFiles_fallback_witness :
    statOnlyB [] ≠ .found ∧
    ∃ m, getConfigFiles statOnlyB confCatalog = .ok m ∧
      m.get "etcd".toList = some "etcd".toList ∧
      m.get "kubelet".toList = some "kubelet.conf".toList ∧
      m.get "proxy".toList = some "/etc/b.conf".toList :=
  have hm : getConfigFiles statOnlyB confCatalog =
      .ok [("proxy".toList, "/etc/b.conf".toList), ("kubelet".toList, "kubelet.conf".toList),
        ("etcd".toList, "etcd".toList)] := by decide
  have h := (getConfigFiles_fallback statOnlyB confCatalog (by decide)).1 _ hm
  ⟨by decide, _, hm,
    ((h "etcd".toList (by decide) ⟨true, [], ["/etc/a.conf".toList], none⟩ rfl).1
      (by decide)).2 rfl,
    ((h "kubelet".toList (by decide) ⟨false, [], [], some "kubelet.conf".toList⟩ rfl).1
      (by decide)).1 _ rfl,
    (h "proxy".toList (by decide)
      ⟨false, [], ["/etc/a.conf".toList, "/etc/b.conf".toList], some "proxy.conf".toList⟩
      rfl).2 ["/etc/a.conf".toList] "/etc/b.conf".toList [] rfl (by decide) (by decide)⟩

/-! ### The pattern of `verifyBin` on plain names -/

/-- The code point of a plain character. -/
theorem plainChar_toNat (c : Char) (h : plainChar c = true) :
    (48 ≤ c.toNat ∧ c.toNat ≤ 57) ∨ (65 ≤ c.toNat ∧ c.toNat ≤ 90) ∨
    (97 ≤ c.toNat ∧ c.toNat ≤ 122) ∨ c.toNat = 45 ∨ c.toNat = 95 := by
  simp only [plainChar, Char.isAlphanum, Char.isAlpha, Char.isUpper, Char.isLower,
    Char.isDigit, Bool.or_eq_true, Bool.and_eq_true, decide_eq_true_eq, beq_iff_eq,
    ge_iff_le] at h
  rcases h with (((⟨h1, h2⟩ | ⟨h1, h2⟩) | ⟨h1, h2⟩) | h) | h
  · exact Or.inr (Or.inl ⟨h1, h2⟩)
  · exact Or.inr (Or.inr (Or.inl ⟨h1, h2⟩))
  · exact Or.inl ⟨h1, h2⟩
  · subst h; exact Or.inr (Or.inr (Or.inr (Or.inl rfl)))
  · subst h; exact Or.inr (Or.inr (Or.inr (Or.inr rfl)))

theorem plainChar_ne (c x : Char) (h : plainChar c = true)
    (hx : ¬ ((48 ≤ x.toNat ∧ x.toNat ≤ 57) ∨ (65 ≤ x.toNat ∧ x.toNat ≤ 90) ∨
    (97 ≤ x.toNat ∧ x.toNat ≤ 122) ∨ x.toNat = 45 ∨ x.toNat = 95)) : c ≠ x := by
  intro hc
  subst hc
  exact hx (plainChar_toNat c h)

/-- A plain character is read by the parser as a literal. -/
theorem parseLoop_plain_step (k : Nat) (st : PState) (c : Char) (t : Str)
    (h : plainChar c = true) :
    parseLoop (k + 1) st (c :: t) = parseLoop k (st.push (.lit c)) t := by
  have h1 : c ≠ '(' := plainChar_ne c _ h (by decide)
  have h2 : c ≠ '|' := plainChar_ne c _ h (by decide)
  have h3 : c ≠ ')' := plainChar_ne c _ h (by decide)
  have h4 : c ≠ '^' := plainChar_ne c _ h (by decide)
  have h5 : c ≠ '$' := plainChar_ne c _ h (by decide)
  have h6 : c ≠ '.' := plainChar_ne c _ h (by decide)
  have h7 : c ≠ '[' := plainChar_ne c _ h (by decide)
  have h8 : c ≠ '*' := plainChar_ne c _ h (by decide)
  have h9 : c ≠ '+' := plainChar_ne c _ h (by decide)
  have h10 : c ≠ '?' := plainChar_ne c _ h (by decide)
  have h11 : c ≠ '{' := plainChar_ne c _ h (by decide)
  have h12 : c ≠ '\\' := plainChar_ne c _ h (by decide)
  rw [parseLoop]
  simp only [h1, h2, h3, h4, h5, h6, h7, h8, h9, h10, h11, h12, if_false]

/-- A name made of plain characters is read as the sequence of its literals. -/
theorem parseLoop_plain (c : Str) (hc : ∀ x ∈ c, plainChar x = true) :
    ∀ (k : Nat) (st : PState), c.length < k → st.outer = [] →
      parseLoop k st c =
        .ok (Frame.collapse ⟨st.cur.alts, (c.map Regex.lit).reverse ++ st.cur.items,
          st.cur.cap⟩) := by
  induction c with
  | nil =>
    intro k st hk ho
    obtain ⟨k, rfl⟩ : ∃ j, k = j + 1 := ⟨k - 1, by simp at hk; omega⟩
    simp [parseLoop, ho]
  | cons x c ih =>
    intro k st hk ho
    obtain ⟨k, rfl⟩ : ∃ j, k = j + 1 := ⟨k - 1, by simp at hk; omega⟩
    rw [parseLoop_plain_step k st x c (hc x (by simp))]
    rw [ih (fun y hy => hc y (by simp [hy])) k (st.push (.lit x))
      (by simp at hk; omega) (by simpa [PState.push] using ho)]
    simp [PState.push]

/-- The parser state after the fixed part of the pattern of `verifyBin`. -/
theorem parseLoop_firstWord (k : Nat) (t : Str) (ht : t.head? ≠ some '?') :
    parseLoop (k + 7) ⟨[], ⟨[], [], 0⟩, 0, false⟩ (firstWordPattern ++ t) =
      parseLoop k ⟨[], ⟨[], [pathStar, .beginText], 0⟩, 1, true⟩ t := by
  have hp : firstWordPattern = ['^', '(', '\\', 'S', '*', '\\', '/', ')', '*'] := rfl
  rw [hp]
  simp [parseLoop, applyRepeat, parseEscape, PState.push, Frame.collapse, mkCat, mkAlt,
    pathStar, pathPart, ht]

/-- The tree that the parser gives for the pattern of `verifyBin` for a plain name. -/
theorem parsePattern_firstWord_plain (c : Str) (hc : ∀ x ∈ c, plainChar x = true) :
    parsePattern (firstWordPattern ++ c) =
      .ok (mkCat ([.beginText, pathStar] ++ c.map Regex.lit)) := by
  have hlen : (firstWordPattern ++ c).length + 1 = (c.length + 3) + 7 := by
    simp [firstWordPattern]
  have hhead : c.head? ≠ some '?' := by
    cases c with
    | nil => simp
    | cons x c =>
      simp only [List.head?_cons, ne_eq, Option.some.injEq]
      exact plainChar_ne x _ (hc x (by simp)) (by decide)
  unfold parsePattern
  rw [hlen, parseLoop_firstWord _ c hhead, parseLoop_plain c hc _ _ (by omega) rfl]
  simp [Frame.collapse, mkAlt]

theorem loopsConsume_mkCat (rs : List Regex) :
    (mkCat rs).loopsConsume = rs.all Regex.loopsConsume := by
  induction rs with
  | nil => rfl
  | cons r rs ih =>
    cases rs with
    | nil => simp [mkCat]
    | cons r1 rs =>
      show (Regex.cat r (mkCat (r1 :: rs))).loopsConsume = _
      rw [Regex.loopsConsume, ih]
      rfl

/-- The tree of the pattern of `verifyBin` for a plain name of at most 503
characters, with which the pattern is small. -/
theorem compile_firstWord_plain (c : Str) (hc : ∀ x ∈ c, plainChar x = true)
    (hlen : c.length ≤ 503) :
    compile (firstWordPattern ++ c) =
      .ok (mkCat ([.beginText, pathStar] ++ c.map Regex.lit)) := by
  have hsmall : (firstWordPattern ++ c).length ≤ smallPattern := by
    simp only [List.length_append, firstWordPattern, smallPattern]
    have : "^(\\S*\\/)*".toList.length = 9 := rfl
    omega
  have hloops : (mkCat ([.beginText, pathStar] ++ c.map Regex.lit)).loopsConsume = true := by
    rw [loopsConsume_mkCat, List.all_append]
    have h1 : [Regex.beginText, pathStar].all Regex.loopsConsume = true := by decide
    have h2 : (c.map Regex.lit).all Regex.loopsConsume = true := by
      rw [List.all_eq_true]
      intro r hr
      obtain ⟨x, _, rfl⟩ := List.mem_map.1 hr
      rfl
    rw [h1, h2]
    rfl
  unfold compile
  rw [if_pos hsmall, parsePattern_firstWord_plain c hc]
  simp only [hloops, if_true]

/-! ### Semantics of the pattern of `verifyBin` -/

theorem flatMap_single {α : Type} (l : List α) : l.flatMap (fun x => [x]) = l := by
  induction l with
  | nil => rfl
  | cons a l ih => simp [List.flatMap_cons, ih]

theorem run_mkCat (n : Nat) (rs : List Regex) : ∀ th, run n (mkCat rs) th = runSeq n rs th := by
  induction rs with
  | nil => intro th; simp [mkCat, run, runSeq]
  | cons r rs ih =>
    intro th
    cases rs with
    | nil =>
      simp only [mkCat, runSeq]
      exact (flatMap_single _).symm
    | cons r2 rest =>
      simp only [mkCat, run, runSeq]
      congr 1
      funext th1
      rw [ih th1]
      rfl

/-- A sequence of literals reads exactly its own text. -/
theorem runSeq_lits_mem (n : Nat) (c : Str) :
    ∀ (s : Str) (cp : Caps) (th : Thread), th ∈ runSeq n (c.map Regex.lit) (s, cp) ↔
      ∃ t, s = c ++ t ∧ th = (t, cp) := by
  induction c with
  | nil => intro s cp th; simp [runSeq, eq_comm]
  | cons x c ih =>
    intro s cp th
    cases s with
    | nil => simp [runSeq, run, stepChar]
    | cons y s =>
      by_cases hxy : y = x
      · subst hxy
        simp [runSeq, run, stepChar, ih]
      · simp [runSeq, run, stepChar, hxy]

theorem starLoop_stepChar (p : Char → Bool) (cp : Caps) :
    ∀ (k : Nat) (s : Str), s.length ≤ k →
      starLoop (stepChar p) true k (s, cp) = (classTails p s).map (fun u => (u, cp)) := by
  intro k
  induction k with
  | zero =>
    intro s hs
    have : s = [] := List.length_eq_zero.1 (Nat.le_zero.1 hs)
    subst this
    rfl
  | succ k ih =>
    intro s hs
    cases s with
    | nil => simp [starLoop, stepChar, classTails]
    | cons x t =>
      have ht : t.length ≤ k := by simpa using hs
      by_cases hp : p x = true
      · simp [starLoop, stepChar, classTails, hp, ih t ht]
      · simp [starLoop, stepChar, classTails, hp]

theorem mem_classTails (p : Char → Bool) (s u : Str) :
    u ∈ classTails p s ↔ ∃ w, s = w ++ u ∧ ∀ x ∈ w, p x = true := by
  induction s with
  | nil =>
    simp only [classTails, List.mem_singleton]
    constructor
    · rintro rfl; exact ⟨[], rfl, by simp⟩
    · rintro ⟨w, hw, _⟩
      have := List.append_eq_nil.1 hw.symm
      exact this.2
  | cons x t ih =>
    by_cases hp : p x = true
    · simp only [classTails, hp, if_true, List.mem_append, List.mem_singleton, ih]
      constructor
      · rintro (⟨w, hw, hall⟩ | rfl)
        · refine ⟨x :: w, by simp [hw], ?_⟩
          intro y hy
          rcases List.mem_cons.1 hy with rfl | hy
          · exact hp
          · exact hall y hy
        · exact ⟨[], rfl, by simp⟩
      · rintro ⟨w, hw, hall⟩
        cases w with
        | nil => right; simpa using hw.symm
        | cons y w =>
          left
          simp only [List.cons_append, List.cons.injEq] at hw
          exact ⟨w, hw.2, fun z hz => hall z (by simp [hz])⟩
    · have hp2 : p x = false := by simpa using hp
      simp only [classTails, hp2, Bool.false_eq_true, if_false, List.mem_singleton]
      constructor
      · rintro rfl; exact ⟨[], rfl, by simp⟩
      · rintro ⟨w, hw, hall⟩
        cases w with
        | nil => simpa using hw.symm
        | cons y w =>
          simp only [List.cons_append, List.cons.injEq] at hw
          have := hall y (by simp)
          rw [← hw.1] at this
          exact absurd this hp

theorem mem_stepChar (p : Char → Bool) (u : Str) (cp : Caps) (th : Thread) :
    th ∈ stepChar p (u, cp) ↔ ∃ x t, u = x :: t ∧ p x = true ∧ th = (t, cp) := by
  cases u with
  | nil => simp [stepChar]
  | cons y u =>
    by_cases hp : p y = true
    · simp only [stepChar, hp, if_true, List.mem_singleton]
      constructor
      · intro h
        exact ⟨y, u, rfl, hp, h⟩
      · rintro ⟨x, t, hxt, _, h⟩
        simp only [List.cons.injEq] at hxt
        rw [h, hxt.2]
    · have hp2 : p y = false := by simpa using hp
      simp only [stepChar, hp2, Bool.false_eq_true, if_false, List.not_mem_nil, false_iff]
      rintro ⟨x, t, hxt, hx, _⟩
      simp only [List.cons.injEq] at hxt
      rw [← hxt.1] at hx
      exact hp hx

theorem run_cls (n : Nat) (neg : Bool) (items : List ClassItem) :
    run n (.cls neg items) = stepChar (classHas neg items) := by
  funext th
  rw [run]

theorem classHas_notSpace (x : Char) :
    classHas false [⟨true, perlSpace⟩] x = !reSpace x := by
  simp [classHas, ClassItem.has, reSpace]

/-- A path component reads characters other than `\s` up to and including a `/`. -/
theorem mem_run_pathPart (n : Nat) (s t : Str) (cp cp1 : Caps) :
    (t, cp1) ∈ run n pathPart (s, cp) ↔
      (∃ w, s = w ++ '/' :: t ∧ ∀ x ∈ w, reSpace x = false) ∧
      cp1 = (1, s.take (s.length - t.length)) :: cp := by
  simp only [pathPart, run, run_cls, starLoop_stepChar _ cp s.length s (Nat.le_refl _),
    List.mem_map, List.mem_flatMap, mem_stepChar, mem_classTails, classHas_notSpace,
    Bool.not_eq_true', Prod.exists, Prod.mk.injEq, beq_iff_eq]
  constructor
  · rintro ⟨t1, c1, ⟨a, _, ⟨u, ⟨⟨w, hw, hall⟩, hu⟩⟩, x, t2, hx, hx2, ht2⟩, ht, hc⟩
    obtain ⟨rfl, rfl⟩ := hu
    obtain ⟨rfl, rfl⟩ := ht2
    subst hx2 ht
    refine ⟨⟨w, by rw [hw, hx], hall⟩, hc.symm⟩
  · rintro ⟨⟨w, hw, hall⟩, hc⟩
    exact ⟨t, cp, ⟨'/' :: t, cp, ⟨'/' :: t, ⟨⟨w, hw, hall⟩, rfl, rfl⟩⟩, '/', t, rfl, rfl, rfl, rfl⟩,
      rfl, hc.symm⟩

theorem mem_starLoop_succ (f : Thread → List Thread) (g : Bool) (k : Nat) (th th1 : Thread) :
    th1 ∈ starLoop f g (k + 1) th ↔
      th1 = th ∨ ∃ th2 ∈ f th, th2.1.length < th.1.length ∧ th1 ∈ starLoop f g k th2 := by
  cases g <;>
    simp only [starLoop, List.mem_cons, List.mem_append, List.mem_flatMap, List.mem_filter,
      List.mem_singleton, decide_eq_true_eq, if_true, if_false, Bool.false_eq_true,
      List.not_mem_nil, or_false]
  · constructor
    · rintro (h | ⟨a, ⟨h1, h2⟩, h3⟩)
      · exact Or.inl h
      · exact Or.inr ⟨a, h1, h2, h3⟩
    · rintro (h | ⟨a, h1, h2, h3⟩)
      · exact Or.inl h
      · exact Or.inr ⟨a, ⟨h1, h2⟩, h3⟩
  · constructor
    · rintro (⟨a, ⟨h1, h2⟩, h3⟩ | h)
      · exact Or.inr ⟨a, h1, h2, h3⟩
      · exact Or.inl h
    · rintro (h | ⟨a, h1, h2, h3⟩)
      · exact Or.inr h
      · exact Or.inl ⟨a, ⟨h1, h2⟩, h3⟩

theorem mem_starLoop_self (f : Thread → List Thread) (g : Bool) (k : Nat) (th : Thread) :
    th ∈ starLoop f g k th := by
  cases k with
  | zero => simp [starLoop]
  | succ k => exact (mem_starLoop_succ f g k th th).2 (Or.inl rfl)

/-- What `(\S*\/)*` reads is a leading path. -/
theorem starLoop_pathPart_sound (n : Nat) :
    ∀ (k : Nat) (s : Str) (cp : Caps) (t : Str) (cp1 : Caps),
      (t, cp1) ∈ starLoop (run n pathPart) true k (s, cp) →
      ∃ p, s = p ++ t ∧ LeadingPath p := by
  intro k
  induction k with
  | zero =>
    intro s cp t cp1 h
    simp only [starLoop, List.mem_singleton, Prod.mk.injEq] at h
    exact ⟨[], by simp [h.1], Or.inl rfl⟩
  | succ k ih =>
    intro s cp t cp1 h
    rcases (mem_starLoop_succ _ _ _ _ _).1 h with h | ⟨⟨t2, cp2⟩, h2, _, h3⟩
    · simp only [Prod.mk.injEq] at h
      exact ⟨[], by simp [h.1], Or.inl rfl⟩
    · obtain ⟨⟨w, hw, hall⟩, _⟩ := (mem_run_pathPart n s t2 cp cp2).1 h2
      obtain ⟨p, hp, hlead⟩ := ih t2 cp2 t cp1 h3
      rcases hlead with rfl | ⟨w2, rfl, hall2⟩
      · exact ⟨w ++ ['/'], by simp [hw, hp], Or.inr ⟨w, rfl, hall⟩⟩
      · refine ⟨(w ++ '/' :: w2) ++ ['/'], by simp [hw, hp], Or.inr ⟨_, rfl, ?_⟩⟩
        intro x hx
        rcases List.mem_append.1 hx with hx | hx
        · exact hall x hx
        · rcases List.mem_cons.1 hx with rfl | hx
          · decide
          · exact hall2 x hx

/-- Every leading path is read by `(\S*\/)*`. -/
theorem starLoop_pathPart_complete (n : Nat) (p t : Str) (cp : Caps) (hp : LeadingPath p) :
    ∃ cp1, (t, cp1) ∈ starLoop (run n pathPart) true (p ++ t).length (p ++ t, cp) := by
  rcases hp with rfl | ⟨w, rfl, hall⟩
  · exact ⟨cp, mem_starLoop_self _ _ _ _⟩
  · have hlen : ((w ++ ['/']) ++ t).length = (w ++ t).length + 1 := by
      simp; omega
    rw [hlen]
    have hmem : (t, (1, ((w ++ ['/']) ++ t).take (((w ++ ['/']) ++ t).length - t.length)) :: cp) ∈
        run n pathPart ((w ++ ['/']) ++ t, cp) :=
      (mem_run_pathPart n _ t cp _).2 ⟨⟨w, by simp, hall⟩, rfl⟩
    exact ⟨_, (mem_starLoop_succ _ _ _ _ _).2
      (Or.inr ⟨_, hmem, by simp; omega, mem_starLoop_self _ _ _ _⟩)⟩

theorem run_beginText (n : Nat) (th : Thread) :
    run n .beginText th = if th.1.length = n then [th] else [] := by
  rw [run]

theorem run_star (n : Nat) (g : Bool) (r : Regex) (th : Thread) :
    run n (.star g r) th = starLoop (run n r) g th.1.length th := by
  rw [run]

/-- The threads of the pattern of `verifyBin`: none away from the start of the
text; at the start, a leading path and then the literals. -/
theorem run_firstWord (n : Nat) (c s : Str) (cp : Caps) :
    run n (firstWordRegex c) (s, cp) =
      if s.length = n then
        (starLoop (run n pathPart) true s.length (s, cp)).flatMap (runSeq n (c.map Regex.lit))
      else [] := by
  rw [firstWordRegex, run_mkCat]
  simp only [List.cons_append, List.nil_append, runSeq, run_beginText]
  by_cases h : s.length = n
  · simp only [h, if_true, List.flatMap_cons, List.flatMap_nil, List.append_nil, pathStar,
      run_star]
    rfl
  · simp only [h, if_false, List.flatMap_nil]

/-- Away from the start of the text the pattern of `verifyBin` has no thread. -/
theorem run_firstWord_later (n : Nat) (c t : Str) (cp : Caps) (h : t.length ≠ n) :
    run n (firstWordRegex c) (t, cp) = [] := by
  rw [run_firstWord, if_neg h]

/-- The threads of the pattern of `verifyBin` at the start of a line. -/
theorem run_firstWord_start (c l : Str) :
    run l.length (firstWordRegex c) (l, []) ≠ [] ↔
      ∃ p t, l = p ++ c ++ t ∧ LeadingPath p := by
  rw [run_firstWord, if_pos rfl]
  constructor
  · intro h
    obtain ⟨th, hth⟩ := List.exists_mem_of_ne_nil _ h
    obtain ⟨⟨t1, cp1⟩, h1, h2⟩ := List.mem_flatMap.1 hth
    obtain ⟨p, hp, hlead⟩ := starLoop_pathPart_sound _ _ _ _ _ _ h1
    obtain ⟨t, ht, _⟩ := (runSeq_lits_mem _ c t1 cp1 th).1 h2
    exact ⟨p, t, by rw [hp, ht, List.append_assoc], hlead⟩
  · rintro ⟨p, t, hl, hlead⟩
    obtain ⟨cp1, h1⟩ := starLoop_pathPart_complete l.length p (c ++ t) [] hlead
    rw [List.append_assoc] at hl
    rw [← hl] at h1
    have h2 : (t, cp1) ∈ runSeq l.length (c.map Regex.lit) (c ++ t, cp1) :=
      (runSeq_lits_mem _ c _ cp1 _).2 ⟨t, rfl, rfl⟩
    exact List.ne_nil_of_mem (List.mem_flatMap.2 ⟨_, h1, h2⟩)

theorem search_none_of_short (n : Nat) (r : Regex)
    (h : ∀ t cp, t.length ≠ n → run n r (t, cp) = []) :
    ∀ t : Str, t.length < n → search n r t = none := by
  intro t
  induction t with
  | nil =>
    intro hlt
    simp [search, h [] [] (by simpa using Nat.ne_of_lt hlt)]
  | cons x t ih =>
    intro hlt
    simp only [List.length_cons] at hlt
    rw [search, h (x :: t) [] (by simpa using Nat.ne_of_lt hlt)]
    simpa using ih (by omega)

/-- **Pattern of `verifyBin`.** A line matches `^(\S*\/)*c`, `c` read literally,
exactly when it is a leading path followed by `c` followed by any text. -/
theorem matchString_firstWord (c l : Str) :
    (firstWordRegex c).matchString l = true ↔ ∃ p t, l = p ++ c ++ t ∧ LeadingPath p := by
  rw [← run_firstWord_start]
  unfold Regex.matchString
  cases l with
  | nil =>
    simp only [search, List.length_nil]
    cases run 0 (firstWordRegex c) ([], []) <;> simp
  | cons x l =>
    rw [search]
    cases hrun : run (x :: l).length (firstWordRegex c) (x :: l, []) with
    | nil =>
      have := search_none_of_short (x :: l).length (firstWordRegex c)
        (fun t cp ht => run_firstWord_later _ c t cp ht) l (by simp)
      rw [this]
      simp
    | cons th rest => simp

/-! ### `verifyBin` on plain names -/

theorem dropWhile_eq_self (p : Char → Bool) (l : Str) (h : ∀ x ∈ l, p x = false) :
    l.dropWhile p = l := by
  cases l with
  | nil => rfl
  | cons x l => simp [List.dropWhile, h x (by simp)]

theorem trim_eq_self (s cutset : Str) (h : ∀ x ∈ s, cutset.contains x = false) :
    trim s cutset = s := by
  unfold trim
  rw [dropWhile_eq_self _ s h, dropWhile_eq_self _ s.reverse (fun x hx => h x (by simpa using hx)),
    List.reverse_reverse]

theorem fields_single (c : Str) (hne : c ≠ []) (h : ∀ x ∈ c, isSpace x = false) :
    fields c = [c] := by
  induction c with
  | nil => exact absurd rfl hne
  | cons x c ih =>
    cases c with
    | nil => simp [fields, h x (by simp)]
    | cons y c =>
      have hx := h x (by simp)
      have hy := h y (by simp)
      have := ih (by simp) (fun z hz => h z (by simp [hz]))
      rw [fields]
      simp [hx, hy, this]

theorem plainChar_not_space (x : Char) (h : plainChar x = true) : isSpace x = false := by
  have := plainChar_toNat x h
  simp only [isSpace, Bool.or_eq_false_iff, Bool.and_eq_false_iff, beq_eq_false_iff_ne,
    decide_eq_false_iff_not]
  omega

theorem plainChar_not_quote (x : Char) (h : plainChar x = true) :
    quoteCutset.contains x = false := by
  have h1 : x ≠ '\'' := plainChar_ne x _ h (by decide)
  have h2 : x ≠ '"' := plainChar_ne x _ h (by decide)
  simp [quoteCutset, h1, h2]

/-- On a plain name `verifyBin` returns, and it returns whether some line of the
process table of the name matches `^(\S*\/)*name`. -/
theorem verifyBin_plain (psFunc : Str → Str) (c : Str) (hc : PlainName c)
    (hlen : c.length ≤ 503) :
    verifyBin psFunc c =
      .ok ((split (psFunc c) '\n').any (fun l => (firstWordRegex c).matchString l)) := by
  unfold verifyBin
  simp only [trim_eq_self c quoteCutset (fun x hx => plainChar_not_quote x (hc.2 x hx)),
    fields_single c hc.1 (fun x hx => plainChar_not_space x (hc.2 x hx)),
    compile_firstWord_plain c hc.2 hlen, firstWordRegex]

/-- **Characterisation of `verifyBin` on plain names.** It returns true exactly when
some line of the process table is a leading path, then the name, then any text. -/
theorem verifyBin_plain_iff (psFunc : Str → Str) (c : Str) (hc : PlainName c)
    (hlen : c.length ≤ 503) :
    verifyBin psFunc c = .ok true ↔
      ∃ l ∈ split (psFunc c) '\n', ∃ p t, l = p ++ c ++ t ∧ LeadingPath p := by
  rw [verifyBin_plain psFunc c hc hlen]
  simp only [Except.ok.injEq, List.any_eq_true, matchString_firstWord]

/-- The last character of a text that ends in `c` lies in any non-empty tail of it. -/
theorem last_mem_of_append (x y w : Str) (c : Char) (hy : y ≠ []) (h : x ++ y = w ++ [c]) :
    c ∈ y := by
  have h1 : (x ++ y).getLast? = some c := by rw [h]; simp
  rw [List.getLast?_append_of_ne_nil x hy] at h1
  exact List.mem_of_getLast?_eq_some h1

/-- The name `A` does not start, after a leading path, in a line `q ++ K ++ tail`
where `K` is a word that begins with a character foreign to `A` and has no `/`, `q`
does not contain `A`, and `tail` is empty or begins with a `\s` character; `a0` is
the first character of `A`. -/
theorem no_start_inside (A K q tail p t : Str) (k0 : Char) (K1 : Str) (hK : K = k0 :: K1)
    (hk0 : k0 ∉ A) (hslash : '/' ∉ K) (hA : A ≠ []) (hq : ¬ A <:+: q)
    (htail : tail = [] ∨ ∃ w rest, tail = w :: rest ∧ reSpace w = true)
    (hp : LeadingPath p) (h : q ++ K ++ tail = p ++ A ++ t) : False := by
  have hKne : K ≠ [] := by rw [hK]; simp
  rw [List.append_assoc, List.append_assoc] at h
  rcases List.append_eq_append_iff.1 h with ⟨a1, hpq, h1⟩ | ⟨c1, hqp, h1⟩
  · -- the name starts at or after the start of `K`
    rcases List.append_eq_append_iff.1 h1 with ⟨b1, ha1, h2⟩ | ⟨c2, hKa, h2⟩
    · -- the path covers `K`
      rcases hp with rfl | ⟨w, hw, hall⟩
      · rw [ha1] at hpq
        have := List.append_eq_nil.1 hpq.symm
        exact hKne (List.append_eq_nil.1 this.2).1
      · cases b1 with
        | nil =>
          rw [ha1, List.append_nil] at hpq
          exact hslash (last_mem_of_append q K w '/' hKne (hpq.symm.trans hw))
        | cons y b2 =>
          rcases htail with ht | ⟨w0, rest, ht, hsp⟩
          · rw [ht] at h2; simp at h2
          · rw [ht] at h2
            simp only [List.cons_append, List.cons.injEq] at h2
            have hy : y ∈ p := by rw [hpq, ha1]; simp
            rw [hw] at hy
            rw [← h2.1] at hy
            rcases List.mem_append.1 hy with hy | hy
            · rw [hall w0 hy] at hsp; exact absurd hsp (by decide)
            · rw [List.mem_singleton.1 hy] at hsp; exact absurd hsp (by decide)
    · -- the path ends inside `K`
      cases a1 with
      | nil =>
        rw [List.nil_append] at hKa
        rw [← hKa, hK] at h2
        cases A with
        | nil => exact hA rfl
        | cons a0 A1 =>
          simp only [List.cons_append, List.cons.injEq] at h2
          exact hk0 (by rw [← h2.1]; simp)
      | cons y a2 =>
        rcases hp with rfl | ⟨w, hw, _⟩
        · simp at hpq
        · have hmem : '/' ∈ y :: a2 :=
            last_mem_of_append q (y :: a2) w '/' (by simp) (hpq.symm.trans hw)
          exact hslash (by rw [hKa]; exact List.mem_append_left _ hmem)
  · -- the name starts inside `q`
    rcases List.append_eq_append_iff.1 h1 with ⟨a2, hc1, _⟩ | ⟨c2, hAc, h2⟩
    · -- and ends inside `q`
      exact hq ⟨p, a2, by rw [hqp, hc1, List.append_assoc]⟩
    · cases c2 with
      | nil =>
        rw [List.append_nil] at hAc
        exact hq ⟨p, [], by rw [hqp, hAc, List.append_nil]⟩
      | cons y c3 =>
        rw [hK] at h2
        simp only [List.cons_append, List.cons.injEq] at h2
        exact hk0 (by rw [hAc, h2.1]; simp)

/-! ### Claims about the match pattern of `verifyBin` -/

/-- **C4, as stated, fails.** Every non-empty line of this process table contains the
text `kube-apiserver`, and `verifyBin("apiserver")` returns true, not false: the
line's first word is `apiserver`. -/
theorem verifyBin_apiserver_counterexample :
    (∀ l ∈ split (psApiserverPeer "apiserver".toList) '\n',
      l ≠ [] → "kube-apiserver".toList <:+: l) ∧
    verifyBin psApiserverPeer "apiserver".toList = .ok true ∧
    verifyBin psApiserverPeer "apiserver".toList ≠ .ok false := by
  refine ⟨?_, by decide, by decide⟩
  intro l hl _
  have hs : split (psApiserverPeer "apiserver".toList) '\n' =
      ["apiserver --peer=kube-apiserver".toList] := by decide
  rw [hs, List.mem_singleton] at hl
  rw [hl]
  exact ⟨"apiserver --peer=".toList, [], by decide⟩

/-- **C4, amended.** Candidate `apiserver` does not match a `kube-apiserver` process:
when every non-empty line of the process table is some text `q` that does not
contain `apiserver` (a leading path, or nothing), then the word `kube-apiserver`,
then nothing or a `\s` character and more text, `verifyBin("apiserver")` returns
false. -/
theorem verifyBin_apiserver_rejects_kube_apiserver (psFunc : Str → Str)
    (h : ∀ l ∈ split (psFunc "apiserver".toList) '\n', l = [] ∨
      ∃ q tail, l = q ++ "kube-apiserver".toList ++ tail ∧
        ¬ ("apiserver".toList <:+: q) ∧
        (tail = [] ∨ ∃ w rest, tail = w :: rest ∧ reSpace w = true)) :
    verifyBin psFunc "apiserver".toList = .ok false := by
  have hc : PlainName "apiserver".toList := ⟨by decide, by decide⟩
  cases hv : verifyBin psFunc "apiserver".toList with
  | error f =>
    rw [verifyBin_plain psFunc _ hc (by decide)] at hv
    simp at hv
  | ok b =>
    cases b with
    | false => rfl
    | true =>
      exfalso
      obtain ⟨l, hl, p, t, hlp, hp⟩ := (verifyBin_plain_iff psFunc _ hc (by decide)).1 hv
      rcases h l hl with rfl | ⟨q, tail, hlq, hq, htail⟩
      · have := congrArg List.length hlp
        simp at this
        omega
      · exact no_start_inside "apiserver".toList "kube-apiserver".toList q tail p t 'k'
          "ube-apiserver".toList rfl (by decide) (by decide) (by decide) hq htail hp
          (hlq.symm.trans hlp)

/-- Instance of C4 amended: two `kube-apiserver` lines, one with a path. -/
theorem verifyBin_apiserver_rejects_kube_apiserver_witness :
    verifyBin psKubeApiserver "apiserver".toList = .ok false :=
  verifyBin_apiserver_rejects_kube_apiserver psKubeApiserver (by
    intro l hl
    have hs : split (psKubeApiserver "apiserver".toList) '\n' =
        ["/usr/local/bin/kube-apiserver --etcd-servers=http://127.0.0.1:2379".toList,
          "kube-apiserver".toList, []] := by decide
    rw [hs] at hl
    simp only [List.mem_cons, List.mem_singleton, List.not_mem_nil, or_false] at hl
    rcases hl with rfl | rfl | rfl
    · exact Or.inr ⟨"/usr/local/bin/".toList,
        " --etcd-servers=http://127.0.0.1:2379".toList, by decide, by decide,
        Or.inr ⟨' ', "--etcd-servers=http://127.0.0.1:2379".toList, by decide, by decide⟩⟩
    · exact Or.inr ⟨[], [], by decide, by decide, Or.inl rfl⟩
    · exact Or.inl rfl)

/-- A leading path does not prevent a match, for a candidate short enough for the
pattern to be small: for a candidate made of one or more (at most 503) letters,
digits, `-` and `_`, a path prefix that is empty or is free of `\s` characters and
ends in `/`, and any trailing text, if the process table of the candidate has the line
prefix + candidate + trailing text then `verifyBin` returns true. -/
theorem verifyBin_leading_path_matches (psFunc : Str → Str) (c p t : Str)
    (hc : PlainName c) (hlen : c.length ≤ 503) (hp : LeadingPath p)
    (hl : p ++ c ++ t ∈ split (psFunc c) '\n') :
    verifyBin psFunc c = .ok true :=
  (verifyBin_plain_iff psFunc c hc hlen).2 ⟨_, hl, p, t, rfl, hp⟩

/-- The candidate `kubelet` matches the line `/usr/bin/kubelet --flag`. -/
theorem verifyBin_leading_path_matches_kubelet :
    PlainName "kubelet".toList ∧ LeadingPath "/usr/bin/".toList ∧
    verifyBin psKubeletFlag "kubelet".toList = .ok true :=
  have hc : PlainName "kubelet".toList := ⟨by decide, by decide⟩
  have hp : LeadingPath "/usr/bin/".toList := Or.inr ⟨"/usr/bin".toList, rfl, by decide⟩
  ⟨hc, hp, verifyBin_leading_path_matches psKubeletFlag "kubelet".toList "/usr/bin/".toList
    " --flag".toList hc (by decide) hp (by decide)⟩

theorem takeWhile_append_of_forall (f : Char → Bool) (a b : Str) (h : ∀ x ∈ a, f x = true) :
    (a ++ b).takeWhile f = a ++ b.takeWhile f := by
  induction a with
  | nil => rfl
  | cons x a ih =>
    rw [List.cons_append, List.takeWhile_cons, if_pos (h x (List.mem_cons_self _ _)),
      ih (fun y hy => h y (List.mem_cons_of_mem _ hy)), List.cons_append]

/-- The trailing run of plain characters of the pattern of `verifyBin` for a plain
name is the name. -/
theorem plainSuffix_firstWord (c : Str) (hc : ∀ x ∈ c, plainChar x = true) :
    plainSuffix (firstWordPattern ++ c) = c := by
  unfold plainSuffix
  rw [List.reverse_append,
    takeWhile_append_of_forall plainChar c.reverse _ (fun x hx => hc x (List.mem_reverse.1 hx))]
  have h : firstWordPattern.reverse.takeWhile plainChar = [] := by decide
  rw [h, List.append_nil, List.reverse_reverse]

/-- A plain name of more than `maxRunes` characters makes the pattern of `verifyBin`
too large: `regexp.MustCompile` panics. -/
theorem verifyBin_plain_too_large (psFunc : Str → Str) (c : Str)
    (hc : ∀ x ∈ c, plainChar x = true) (hlen : maxRunes < c.length) :
    verifyBin psFunc c = .error (.badPattern .tooLarge) := by
  have hne : c ≠ [] := by
    intro h
    rw [h] at hlen
    exact absurd hlen (by decide)
  have hbig : ¬ (firstWordPattern ++ c).length ≤ smallPattern := by
    simp only [List.length_append, smallPattern, maxRunes] at hlen ⊢
    omega
  have hq : (firstWordPattern ++ c).take ((firstWordPattern ++ c).length - c.length) =
      firstWordPattern := by
    rw [List.length_append, Nat.add_sub_cancel]
    exact List.take_left firstWordPattern c
  have hparse : (parsePattern (firstWordPattern ++ c.take 1)).toBool = true := by
    rw [parsePattern_firstWord_plain (c.take 1) (fun x hx => hc x (List.mem_of_mem_take hx))]
    rfl
  have hlarge : tooLarge (firstWordPattern ++ c) = true := by
    unfold tooLarge
    simp only [plainSuffix_firstWord c hc, hq, hparse, Bool.and_true, Bool.and_eq_true,
      decide_eq_true_eq]
    exact ⟨hlen, by decide⟩
  have hcomp : compile (firstWordPattern ++ c) = .error (.bad .tooLarge) := by
    unfold compile
    rw [if_neg hbig, if_pos hlarge]
  unfold verifyBin
  simp only [trim_eq_self c quoteCutset (fun x hx => plainChar_not_quote x (hc x hx)),
    fields_single c hne (fun x hx => plainChar_not_space x (hc x hx)), hcomp]

/-- **C5, refuted by the code.** For the candidate made of 33554433 letters `a`,
which is one more than the `maxRunes` of `regexp/syntax`, `regexp.MustCompile` panics
on the pattern (`expression too large`), so `verifyBin` does not return true,
whatever the process table holds: also when it holds the line made of a leading path,
the candidate and a trailing text. -/
theorem verifyBin_leading_path_panics (psFunc : Str → Str) :
    PlainName (List.replicate 33554433 'a') ∧
    verifyBin psFunc (List.replicate 33554433 'a') = .error (.badPattern .tooLarge) := by
  have hplain : ∀ x ∈ List.replicate 33554433 'a', plainChar x = true := by
    intro x hx
    rw [List.eq_of_mem_replicate hx]
    decide
  have hlen : maxRunes < (List.replicate 33554433 'a').length := by
    rw [List.length_replicate]
    decide
  have hne : List.replicate 33554433 'a' ≠ [] := by
    intro h
    have h2 := congrArg List.length h
    rw [List.length_replicate] at h2
    exact absurd h2 (by decide)
  exact ⟨⟨hne, hplain⟩, verifyBin_plain_too_large psFunc _ hplain hlen⟩

/-- **C6, refuted by the code.** `verifyBin` returns true for the single-word candidate
`kubelet` although the first word of the only line, without its path, is
`kubelet-proxy`: the pattern has nothing after the candidate that ends the word. It
also returns true for the single-word candidate `kube.proxy`, which is put into the
pattern unquoted, although the first word of the only line is `kube-proxy`. -/
theorem verifyBin_not_exact_word :
    (fields "kubelet".toList = ["kubelet".toList] ∧
      verifyBin psKubeletProxy "kubelet".toList = .ok true ∧
      split (psKubeletProxy "kubelet".toList) '\n' = ["/usr/bin/kubelet-proxy --v=2".toList] ∧
      lineCommand "/usr/bin/kubelet-proxy --v=2".toList = some "kubelet-proxy".toList ∧
      ∀ l ∈ split (psKubeletProxy "kubelet".toList) '\n',
        lineCommand l ≠ some "kubelet".toList) ∧
    (fields "kube.proxy".toList = ["kube.proxy".toList] ∧
      verifyBin psKubeProxy "kube.proxy".toList = .ok true ∧
      split (psKubeProxy "kube.proxy".toList) '\n' = ["kube-proxy --v=2".toList] ∧
      lineCommand "kube-proxy --v=2".toList = some "kube-proxy".toList ∧
      ∀ l ∈ split (psKubeProxy "kube.proxy".toList) '\n',
        lineCommand l ≠ some "kube.proxy".toList) := by
  refine ⟨⟨by decide, by decide, by decide, by decide, by decide⟩,
    ⟨by decide, by decide, by decide, by decide, by decide⟩⟩

/-! ### The version patterns -/

theorem dropLit_eq_some (l u r : Str) : dropLit l u = some r ↔ u = l ++ r := by
  induction l generalizing u with
  | nil => simp [dropLit, eq_comm]
  | cons x l ih =>
    cases u with
    | nil => simp [dropLit]
    | cons y u =>
      by_cases h : y = x
      · subst h; simp [dropLit, ih]
      · simp [dropLit, h]

theorem runSeq_append (n : Nat) (a b : List Regex) :
    ∀ th, runSeq n (a ++ b) th = (runSeq n a th).flatMap (runSeq n b) := by
  induction a with
  | nil => intro th; simp [runSeq]
  | cons r a ih =>
    intro th
    simp only [List.cons_append, runSeq, List.flatMap_assoc]
    congr 1
    funext th1
    exact ih th1

theorem runSeq_lits (n : Nat) (l : Str) :
    ∀ (u : Str) (cp : Caps), runSeq n (l.map Regex.lit) (u, cp) =
      match dropLit l u with
      | some r => [(r, cp)]
      | none => [] := by
  induction l with
  | nil => intro u cp; simp [runSeq, dropLit]
  | cons x l ih =>
    intro u cp
    cases u with
    | nil => simp [runSeq, run, stepChar, dropLit]
    | cons y u =>
      by_cases h : y = x
      · subst h; simp [runSeq, run, stepChar, dropLit, ih]
      · simp [runSeq, run, stepChar, dropLit, h]

theorem classHas_digit (x : Char) : classHas false [⟨false, [(48, 57)]⟩] x = x.isDigit := by
  have hb : ∀ b : Bool, ((b != false) != false) = b := by decide
  simp only [classHas, ClassItem.has, inRanges, List.any_cons, List.any_nil, Bool.or_false,
    Char.isDigit, Char.toNat, hb]
  congr 1

/-- Among the threads of a greedy class star, only the one that took every character
of the class can go on with a character outside the class. -/
theorem classTails_flatMap {β : Type} (p : Char → Bool) (q : Char) (hq : p q = false)
    (F : Str → List β) (hF : ∀ u, u.head? ≠ some q → F u = []) :
    ∀ s, (classTails p s).flatMap F = F (s.dropWhile p) := by
  intro s
  induction s with
  | nil => simp [classTails]
  | cons x t ih =>
    by_cases hp : p x = true
    · have hx : F (x :: t) = [] := by
        apply hF
        simp only [List.head?_cons, ne_eq, Option.some.injEq]
        rintro rfl
        rw [hq] at hp
        exact absurd hp (by decide)
      simp [classTails, hp, List.dropWhile, ih, hx]
    · have hp2 : p x = false := by simpa using hp
      simp [classTails, hp2, List.dropWhile]

theorem take_sub_dropWhile (p : Char → Bool) (s : Str) :
    s.take (s.length - (s.dropWhile p).length) = s.takeWhile p := by
  have h := List.takeWhile_append_dropWhile p s
  have hlen : s.length = (s.takeWhile p).length + (s.dropWhile p).length := by
    have := congrArg List.length h
    simp only [List.length_append] at this
    omega
  have h2 := List.take_left (s.takeWhile p) (s.dropWhile p)
  rw [h] at h2
  rw [hlen, Nat.add_sub_cancel]
  exact h2

theorem run_group (n i : Nat) (r : Regex) (th : Thread) :
    run n (.group i r) th =
      (run n r th).map
        (fun th1 => (th1.1, (i, th.1.take (th.1.length - th1.1.length)) :: th1.2)) := by
  rw [run]

theorem run_plus (n : Nat) (g : Bool) (r : Regex) (th : Thread) :
    run n (.plus g r) th =
      (run n r th).flatMap (fun th1 => starLoop (run n r) g th1.1.length th1) := by
  rw [run]

theorem run_lit (n : Nat) (c : Char) (th : Thread) :
    run n (.lit c) th = stepChar (fun x => x == c) th := by
  rw [run]

theorem flatMap_map_eq {α β γ : Type} (l : List α) (f : α → β) (g : β → List γ) :
    (l.map f).flatMap g = l.flatMap (fun a => g (f a)) := by
  induction l with
  | nil => rfl
  | cons a l ih => simp [List.flatMap_cons, ih]

/-- The threads of `([0-9]+)"`: at most one, which has read the longest run of
digits, non-empty, and the quote after it, and has captured the digits. -/
theorem run_digits_quote (n : Nat) (r0 : Str) (cp : Caps) :
    (run n (.group 1 (.plus true (.cls false [⟨false, [(48, 57)]⟩]))) (r0, cp)).flatMap
        (run n (.lit '"')) =
      if r0.takeWhile Char.isDigit ≠ [] ∧ (r0.dropWhile Char.isDigit).head? = some '"' then
        [((r0.dropWhile Char.isDigit).tail, (1, r0.takeWhile Char.isDigit) :: cp)]
      else [] := by
  have hD : run n (.cls false [⟨false, [(48, 57)]⟩]) = stepChar Char.isDigit := by
    have hcl : classHas false [⟨false, [(48, 57)]⟩] = Char.isDigit := funext classHas_digit
    rw [run_cls, hcl]
  rw [run_group, run_plus, hD]
  cases r0 with
  | nil => simp [stepChar]
  | cons x r1 =>
    by_cases hx : x.isDigit = true
    · simp only [stepChar, hx, if_true, List.flatMap_cons, List.flatMap_nil, List.append_nil]
      rw [starLoop_stepChar _ cp _ r1 (Nat.le_refl _), flatMap_map_eq, flatMap_map_eq]
      rw [classTails_flatMap Char.isDigit '"' (by decide) _
        (by
          intro u hu
          rw [run_lit]
          cases u with
          | nil => rfl
          | cons y u =>
            have hy : y ≠ '"' := by simpa using hu
            simp [stepChar, hy]) r1]
      have hlen : (r1.dropWhile Char.isDigit).length ≤ r1.length := by
        have := congrArg List.length (List.takeWhile_append_dropWhile Char.isDigit r1)
        simp only [List.length_append] at this
        omega
      have htake : (x :: r1).take ((x :: r1).length - (r1.dropWhile Char.isDigit).length) =
          x :: r1.takeWhile Char.isDigit := by
        have : (x :: r1).length - (r1.dropWhile Char.isDigit).length =
            (r1.length - (r1.dropWhile Char.isDigit).length) + 1 := by
          simp only [List.length_cons]; omega
        rw [this, List.take_succ_cons, take_sub_dropWhile]
      rw [run_lit]
      simp only [List.takeWhile_cons, hx, if_true, List.dropWhile_cons, ne_eq,
        not_false_eq_true, true_and, htake, reduceCtorEq]
      cases hdw : r1.dropWhile Char.isDigit with
      | nil => simp [stepChar]
      | cons y rest =>
        by_cases hy : y = '"'
        · subst hy; simp [stepChar]
        · simp [stepChar, hy]
    · have hx2 : x.isDigit = false := by simpa using hx
      simp [stepChar, hx2, List.takeWhile_cons]

/-- The captures of the preferred thread of `name:"([0-9]+)"` at the start of a
text: the digits of the quoted field that starts there. -/
theorem run_fieldRegex_head (n : Nat) (name u : Str) :
    ((run n (fieldRegex name) (u, [])).head?).map (fun th => th.2) =
      (quotedAt name u).map (fun d => [(1, d)]) := by
  rw [fieldRegex, run_mkCat, runSeq_append, runSeq_lits]
  unfold quotedAt
  cases hd : dropLit (name ++ [':', '"']) u with
  | none => simp
  | some r0 =>
    have hseq : ∀ th, runSeq n [.group 1 (.plus true (.cls false [⟨false, [(48, 57)]⟩])),
        .lit '"'] th =
        (run n (.group 1 (.plus true (.cls false [⟨false, [(48, 57)]⟩]))) th).flatMap
          (run n (.lit '"')) := by
      intro th
      simp only [runSeq, flatMap_single]
    simp only [List.flatMap_cons, List.flatMap_nil, List.append_nil, hseq, run_digits_quote]
    by_cases hc : r0.takeWhile Char.isDigit ≠ [] ∧
        (r0.dropWhile Char.isDigit).head? = some '"'
    · rw [if_pos hc, if_pos hc]
      rfl
    · rw [if_neg hc, if_neg hc]
      rfl

theorem mkCat_cons_of_ne_nil (r : Regex) (rs : List Regex) (h : rs ≠ []) :
    mkCat (r :: rs) = .cat r (mkCat rs) := by
  cases rs with
  | nil => exact absurd rfl h
  | cons a rs => rfl

theorem numGroups_fieldRegex (name : Str) : (fieldRegex name).numGroups = 1 := by
  unfold fieldRegex
  generalize name ++ [':', '"'] = l
  induction l with
  | nil => rfl
  | cons x l ih =>
    rw [List.map_cons, List.cons_append, mkCat_cons_of_ne_nil _ _ (by simp)]
    simp [Regex.numGroups, ih]

theorem quotedAt_nil (name : Str) : quotedAt name [] = none := by
  unfold quotedAt
  cases name <;> simp [dropLit]

/-- The captures of the leftmost match of `name:"([0-9]+)"`: the digits of the first
quoted numeric field. -/
theorem search_fieldRegex (n : Nat) (name : Str) :
    ∀ u, (search n (fieldRegex name) u).map (fun r => r.2.2) =
      (quotedField name u).map (fun d => [(1, d)]) := by
  intro u
  induction u with
  | nil =>
    have h := run_fieldRegex_head n name []
    rw [quotedAt_nil] at h
    simp only [search, quotedField, Option.map_map, Option.map_none'] at h ⊢
    cases hh : (run n (fieldRegex name) ([], [])).head? with
    | none => rfl
    | some th => rw [hh] at h; simp at h
  | cons x u ih =>
    have h := run_fieldRegex_head n name (x :: u)
    rw [search, quotedField]
    cases hh : (run n (fieldRegex name) (x :: u, [])).head? with
    | none =>
      rw [hh] at h
      cases hq : quotedAt name (x :: u) with
      | none => simpa using ih
      | some d => rw [hq] at h; simp at h
    | some th =>
      rw [hh] at h
      cases hq : quotedAt name (x :: u) with
      | none => rw [hq] at h; simp at h
      | some d =>
        rw [hq] at h
        simpa using h

/-- **`versionMatch` on a field pattern** extracts the digits of the first quoted
numeric field of that name, and the empty string when there is none. -/
theorem versionMatch_fieldRegex (name s : Str) :
    versionMatch (fieldRegex name) s = (quotedField name s).getD [] := by
  have h := search_fieldRegex s.length name s
  unfold versionMatch Regex.findStringSubmatch
  rw [numGroups_fieldRegex]
  cases hs : search s.length (fieldRegex name) s with
  | none =>
    rw [hs] at h
    cases hq : quotedField name s with
    | none => rfl
    | some d => rw [hq] at h; simp at h
  | some r =>
    obtain ⟨start, rest, cp⟩ := r
    rw [hs] at h
    cases hq : quotedField name s with
    | none => rw [hq] at h; simp at h
    | some d =>
      rw [hq] at h
      simp only [Option.map_some', Option.some.injEq] at h
      subst h
      simp [List.range, List.range.loop, List.lookup]

theorem regexVersion_eq :
    regexVersionMajor = fieldRegex "Major".toList ∧
    regexVersionMinor = fieldRegex "Minor".toList :=
  ⟨rfl, rfl⟩

/-- A quoted field found at the start of a text consists of one or more digits and
the text starts with `name:"digits"`. -/
theorem quotedAt_some (name u d : Str) (h : quotedAt name u = some d) :
    d ≠ [] ∧ (∀ x ∈ d, x.isDigit = true) ∧ ∃ b, u = name ++ [':', '"'] ++ d ++ ['"'] ++ b := by
  unfold quotedAt at h
  cases hd : dropLit (name ++ [':', '"']) u with
  | none => simp [hd] at h
  | some r0 =>
    simp only [hd] at h
    by_cases hc : r0.takeWhile Char.isDigit ≠ [] ∧
        (r0.dropWhile Char.isDigit).head? = some '"'
    · rw [if_pos hc, Option.some.injEq] at h
      subst h
      refine ⟨hc.1, fun x hx => (List.mem_takeWhile_imp hx), ?_⟩
      have hu := (dropLit_eq_some _ _ _).1 hd
      have hsplit := List.takeWhile_append_dropWhile Char.isDigit r0
      cases hdw : r0.dropWhile Char.isDigit with
      | nil => rw [hdw] at hc; simp at hc
      | cons y rest =>
        rw [hdw] at hc hsplit
        simp only [List.head?_cons, Option.some.injEq] at hc
        refine ⟨rest, ?_⟩
        rw [hu]
        conv_lhs => rw [← hsplit, hc.2]
        simp
    · rw [if_neg hc] at h
      simp at h

/-- A field found by `quotedField` is a quoted numeric field contained in the text. -/
theorem quotedField_some (name : Str) :
    ∀ (s d : Str), quotedField name s = some d →
      d ≠ [] ∧ (∀ x ∈ d, x.isDigit = true) ∧
      ∃ a b, s = a ++ name ++ [':', '"'] ++ d ++ ['"'] ++ b := by
  intro s
  induction s with
  | nil => intro d h; simp [quotedField] at h
  | cons x s ih =>
    intro d h
    rw [quotedField] at h
    cases hq : quotedAt name (x :: s) with
    | some d1 =>
      rw [hq] at h
      simp only [Option.some.injEq] at h
      subst h
      obtain ⟨h1, h2, b, hb⟩ := quotedAt_some name (x :: s) d1 hq
      exact ⟨h1, h2, [], b, by simpa using hb⟩
    | none =>
      rw [hq] at h
      obtain ⟨h1, h2, a, b, hab⟩ := ih d h
      exact ⟨h1, h2, x :: a, b, by simp [hab]⟩

/-- A text that starts with a quoted numeric field has one at its start. -/
theorem quotedAt_of_starts (name d b : Str) (hd : d ≠ []) (hdig : ∀ x ∈ d, x.isDigit = true) :
    quotedAt name (name ++ [':', '"'] ++ d ++ ['"'] ++ b) = some d := by
  unfold quotedAt
  have h1 : dropLit (name ++ [':', '"']) (name ++ [':', '"'] ++ d ++ ['"'] ++ b) =
      some (d ++ '"' :: b) := (dropLit_eq_some _ _ _).2 (by simp)
  have h2 : (d ++ '"' :: b).takeWhile Char.isDigit = d := by
    clear h1 hd
    induction d with
    | nil => simp [List.takeWhile_cons]
    | cons y d ih =>
      simp [List.takeWhile_cons, hdig y (by simp), ih (fun x hx => hdig x (by simp [hx]))]
  have h3 : (d ++ '"' :: b).dropWhile Char.isDigit = '"' :: b := by
    clear h1 h2 hd
    induction d with
    | nil => simp [List.dropWhile_cons]
    | cons y d ih =>
      simp [List.dropWhile_cons, hdig y (by simp), ih (fun x hx => hdig x (by simp [hx]))]
  rw [h1]
  simp only [h2, h3, List.head?_cons]
  rw [if_pos ⟨hd, trivial⟩]

/-- A text that contains a quoted numeric field has a first one. -/
theorem quotedField_of_contains (name a d b : Str) (hd : d ≠ [])
    (hdig : ∀ x ∈ d, x.isDigit = true) :
    (quotedField name (a ++ name ++ [':', '"'] ++ d ++ ['"'] ++ b)).isSome = true := by
  induction a with
  | nil =>
    have h := quotedAt_of_starts name d b hd hdig
    cases hn : [] ++ name ++ [':', '"'] ++ d ++ ['"'] ++ b with
    | nil =>
      have := congrArg List.length hn
      simp at this
    | cons x s =>
      simp only [List.nil_append] at hn
      rw [hn] at h
      rw [quotedField, h]
      rfl
  | cons y a ih =>
    simp only [List.cons_append]
    rw [quotedField]
    cases quotedAt name (y :: (a ++ name ++ [':', '"'] ++ d ++ ['"'] ++ b)) with
    | some d1 => rfl
    | none => simpa using ih

/-! ### Messages -/

theorem append_ne_nil_of_left (a b : Str) (h : a ≠ []) : a ++ b ≠ [] := by
  cases a with
  | nil => exact absurd rfl h
  | cons x a => simp

/-! ### `strings.Replace` -/

theorem startsWith_append (p rest : Str) : startsWith (p ++ rest) p = true := by
  induction p with
  | nil => cases rest <;> rfl
  | cons x p ih => simp [startsWith, ih]

theorem startsWith_iff (s p : Str) : startsWith s p = true ↔ ∃ r, s = p ++ r := by
  induction p generalizing s with
  | nil => cases s <;> simp [startsWith]
  | cons x p ih =>
    cases s with
    | nil => simp [startsWith]
    | cons c s =>
      simp only [startsWith, Bool.and_eq_true, beq_iff_eq, ih, List.cons_append,
        List.cons.injEq]
      constructor
      · rintro ⟨rfl, r, rfl⟩
        exact ⟨r, rfl, rfl⟩
      · rintro ⟨r, rfl, rfl⟩
        exact ⟨rfl, r, rfl⟩

/-- Passing over the rest of a replaced occurrence. -/
theorem replaceScan_skip (old new : Str) (x rest : Str) :
    replaceScan old new x.length (x ++ rest) = replaceScan old new 0 rest := by
  induction x with
  | nil => rfl
  | cons c x ih =>
    cases hr : x ++ rest with
    | nil =>
      have hx := (List.append_eq_nil.1 hr).1
      have hrest := (List.append_eq_nil.1 hr).2
      subst hx hrest
      simp [replaceScan]
    | cons d t =>
      rw [List.cons_append, List.length_cons, replaceScan, ih]

/-- At an occurrence of `old` the scan writes `new` and goes on after it. -/
theorem replaceScan_at (old new rest : Str) (hold : old ≠ []) :
    replaceScan old new 0 (old ++ rest) = new ++ replaceScan old new 0 rest := by
  cases old with
  | nil => exact absurd rfl hold
  | cons x old =>
    rw [List.cons_append, replaceScan]
    have h : startsWith (x :: (old ++ rest)) (x :: old) = true := by
      rw [← List.cons_append]; exact startsWith_append _ _
    rw [if_pos h]
    simp only [List.length_cons, Nat.add_sub_cancel]
    rw [replaceScan_skip]

/-- A text without the first character of `old` is copied by the scan. -/
theorem replaceScan_copy (x : Char) (old new p rest : Str) (hp : x ∉ p) :
    replaceScan (x :: old) new 0 (p ++ rest) = p ++ replaceScan (x :: old) new 0 rest := by
  induction p with
  | nil => rfl
  | cons c p ih =>
    have hc : c ≠ x := fun h => hp (by simp [h])
    have hp2 : x ∉ p := fun h => hp (by simp [h])
    rw [List.cons_append, replaceScan]
    have h : startsWith (c :: (p ++ rest)) (x :: old) = false := by
      simp [startsWith, hc]
    rw [h]
    simp [ih hp2]

theorem token_eq (k ext : Str) : token k ext = '$' :: (k ++ ext) := rfl

theorem multiWordReplace_eq (s subname sub : Str) :
    multiWordReplace s subname sub = replaceAll s subname (quoteWords sub) := by
  unfold multiWordReplace quoteWords
  rfl

theorem replaceAll_token (s k ext new : Str) :
    replaceAll s (token k ext) new = replaceScan (token k ext) new 0 s := by
  unfold replaceAll
  rw [if_neg (by simp [token_eq])]

/-- Pieces without `$` joined by a token become the pieces joined by the new text. -/
theorem replaceAll_joinWith (k ext new : Str) (pieces : List Str)
    (h : ∀ p ∈ pieces, '$' ∉ p) :
    replaceAll (joinWith (token k ext) pieces) (token k ext) new = joinWith new pieces := by
  rw [replaceAll_token]
  induction pieces with
  | nil => rfl
  | cons p ps ih =>
    have hp : '$' ∉ p := h p (by simp)
    cases ps with
    | nil =>
      have := replaceScan_copy '$' (k ++ ext) new p [] hp
      simpa [joinWith, token_eq, replaceScan] using this
    | cons q ps =>
      have ih2 := ih (fun x hx => h x (by simp [hx]))
      simp only [joinWith, List.append_assoc]
      rw [token_eq, replaceScan_copy '$' (k ++ ext) new p _ hp,
        replaceScan_at _ new _ (by simp)]
      rw [token_eq] at ih2
      rw [ih2]

/-- **C13.** Substitution quotes multi-word values. For a map with the one key `k`
and a non-empty value `v`, `makeSubstitutions` is `strings.Replace` of every
occurrence of the token `$` + `k` + `ext` by `v`, wrapped in single quotes when `v`
has two or more whitespace-separated words and as it is otherwise; in particular a
template made of pieces without `$` joined by the token becomes the same pieces joined
by that text. -/
theorem makeSubstitutions_single_key (s ext k v : Str) (hv : v ≠ []) :
    makeSubstitutions s ext [(k, v)] = replaceAll s (token k ext) (quoteWords v) ∧
    ∀ pieces : List Str, (∀ p ∈ pieces, '$' ∉ p) →
      makeSubstitutions (joinWith (token k ext) pieces) ext [(k, v)] =
        joinWith (quoteWords v) pieces := by
  have h1 : ∀ t, makeSubstitutions t ext [(k, v)] = replaceAll t (token k ext) (quoteWords v) := by
    intro t
    simp only [makeSubstitutions, hv, if_false, multiWordReplace_eq]
    rfl
  refine ⟨h1 s, ?_⟩
  intro pieces hp
  rw [h1, replaceAll_joinWith k ext _ pieces hp]

/-- Instance of C13: the multi-word value `/usr/bin/my comp` is inserted in quotes. -/
theorem makeSubstitutions_single_key_witness :
    makeSubstitutions "$comp_bin --flag".toList "_bin".toList
        [("comp".toList, "/usr/bin/my comp".toList)] =
      "'/usr/bin/my comp' --flag".toList :=
  ((makeSubstitutions_single_key "$comp_bin --flag".toList "_bin".toList "comp".toList
    "/usr/bin/my comp".toList (by decide)).2 [[], " --flag".toList] (by decide)).trans
    (by decide)

/-- **C14.** An empty resolved value substitutes nothing: when every value of the map
is the empty string, `makeSubstitutions` returns the template unchanged, whatever the
order of the entries, so every placeholder token is where it was. -/
theorem makeSubstitutions_empty_values (s ext : Str) (m : List (Str × Str))
    (h : ∀ e ∈ m, e.2 = []) : makeSubstitutions s ext m = s := by
  induction m with
  | nil => rfl
  | cons e m ih =>
    obtain ⟨k, v⟩ := e
    have hv : v = [] := h (k, v) (by simp)
    have := ih (fun e he => h e (by simp [he]))
    simp [makeSubstitutions, hv, this]

/-- Instance of C14: the placeholder `$comp_bin` stays in the template. -/
theorem makeSubstitutions_empty_values_witness :
    makeSubstitutions "$comp_bin --flag".toList "_bin".toList
        [("comp".toList, []), ("etcd".toList, [])] = "$comp_bin --flag".toList :=
  makeSubstitutions_empty_values _ _ _ (by decide)

/-! ### Map invariants -/

theorem verifyBin_nil (psFunc : Str → Str) : verifyBin psFunc [] = .error .indexOutOfRange := rfl

/-- A returned pair of `findExecutable` is the first accepted candidate with a nil
error, or the empty string with the error when every candidate is rejected. -/
theorem findExecutable_ok_first (psFunc : Str → Str) (cands : List Str) (bin : Str)
    (err : Option Str) (h : findExecutable psFunc cands = .ok (bin, err)) :
    (err = none ∧ ∃ pre post, cands = pre ++ bin :: post ∧ verifyBin psFunc bin = .ok true ∧
      ∀ x ∈ pre, verifyBin psFunc x = .ok false) ∨
    (bin = [] ∧ err = some noCandidatesRunning ∧ ∀ c ∈ cands, verifyBin psFunc c = .ok false) := by
  induction cands with
  | nil =>
    simp only [findExecutable, Except.ok.injEq, Prod.mk.injEq] at h
    exact Or.inr ⟨h.1.symm, h.2.symm, by simp⟩
  | cons x cands ih =>
    unfold findExecutable at h
    cases hx : verifyBin psFunc x with
    | error f => simp [hx] at h
    | ok b =>
      cases b with
      | true =>
        simp only [hx, Except.ok.injEq, Prod.mk.injEq] at h
        left
        refine ⟨h.2.symm, [], cands, by simp [h.1], ?_, by simp⟩
        rw [← h.1]; exact hx
      | false =>
        simp only [hx] at h
        rcases ih h with ⟨h1, pre, post, hl, hacc, hpre⟩ | ⟨h1, h2, h3⟩
        · left
          refine ⟨h1, x :: pre, post, by simp [hl], hacc, ?_⟩
          intro y hy
          rcases List.mem_cons.1 hy with rfl | hy
          · exact hx
          · exact hpre y hy
        · right
          refine ⟨h1, h2, ?_⟩
          intro c hcm
          rcases List.mem_cons.1 hcm with rfl | hcm
          · exact hx
          · exact h3 c hcm

/-- **C16.** Resolved binary map invariant. In a map returned by `getBinaries` a name
has an entry if and only if it is listed in the catalog and its sub-configuration
declares at least one binary candidate; the entry is the first candidate accepted by
`verifyBin` (every candidate before it being rejected) or, when every candidate is
rejected, the component's own name. A map is returned whenever `verifyBin` returns on
the candidates and no required component has all of its candidates rejected. -/
theorem getBinaries_map_invariant (psFunc : Str → Str) (v : Catalog) :
    (∀ m, getBinaries psFunc v = .ok m →
      (∀ k, (∃ e, m.get k = some e) ↔
        (k ∈ v.components ∧ ∃ s, v.sub k = some s ∧ s.bins ≠ [])) ∧
      (∀ k e, m.get k = some e → ∃ s, v.sub k = some s ∧
        ((∃ pre post, s.bins = pre ++ e :: post ∧ verifyBin psFunc e = .ok true ∧
            ∀ x ∈ pre, verifyBin psFunc x = .ok false) ∨
          (e = k ∧ ∀ b ∈ s.bins, verifyBin psFunc b = .ok false)))) ∧
    ((∀ c ∈ v.components, VerifyReturns psFunc v c) →
      (∀ c ∈ v.components, ¬ Unresolved psFunc v c) →
      ∃ m, getBinaries psFunc v = .ok m) := by
  refine ⟨?_, ?_⟩
  · intro m hm
    have hget : ∀ k, m.get k = if k ∈ v.components then binOf psFunc v k else none := by
      intro k
      rw [getBinariesLoop_get psFunc v v.components [] m hm k]
      by_cases hk : k ∈ v.components
      · simp only [hk, if_true]
        cases binOf psFunc v k <;> rfl
      · simp only [hk, if_false]
        rfl
    have hbin : ∀ k e, k ∈ v.components → binOf psFunc v k = some e →
        ∃ s, v.sub k = some s ∧ s.bins ≠ [] ∧ ∃ bin err,
          findExecutable psFunc s.bins = .ok (bin, err) ∧ e = if bin = [] then k else bin := by
      intro k e _ hb
      unfold binOf at hb
      cases hs : v.sub k with
      | none => simp [hs] at hb
      | some s =>
        simp only [hs] at hb
        by_cases hlen : s.bins.length > 0
        · simp only [hlen, if_true] at hb
          cases hf : findExecutable psFunc s.bins with
          | error f => simp [hf] at hb
          | ok res =>
            obtain ⟨bin, err⟩ := res
            simp only [hf, Option.some.injEq] at hb
            exact ⟨s, rfl, List.length_pos.1 hlen, bin, err, hf, hb.symm⟩
        · simp [hlen] at hb
    refine ⟨?_, ?_⟩
    · intro k
      rw [hget k]
      constructor
      · rintro ⟨e, he⟩
        by_cases hk : k ∈ v.components
        · rw [if_pos hk] at he
          obtain ⟨s, hs, hne, _⟩ := hbin k e hk he
          exact ⟨hk, s, hs, hne⟩
        · rw [if_neg hk] at he
          simp at he
      · rintro ⟨hk, s, hs, hne⟩
        obtain ⟨bin, err, hf, _⟩ :=
          getBinariesLoop_ok psFunc v v.components [] m hm k hk s hs hne
        rw [if_pos hk]
        have hlen : s.bins.length > 0 := List.length_pos.2 hne
        exact ⟨if bin = [] then k else bin, by simp only [binOf, hs, hlen, if_true, hf]⟩
    · intro k e he
      rw [hget k] at he
      by_cases hk : k ∈ v.components
      · rw [if_pos hk] at he
        obtain ⟨s, hs, _, bin, err, hf, hebin⟩ := hbin k e hk he
        refine ⟨s, hs, ?_⟩
        rcases findExecutable_ok_first psFunc s.bins bin err hf with
          ⟨_, pre, post, hl, hacc, hpre⟩ | ⟨h1, _, h3⟩
        · have hne : bin ≠ [] := by
            rintro rfl
            rw [verifyBin_nil] at hacc
            simp at hacc
          rw [if_neg hne] at hebin
          subst hebin
          exact Or.inl ⟨pre, post, hl, hacc, hpre⟩
        · rw [if_pos h1] at hebin
          exact Or.inr ⟨hebin, h3⟩
      · rw [if_neg hk] at he
        simp at he
  · intro hret hun
    obtain ⟨m1, hm1⟩ := getBinariesLoop_skip psFunc v v.components [] [] hret hun
    refine ⟨m1, ?_⟩
    unfold getBinaries
    rw [← List.append_nil v.components, hm1]
    rfl

/-- Instance of C16: with only `kubelet` running, `etcd` (optional) is mapped to its
own name, `kubelet` to its second candidate, and an unlisted name has no entry. -/
theorem getBinaries_map_invariant_witness :
    ∃ m, getBinaries psKubelet sampleCatalog = .ok m ∧
      ((∃ e, m.get "kubelet".toList = some e) ↔
        ("kubelet".toList ∈ sampleCatalog.components ∧
          ∃ s, sampleCatalog.sub "kubelet".toList = some s ∧ s.bins ≠ [])) ∧
      m.get "kubelet".toList = some "kubelet".toList ∧
      m.get "etcd".toList = some "etcd".toList ∧
      m.get "apiserver".toList = none :=
  have hm : getBinaries psKubelet sampleCatalog =
      .ok [("kubelet".toList, "kubelet".toList), ("etcd".toList, "etcd".toList)] := by decide
  ⟨_, hm, ((getBinaries_map_invariant psKubelet sampleCatalog).1 _ hm).1 "kubelet".toList,
    by decide, by decide, by decide⟩

/-- **C17, as stated, fails.** In this catalog `kubelet` has a sub-configuration that
declares no config candidates, and the map returned by `getConfigFiles` has an entry
for it: its default config name. -/
theorem getConfigFiles_entry_counterexample :
    (∃ s, confCatalog.sub "kubelet".toList = some s ∧ s.confs = []) ∧
    ∃ m, getConfigFiles statOnlyB confCatalog = .ok m ∧
      m.get "kubelet".toList = some "kubelet.conf".toList :=
  ⟨⟨_, rfl, rfl⟩,
    [("proxy".toList, "/etc/b.conf".toList), ("kubelet".toList, "kubelet.conf".toList),
      ("etcd".toList, "etcd".toList)], by decide, by decide⟩

/-- **C17, amended.** Resolved config map invariant: in a map returned by
`getConfigFiles` a name has an entry if and only if it is listed in the catalog and
has a sub-configuration, whether or not that declares config candidates; a map is
returned whenever no existence check fails. -/
theorem getConfigFiles_map_invariant (statFunc : Str → StatResult) (v : Catalog) :
    (∀ m, getConfigFiles statFunc v = .ok m →
      ∀ k, (∃ e, m.get k = some e) ↔ (k ∈ v.components ∧ ∃ s, v.sub k = some s)) ∧
    ((∀ comp ∈ v.components, ∀ s, v.sub comp = some s →
        ∀ c ∈ s.confs, statFunc c = .found ∨ statFunc c = .notExist) →
      ∃ m, getConfigFiles statFunc v = .ok m) := by
  refine ⟨?_, fun h => getConfigFilesLoop_returns statFunc v v.components [] h⟩
  intro m hm k
  rw [getConfigFilesLoop_get statFunc v v.components [] m hm k]
  constructor
  · rintro ⟨e, he⟩
    by_cases hk : k ∈ v.components
    · rw [if_pos hk] at he
      refine ⟨hk, ?_⟩
      cases hs : v.sub k with
      | none =>
        simp only [confOf, hs] at he
        exact absurd he (by simp [StrMap.get])
      | some s => exact ⟨s, rfl⟩
    · rw [if_neg hk] at he
      exact absurd he (by simp [StrMap.get])
  · rintro ⟨hk, s, hs⟩
    obtain ⟨conf, hconf⟩ := getConfigFilesLoop_ok statFunc v v.components [] m hm k hk s hs
    rw [if_pos hk]
    exact ⟨_, by simp only [confOf, hs, hconf]; rfl⟩

/-- Instance of C17 amended: `kubelet`, without config candidates, has an entry, and
an unlisted name has none. -/
theorem getConfigFiles_map_invariant_witness :
    ∃ m, getConfigFiles statOnlyB confCatalog = .ok m ∧
      ((∃ e, m.get "kubelet".toList = some e) ↔
        ("kubelet".toList ∈ confCatalog.components ∧
          ∃ s, confCatalog.sub "kubelet".toList = some s)) ∧
      m.get "apiserver".toList = none :=
  have hm : getConfigFiles statOnlyB confCatalog =
      .ok [("proxy".toList, "/etc/b.conf".toList), ("kubelet".toList, "kubelet.conf".toList),
        ("etcd".toList, "etcd".toList)] := by decide
  ⟨_, hm, (getConfigFiles_map_invariant statOnlyB confCatalog).1 _ hm "kubelet".toList,
    by decide⟩

/-! ### Quotes around a candidate -/

theorem dropWhile_of_head (p : Char → Bool) (l : Str)
    (h : ∀ x, l.head? = some x → p x = false) : l.dropWhile p = l := by
  cases l with
  | nil => rfl
  | cons x l => simp [List.dropWhile, h x rfl]

theorem trim_of_ends (c cutset : Str) (hhead : ∀ x, c.head? = some x → cutset.contains x = false)
    (hlast : ∀ x, c.getLast? = some x → cutset.contains x = false) : trim c cutset = c := by
  unfold trim
  rw [dropWhile_of_head _ c hhead, dropWhile_of_head _ c.reverse, List.reverse_reverse]
  intro x hx
  rw [List.head?_reverse] at hx
  exact hlast x hx

theorem dropWhile_cons_pos (p : Char → Bool) (x : Char) (l : Str) (h : p x = true) :
    (x :: l).dropWhile p = l.dropWhile p := by
  rw [List.dropWhile_cons, if_pos h]

theorem trim_wrapped (q : Char) (c cutset : Str) (hq : cutset.contains q = true)
    (hhead : ∀ x, c.head? = some x → cutset.contains x = false)
    (hlast : ∀ x, c.getLast? = some x → cutset.contains x = false) :
    trim (q :: c ++ [q]) cutset = c := by
  unfold trim
  rw [List.cons_append, dropWhile_cons_pos _ q _ hq]
  cases c with
  | nil =>
    rw [List.nil_append, dropWhile_cons_pos _ q _ hq]
    rfl
  | cons x c =>
    rw [dropWhile_of_head _ (x :: c ++ [q]) (fun y hy => hhead y hy)]
    have h2 : (x :: c ++ [q]).reverse = q :: (x :: c).reverse := by simp
    rw [h2, dropWhile_cons_pos _ q _ hq, dropWhile_of_head _ (x :: c).reverse,
      List.reverse_reverse]
    intro y hy
    rw [List.head?_reverse] at hy
    exact hlast y hy

/-- The result of `verifyBin` depends on the process lister only through its output
for the queried search token. -/
theorem verifyBin_congr (ps1 ps2 : Str → Str) (bin : Str)
    (h : ∀ q ∈ psQueries bin, ps1 q = ps2 q) : verifyBin ps1 bin = verifyBin ps2 bin := by
  unfold psQueries at h
  cases hf : fields (trim bin quoteCutset) with
  | nil => simp only [verifyBin, hf]
  | cons proc rest =>
    simp only [hf, List.mem_singleton, forall_eq] at h
    simp only [verifyBin, hf, h]

/-- **C18.** Surrounding quotes on a candidate are ignored: for a candidate that neither
begins nor ends with a quote character, `verifyBin` returns the same result on the
candidate in single quotes, in double quotes and bare, and in all three cases the
process lister is called with the same argument, the first whitespace-delimited word
of the candidate (and is not called at all when the candidate has no word). -/
theorem verifyBin_quotes_ignored (psFunc : Str → Str) (c : Str)
    (hhead : ∀ x, c.head? = some x → isQuote x = false)
    (hlast : ∀ x, c.getLast? = some x → isQuote x = false) :
    verifyBin psFunc ('\'' :: c ++ ['\'']) = verifyBin psFunc c ∧
    verifyBin psFunc ('"' :: c ++ ['"']) = verifyBin psFunc c ∧
    psQueries ('\'' :: c ++ ['\'']) = (fields c).head?.toList ∧
    psQueries ('"' :: c ++ ['"']) = (fields c).head?.toList ∧
    psQueries c = (fields c).head?.toList := by
  have h1 : trim ('\'' :: c ++ ['\'']) quoteCutset = c :=
    trim_wrapped '\'' c quoteCutset (by decide) hhead hlast
  have h2 : trim ('"' :: c ++ ['"']) quoteCutset = c :=
    trim_wrapped '"' c quoteCutset (by decide) hhead hlast
  have h3 : trim c quoteCutset = c := trim_of_ends c quoteCutset hhead hlast
  have hq : ∀ b, trim b quoteCutset = c → psQueries b = (fields c).head?.toList := by
    intro b hb
    unfold psQueries
    simp only [hb]
    cases fields c <;> rfl
  have hv : ∀ b, trim b quoteCutset = c → verifyBin psFunc b = verifyBin psFunc c := by
    intro b hb
    unfold verifyBin
    simp only [hb, h3]
  exact ⟨hv _ h1, hv _ h2, hq _ h1, hq _ h2, hq _ h3⟩

/-- Instance of C18: the multi-word candidate `kubelet --v=2`, whose search token is
`kubelet`. -/
theorem verifyBin_quotes_ignored_witness :
    verifyBin psKubelet "'kubelet --v=2'".toList = verifyBin psKubelet "kubelet --v=2".toList ∧
    verifyBin psKubelet "\"kubelet --v=2\"".toList = verifyBin psKubelet "kubelet --v=2".toList ∧
    psQueries "'kubelet --v=2'".toList = ["kubelet".toList] ∧
    psQueries "\"kubelet --v=2\"".toList = ["kubelet".toList] ∧
    psQueries "kubelet --v=2".toList = ["kubelet".toList] :=
  verifyBin_quotes_ignored psKubelet "kubelet --v=2".toList (by decide) (by decide)

/-! ### Panics of `verifyBin` -/

/-- **C19, refuted by the code.** `verifyBin` panics on some candidates: on the empty
string, on a string of only whitespace and on a string of only quote characters the
index `strings.Fields(bin)[0]` is out of range, and on a candidate with an unclosed
`(` or `[` `regexp.MustCompile` panics; `findExecutable` then does not return on a
candidate list that holds one of them. This holds for every process lister. -/
theorem verifyBin_panics (psFunc : Str → Str) :
    verifyBin psFunc [] = .error .indexOutOfRange ∧
    verifyBin psFunc "  ".toList = .error .indexOutOfRange ∧
    verifyBin psFunc "''".toList = .error .indexOutOfRange ∧
    verifyBin psFunc "kube(".toList = .error (.badPattern .missingParen) ∧
    verifyBin psFunc "[a".toList = .error (.badPattern .missingBracket) ∧
    findExecutable psFunc [[]] = .error .indexOutOfRange ∧
    findExecutable psFunc ["kube(".toList] = .error (.badPattern .missingParen) := by
  have h1 : verifyBin psFunc [] = .error .indexOutOfRange := rfl
  have h2 : verifyBin psFunc "  ".toList = .error .indexOutOfRange := rfl
  have h3 : verifyBin psFunc "''".toList = .error .indexOutOfRange := rfl
  have hc1 : compile (firstWordPattern ++ "kube(".toList) = .error (.bad .missingParen) := by
    decide
  have hc2 : compile (firstWordPattern ++ "[a".toList) = .error (.bad .missingBracket) := by
    decide
  have ht1 : trim "kube(".toList quoteCutset = "kube(".toList := by decide
  have ht2 : trim "[a".toList quoteCutset = "[a".toList := by decide
  have hf1 : fields "kube(".toList = ["kube(".toList] := by decide
  have hf2 : fields "[a".toList = ["[a".toList] := by decide
  have h4 : verifyBin psFunc "kube(".toList = .error (.badPattern .missingParen) := by
    unfold verifyBin
    simp only [ht1, hf1, hc1]
  have h5 : verifyBin psFunc "[a".toList = .error (.badPattern .missingBracket) := by
    unfold verifyBin
    simp only [ht2, hf2, hc2]
  refine ⟨h1, h2, h3, h4, h5, ?_, ?_⟩
  · simp only [findExecutable, h1]
  · simp only [findExecutable, h4]

/-! ### `cleanIDs` -/

theorem cleanIDsLoop_eq (ids rest : List Str) : cleanIDsLoop ids rest = ids := by
  induction rest with
  | nil => rfl
  | cons id rest ih => simpa [cleanIDsLoop] using ih

/-- **C20, refuted by the code.** The loop of `cleanIDs` trims a copy of each element,
so the result is the list of pieces as split: for `1.1, 1.2` the second element
keeps its leading space. -/
theorem cleanIDs_keeps_spaces :
    (∀ list : Str, cleanIDs list = split (trim list [',']) ',') ∧
    cleanIDs "1.1, 1.2".toList = ["1.1".toList, " 1.2".toList] ∧
    cleanIDs "1.1, 1.2".toList ≠ ["1.1".toList, "1.2".toList] := by
  refine ⟨fun list => ?_, by decide, by decide⟩
  unfold cleanIDs
  exact cleanIDsLoop_eq _ _

/-! ### The segment pattern of `checkVersion` -/

theorem compile_segment (role : Str) (hrole : role = "Client".toList ∨ role = "Server".toList) :
    compile (role ++ versionInfoPattern) = .ok (segmentRegex role) := by
  rcases hrole with rfl | rfl <;> decide

theorem run_anyNotNL (n : Nat) : run n .anyNotNL = stepChar (fun x => x != '\n') := by
  funext th
  rw [run]

theorem afterLastBrace_classTails (F : Str → Caps) :
    ∀ s, ((((classTails (fun x => x != '\n') s).flatMap
        (fun t => stepChar (fun x => x == '\x7d') (t, F t))).head?).map (fun th => th.1)) =
      afterLastBrace s := by
  intro s
  induction s with
  | nil => simp [classTails, stepChar, afterLastBrace]
  | cons c t ih =>
    by_cases hc : c = '\n'
    · subst hc
      simp [classTails, stepChar, afterLastBrace]
    · have hp : (c != '\n') = true := by simpa using hc
      simp only [classTails, hp, if_true, List.flatMap_append, List.head?_append,
        List.flatMap_cons, List.flatMap_nil, List.append_nil, afterLastBrace, hc, if_false]
      rw [← ih]
      cases ((classTails (fun x => x != '\n') t).flatMap
          (fun t => stepChar (fun x => x == '\x7d') (t, F t))).head? with
      | some th => simp
      | none =>
        by_cases hb : c = '\x7d'
        · subst hb; simp [stepChar]
        · simp [stepChar, hb]

theorem upToLastBrace_eq (s : Str) :
    (∀ r, afterLastBrace s = some r → ∃ b, upToLastBrace s = some b ∧ s = b ++ r) ∧
    (afterLastBrace s = none → upToLastBrace s = none) := by
  induction s with
  | nil => simp [afterLastBrace, upToLastBrace]
  | cons c t ih =>
    by_cases hc : c = '\n'
    · simp [afterLastBrace, upToLastBrace, hc]
    · simp only [afterLastBrace, upToLastBrace, hc, if_false]
      cases ha : afterLastBrace t with
      | some r0 =>
        obtain ⟨b, hb, hs⟩ := ih.1 r0 ha
        simp only [hb, Option.some.injEq, reduceCtorEq, false_implies, and_true]
        rintro r rfl
        exact ⟨c :: b, rfl, by rw [hs]; rfl⟩
      | none =>
        simp only [ih.2 ha]
        by_cases hb : c = '\x7d'
        · simp [hb]
        · simp [hb]

theorem take_of_append (a r : Str) : (a ++ r).take ((a ++ r).length - r.length) = a := by
  rw [List.length_append, Nat.add_sub_cancel]
  exact List.take_left a r

theorem run_segment_seq (n : Nat) (l1 l2 u : Str) :
    ((runSeq n (l1.map Regex.lit ++ [Regex.anyNotNL] ++ l2.map Regex.lit ++
        [.group 1 (.star true .anyNotNL), .lit '\x7d']) (u, [])).head?).map
        (fun th => u.take (u.length - th.1.length)) =
      match dropLit l1 u with
      | some (c :: r1) =>
        if c = '\n' then none
        else
          match dropLit l2 r1 with
          | some r2 => (upToLastBrace r2).map (fun b => l1 ++ c :: l2 ++ b)
          | none => none
      | _ => none := by
  have h1 : ∀ th, runSeq n [Regex.anyNotNL] th = stepChar (fun x => x != '\n') th := by
    intro th
    simp only [runSeq, run_anyNotNL, flatMap_single]
  have h2 : ∀ th, runSeq n [.group 1 (.star true .anyNotNL), .lit '\x7d'] th =
      (run n (.group 1 (.star true .anyNotNL)) th).flatMap (run n (.lit '\x7d')) := by
    intro th
    simp only [runSeq, flatMap_single]
  rw [runSeq_append, runSeq_append, runSeq_append, runSeq_lits]
  cases hd : dropLit l1 u with
  | none => simp
  | some r0 =>
    have hu : u = l1 ++ r0 := (dropLit_eq_some _ _ _).1 hd
    cases r0 with
    | nil => simp [h1, stepChar]
    | cons c r1 =>
      by_cases hc : c = '\n'
      · subst hc
        simp [h1, stepChar]
      · have hp : (c != '\n') = true := by simpa using hc
        simp only [List.flatMap_cons, List.flatMap_nil, List.append_nil, h1,
          stepChar, hp, if_true, hc, if_false, runSeq_lits]
        cases hd2 : dropLit l2 r1 with
        | none => simp
        | some r2 =>
          have hr1 : r1 = l2 ++ r2 := (dropLit_eq_some _ _ _).1 hd2
          simp only [List.flatMap_cons, List.flatMap_nil, List.append_nil, h2, run_group,
            run_star, run_anyNotNL, run_lit]
          rw [starLoop_stepChar _ _ _ r2 (Nat.le_refl _), List.map_map, flatMap_map_eq]
          simp only [Function.comp, run_lit]
          have hB := afterLastBrace_classTails
            (fun t => [(1, r2.take (r2.length - t.length))]) r2
          have hC := upToLastBrace_eq r2
          cases hh : ((classTails (fun x => x != '\n') r2).flatMap
              (fun t => stepChar (fun x => x == '\x7d')
                (t, [(1, r2.take (r2.length - t.length))]))).head? with
          | none =>
            rw [hh] at hB
            have hn : upToLastBrace r2 = none := hC.2 hB.symm
            rw [hn]
            rfl
          | some th =>
            rw [hh] at hB
            obtain ⟨b, hb, hs⟩ := hC.1 th.1 hB.symm
            rw [hb]
            simp only [Option.map_some', Option.some.injEq]
            have hu2 : u = (l1 ++ c :: l2 ++ b) ++ th.1 := by
              rw [hu, hr1, hs]
              simp
            conv_lhs => rw [hu2]
            exact take_of_append _ _

/-- What the preferred thread of the segment pattern has read at the start of a text:
the segment that starts there. -/
theorem run_segment_head (n : Nat) (role u : Str) :
    ((run n (segmentRegex role) (u, [])).head?).map
        (fun th => u.take (u.length - th.1.length)) = segmentAt role u := by
  rw [segmentRegex, run_mkCat]
  exact run_segment_seq n _ _ u

theorem segmentAt_nil (role : Str) : segmentAt role [] = none := by
  unfold segmentAt
  cases role <;> simp [dropLit]

/-- What `FindString` returns for the segment pattern. -/
theorem findString_segment (role s : Str) :
    (segmentRegex role).findString s = segmentOf role s := by
  unfold Regex.findString
  generalize s.length = n
  induction s with
  | nil =>
    have h := run_segment_head n role []
    rw [segmentAt_nil] at h
    simp only [search, segmentOf]
    cases hh : (run n (segmentRegex role) ([], [])).head? with
    | none => rfl
    | some th => rw [hh] at h; simp at h
  | cons x u ih =>
    have h := run_segment_head n role (x :: u)
    rw [search, segmentOf]
    cases hh : (run n (segmentRegex role) (x :: u, [])).head? with
    | none =>
      rw [hh] at h
      rw [← h]
      exact ih
    | some th =>
      rw [hh] at h
      rw [← h]
      rfl

/-- **`checkVersion` for the two roles**, in terms of the first quoted numeric
`Major` and `Minor` fields of the role segment. -/
theorem checkVersion_eq (role s expMajor expMinor : Str)
    (hrole : role = "Client".toList ∨ role = "Server".toList) :
    checkVersion role s expMajor expMinor =
      if (quotedField "Major".toList (segmentOf role s)).getD [] = [] ∨
          (quotedField "Minor".toList (segmentOf role s)).getD [] = [] then
        .ok ("Couldn't find ".toList ++ role ++ " version from kubectl output '".toList ++ s ++
          "'".toList)
      else if (quotedField "Major".toList (segmentOf role s)).getD [] ≠ expMajor ∨
          (quotedField "Minor".toList (segmentOf role s)).getD [] ≠ expMinor then
        .ok ("Unexpected ".toList ++ role ++ " version ".toList ++
          (quotedField "Major".toList (segmentOf role s)).getD [] ++ ".".toList ++
          (quotedField "Minor".toList (segmentOf role s)).getD [])
      else .ok [] := by
  unfold checkVersion
  simp only [compile_segment role hrole, findString_segment, regexVersion_eq.1,
    regexVersion_eq.2, versionMatch_fieldRegex]

/-- **C11.** On a mismatch the message cites the role and the observed version. For
the roles `Client` and `Server`, when the first quoted numeric `Major` field of the
role segment is `X`, the first quoted numeric `Minor` field is `Y`, and `X` differs
from the expected major or `Y` from the expected minor, `checkVersion` returns
exactly `Unexpected <role> version X.Y`. -/
theorem checkVersion_mismatch_message (role s expMajor expMinor X Y : Str)
    (hrole : role = "Client".toList ∨ role = "Server".toList)
    (hX : quotedField "Major".toList (segmentOf role s) = some X)
    (hY : quotedField "Minor".toList (segmentOf role s) = some Y)
    (hne : X ≠ expMajor ∨ Y ≠ expMinor) :
    checkVersion role s expMajor expMinor =
      .ok ("Unexpected ".toList ++ role ++ " version ".toList ++ X ++ ".".toList ++ Y) := by
  have hX0 : X ≠ [] := (quotedField_some _ _ X hX).1
  have hY0 : Y ≠ [] := (quotedField_some _ _ Y hY).1
  rw [checkVersion_eq role s expMajor expMinor hrole]
  simp only [hX, hY, Option.getD_some]
  rw [if_neg (by simp [hX0, hY0]), if_pos hne]

/-- Instance of C11: expected `("1", "21")` against a server segment with `Major:"1"`
and `Minor:"20"`. -/
theorem checkVersion_mismatch_message_witness :
    checkVersion "Server".toList sampleOldServerText "1".toList "21".toList =
      .ok "Unexpected Server version 1.20".toList :=
  checkVersion_mismatch_message "Server".toList sampleOldServerText "1".toList "21".toList
    "1".toList "20".toList (Or.inr rfl) (by decide) (by decide) (by decide)

/-! ### Prefixes -/

theorem startsWith_of_append_eq (a b r1 r2 : Str) (h : a ++ r1 = b ++ r2) :
    startsWith a b = true ∨ startsWith b a = true := by
  induction a generalizing b with
  | nil => right; cases b <;> rfl
  | cons x a ih =>
    cases b with
    | nil => left; rfl
    | cons y b =>
      simp only [List.cons_append, List.cons.injEq] at h
      obtain ⟨rfl, h2⟩ := h
      rcases ih b h2 with h3 | h3
      · left; simp [startsWith, h3]
      · right; simp [startsWith, h3]

theorem quoteWords_no_dollar (v : Str) (h : '$' ∉ v) : '$' ∉ quoteWords v := by
  unfold quoteWords
  by_cases hl : 1 < (fields v).length
  · rw [if_pos hl]
    simp only [List.mem_append, not_or]
    exact ⟨⟨by decide, h⟩, by decide⟩
  · rw [if_neg hl]
    exact h

/-! ### The segment of a role -/

theorem dropLit_append (l1 l2 : Str) :
    ∀ u, dropLit (l1 ++ l2) u =
      match dropLit l1 u with
      | some r => dropLit l2 r
      | none => none := by
  induction l1 with
  | nil => intro u; simp [dropLit]
  | cons x l1 ih =>
    intro u
    cases u with
    | nil => simp [dropLit]
    | cons y u =>
      by_cases h : y = x
      · simp [dropLit, h, ih]
      · simp [dropLit, h]

theorem infoHeader_eq (role : Str) :
    infoHeader role = (role ++ " Version: version".toList) ++ '.' :: "Info\x7b".toList := by
  unfold infoHeader
  rw [List.append_assoc]
  rfl

/-- Where the headers of a text are dotted, the segment that the pattern finds at
the start of the text is the one that starts with the header. -/
theorem segmentAt_eq_info (role u : Str)
    (h : ∀ c r1, dropLit (role ++ " Version: version".toList) u = some (c :: r1) →
      startsWith r1 "Info\x7b".toList = true → c = '.' ∨ c = '\n') :
    segmentAt role u = infoSegmentAt role u := by
  have hinfo : dropLit (infoHeader role) u =
      match dropLit (role ++ " Version: version".toList) u with
      | some r => dropLit ('.' :: "Info\x7b".toList) r
      | none => none := by
    rw [infoHeader_eq]
    exact dropLit_append _ _ u
  unfold segmentAt infoSegmentAt
  rw [hinfo, infoHeader_eq]
  cases hd : dropLit (role ++ " Version: version".toList) u with
  | none => rfl
  | some r0 =>
    cases r0 with
    | nil => rfl
    | cons c r1 =>
      by_cases hc : c = '.'
      · subst hc
        have hnl : ¬ ('.' : Char) = '\n' := by decide
        simp only [hnl, if_false, dropLit, if_true]
      · have hdrop : dropLit ('.' :: "Info\x7b".toList) (c :: r1) = none := by
          simp [dropLit, hc]
        simp only [hdrop]
        by_cases hnl : c = '\n'
        · simp [hnl]
        · simp only [hnl, if_false]
          cases hd2 : dropLit "Info\x7b".toList r1 with
          | none => rfl
          | some r2 =>
            exfalso
            have hs : startsWith r1 "Info\x7b".toList = true :=
              (startsWith_iff _ _).2 ⟨r2, (dropLit_eq_some _ _ _).1 hd2⟩
            rcases h c r1 hd hs with h1 | h1
            · exact hc h1
            · exact hnl h1

/-- In a text whose headers are dotted the segment that the pattern of `checkVersion`
finds runs from the first header `<role> Version: version.Info{` to the last `}` of
the same line. -/
theorem segmentOf_eq_info (role : Str) :
    ∀ s, dottedHeaders role s = true → segmentOf role s = infoSegmentOf role s := by
  intro s
  induction s with
  | nil => intro _; rfl
  | cons x u ih =>
    intro h
    rw [dottedHeaders, Bool.and_eq_true] at h
    have hhead : ∀ c r1, dropLit (role ++ " Version: version".toList) (x :: u) = some (c :: r1) →
        startsWith r1 "Info\x7b".toList = true → c = '.' ∨ c = '\n' := by
      intro c r1 hd hs
      have h1 := h.1
      rw [hd] at h1
      simp only [hs, Bool.not_true, Bool.false_or, Bool.or_eq_true, beq_iff_eq] at h1
      exact h1
    rw [segmentOf, infoSegmentOf, segmentAt_eq_info role (x :: u) hhead, ih h.2]

/-! ### Claims about the segment of a role -/

/-- **C10, as stated, fails.** In the one-line text the client segment, from its
opening brace to the first closing brace after it, with no brace in between, has no
`Minor` field; yet for the role `Client` and the expected version `("1", "20")`
`checkVersion` is silent: the pattern runs to the last closing brace of the line and
so takes the `Minor` field of the server segment. In the second text there is no
header `Client Version: version.Info{` at all, and `checkVersion` is silent as well:
the `.` of the pattern stands for any character. -/
theorem checkVersion_silent_counterexample :
    (∃ body rest : Str, sampleOneLineText =
        "Client Version: version.Info\x7b".toList ++ body ++ '\x7d' :: rest ∧
      '\x7b' ∉ body ∧ '\x7d' ∉ body ∧
      quotedField "Minor".toList
        ("Client Version: version.Info\x7b".toList ++ body ++ ['\x7d']) = none) ∧
    checkVersion "Client".toList sampleOneLineText "1".toList "20".toList = .ok [] ∧
    ¬ ("Client Version: version.Info\x7b".toList <:+: sampleWildcardText) ∧
    checkVersion "Client".toList sampleWildcardText "1".toList "20".toList = .ok [] := by
  have h1 : checkVersion "Client".toList sampleOneLineText "1".toList "20".toList = .ok [] := by
    rw [checkVersion_eq _ _ _ _ (Or.inl rfl)]
    decide
  have h2 : checkVersion "Client".toList sampleWildcardText "1".toList "20".toList = .ok [] := by
    rw [checkVersion_eq _ _ _ _ (Or.inl rfl)]
    decide
  exact ⟨⟨"Major:\"1\"".toList,
    " Server Version: version.Info\x7bMajor:\"1\", Minor:\"20\"\x7d".toList,
    by decide, by decide, by decide, by decide⟩, h1, by decide, h2⟩

/-- **C10, amended.** `checkVersion` is silent exactly on an exact match, the segment
of a role being taken from the first header `<role> Version: version.Info{` that has
a `}` after it on the same line to the last `}` of that line. For the roles `Client`
and `Server` and a text in which `<role> Version: version`, one character and `Info{`
occur only with `.` (or a line break) as that character, `checkVersion` returns the
empty string if and only if that segment has a quoted numeric `Major` field and a
quoted numeric `Minor` field and the digits of the first of each are the expected
strings, compared as strings; and it always returns a message or the empty string. -/
theorem checkVersion_silent_iff (role s expMajor expMinor : Str)
    (hrole : role = "Client".toList ∨ role = "Server".toList)
    (hdot : dottedHeaders role s = true) :
    (checkVersion role s expMajor expMinor = .ok [] ↔
      quotedField "Major".toList (infoSegmentOf role s) = some expMajor ∧
      quotedField "Minor".toList (infoSegmentOf role s) = some expMinor) ∧
    ∃ msg, checkVersion role s expMajor expMinor = .ok msg := by
  rw [checkVersion_eq role s expMajor expMinor hrole, segmentOf_eq_info role s hdot]
  generalize infoSegmentOf role s = ss
  have hcould : ∀ t : Str, "Couldn't find ".toList ++ t ≠ [] :=
    fun t => append_ne_nil_of_left _ t (by decide)
  have hunexp : ∀ t : Str, "Unexpected ".toList ++ t ≠ [] :=
    fun t => append_ne_nil_of_left _ t (by decide)
  cases hM : quotedField "Major".toList ss with
  | none =>
    simp only [Option.getD_none, true_or, if_true, Except.ok.injEq, List.append_assoc,
      hcould, false_iff, reduceCtorEq, false_and, not_false_eq_true, true_and]
    exact ⟨_, rfl⟩
  | some d1 =>
    have hd1 : d1 ≠ [] := (quotedField_some _ ss d1 hM).1
    cases hm : quotedField "Minor".toList ss with
    | none =>
      simp only [Option.getD_none, or_true, if_true, Except.ok.injEq, List.append_assoc,
        hcould, false_iff, reduceCtorEq, and_false, not_false_eq_true, true_and]
      exact ⟨_, rfl⟩
    | some d2 =>
      have hd2 : d2 ≠ [] := (quotedField_some _ ss d2 hm).1
      simp only [Option.getD_some, hd1, hd2, or_self, if_false, Option.some.injEq]
      by_cases hne : d1 ≠ expMajor ∨ d2 ≠ expMinor
      · rw [if_pos hne]
        simp only [Except.ok.injEq, List.append_assoc, hunexp, false_iff, not_and]
        refine ⟨?_, _, rfl⟩
        intro h1 h2
        rcases hne with h | h
        · exact h h1
        · exact h h2
      · rw [if_neg hne]
        have h1 : d1 = expMajor := by
          by_contra h; exact hne (Or.inl h)
        have h2 : d2 = expMinor := by
          by_contra h; exact hne (Or.inr h)
        exact ⟨⟨fun _ => ⟨h1, h2⟩, fun _ => rfl⟩, _, rfl⟩

/-- Instance of C10 amended: expected `("1", "21")` against a server segment with
`Major:"1"` and `Minor:"21"` is silent; expected major `"01"` is not. -/
theorem checkVersion_silent_iff_witness :
    checkVersion "Server".toList sampleVersionText "1".toList "21".toList = .ok [] ∧
    checkVersion "Server".toList sampleVersionText "01".toList "21".toList ≠ .ok [] :=
  ⟨(checkVersion_silent_iff "Server".toList sampleVersionText "1".toList "21".toList
      (Or.inr rfl) (by decide)).1.2 ⟨by decide, by decide⟩,
    fun h => absurd
      ((checkVersion_silent_iff "Server".toList sampleVersionText "01".toList "21".toList
        (Or.inr rfl) (by decide)).1.1 h).1 (by decide)⟩

/-- **C12, as stated, fails.** In the one-line text the client segment, from its
opening brace to the first closing brace after it, with no brace in between, has no
`Minor` field; yet for the role `Client` and the expected version `("1", "20")`
`checkVersion` returns the empty string, not the message that the version could not
be found: the pattern runs to the last closing brace of the line and so takes the
`Minor` field of the server segment. The second text has no header
`Client Version: version.Info{`, and again the result is the empty string and not
that message: the `.` of the pattern stands for any character. -/
theorem checkVersion_missing_field_counterexample :
    (∃ body rest : Str, sampleOneLineText =
        "Client Version: version.Info\x7b".toList ++ body ++ '\x7d' :: rest ∧
      '\x7b' ∉ body ∧ '\x7d' ∉ body ∧
      quotedField "Minor".toList
        ("Client Version: version.Info\x7b".toList ++ body ++ ['\x7d']) = none) ∧
    checkVersion "Client".toList sampleOneLineText "1".toList "20".toList ≠
      .ok ("Couldn't find Client version from kubectl output '".toList ++ sampleOneLineText ++
        "'".toList) ∧
    ¬ ("Client Version: version.Info\x7b".toList <:+: sampleWildcardText) ∧
    checkVersion "Client".toList sampleWildcardText "1".toList "20".toList ≠
      .ok ("Couldn't find Client version from kubectl output '".toList ++ sampleWildcardText ++
        "'".toList) := by
  have h1 : checkVersion "Client".toList sampleOneLineText "1".toList "20".toList = .ok [] := by
    rw [checkVersion_eq _ _ _ _ (Or.inl rfl)]
    decide
  have h2 : checkVersion "Client".toList sampleWildcardText "1".toList "20".toList = .ok [] := by
    rw [checkVersion_eq _ _ _ _ (Or.inl rfl)]
    decide
  refine ⟨⟨"Major:\"1\"".toList,
    " Server Version: version.Info\x7bMajor:\"1\", Minor:\"20\"\x7d".toList,
    by decide, by decide, by decide, by decide⟩, ?_, by decide, ?_⟩
  · rw [h1]; decide
  · rw [h2]; decide

/-- **C12, amended.** A missing field is reported as undetectable, the segment of a
role being taken from the first header `<role> Version: version.Info{` that has a
`}` after it on the same line to the last `}` of that line. For the roles `Client`
and `Server` and a text in which `<role> Version: version`, one character and `Info{`
occur only with `.` (or a line break) as that character: if the text has no such
segment, or the segment has no quoted numeric `Major` field or no quoted numeric
`Minor` field, then for every expected version `checkVersion` returns the message
`Couldn't find <role> version from kubectl output '<s>'`. -/
theorem checkVersion_missing_field (role s expMajor expMinor : Str)
    (hrole : role = "Client".toList ∨ role = "Server".toList)
    (hdot : dottedHeaders role s = true)
    (h : infoSegmentOf role s = [] ∨
      quotedField "Major".toList (infoSegmentOf role s) = none ∨
      quotedField "Minor".toList (infoSegmentOf role s) = none) :
    checkVersion role s expMajor expMinor =
      .ok ("Couldn't find ".toList ++ role ++ " version from kubectl output '".toList ++ s ++
        "'".toList) := by
  rw [checkVersion_eq role s expMajor expMinor hrole, segmentOf_eq_info role s hdot]
  have h2 : quotedField "Major".toList (infoSegmentOf role s) = none ∨
      quotedField "Minor".toList (infoSegmentOf role s) = none := by
    rcases h with h | h | h
    · left; rw [h]; rfl
    · exact Or.inl h
    · exact Or.inr h
  rcases h2 with h2 | h2
  · rw [if_pos (Or.inl (by rw [h2]; rfl))]
  · rw [if_pos (Or.inr (by rw [h2]; rfl))]

/-- Instance of C12 amended: a client line without `Minor`, the server line below it
having both fields. -/
theorem checkVersion_missing_field_witness :
    checkVersion "Client".toList sampleTwoLineText "1".toList "20".toList =
      .ok ("Couldn't find Client version from kubectl output '".toList ++ sampleTwoLineText ++
        "'".toList) :=
  checkVersion_missing_field "Client".toList sampleTwoLineText "1".toList "20".toList
    (Or.inl rfl) (by decide) (Or.inr (Or.inr (by decide)))

/-! ### Templates as pieces between `$` characters -/

theorem split_ne_nil (s : Str) (sep : Char) : split s sep ≠ [] := by
  cases s with
  | nil => simp [split]
  | cons c t =>
    rw [split]
    by_cases h : c = sep
    · simp [h]
    · simp only [h, if_false]
      cases split t sep <;> simp

theorem split_no_sep (sep : Char) : ∀ (s : Str), ∀ p ∈ split s sep, sep ∉ p := by
  intro s
  induction s with
  | nil => intro p hp; simp [split] at hp; simp [hp]
  | cons c t ih =>
    intro p hp
    rw [split] at hp
    by_cases h : c = sep
    · simp only [h, if_true, List.mem_cons] at hp
      rcases hp with rfl | hp
      · simp
      · exact ih p hp
    · simp only [h, if_false] at hp
      cases hs : split t sep with
      | nil => exact absurd hs (split_ne_nil t sep)
      | cons l ls =>
        rw [hs] at hp ih
        simp only [List.mem_cons] at hp
        rcases hp with rfl | hp
        · intro hmem
          rcases List.mem_cons.1 hmem with h1 | h1
          · exact h h1.symm
          · exact ih l (by simp) h1
        · exact ih p (by simp [hp])

theorem joinDollar_append (a b : Str) (ts : List Str) :
    joinDollar (a ++ b) ts = a ++ joinDollar b ts := by
  cases ts with
  | nil => rfl
  | cons t ts => simp [joinDollar]

theorem joinPieces_split (s : Str) : joinPieces (split s '$') = s := by
  induction s with
  | nil => rfl
  | cons c t ih =>
    rw [split]
    cases hs : split t '$' with
    | nil => exact absurd hs (split_ne_nil t '$')
    | cons l ls =>
      rw [hs] at ih
      by_cases h : c = '$'
      · simp only [h, if_true]
        show joinDollar [] (l :: ls) = _
        rw [joinDollar]
        simp only [List.nil_append]
        exact congrArg _ ih
      · simp only [h, if_false]
        show joinDollar (c :: l) ls = _
        have := joinDollar_append [c] l ls
        simp only [List.singleton_append] at this
        rw [this]
        exact congrArg _ ih

theorem fillFrom_ne_nil (body v : Str) : ∀ (ts : List Str) (cur : Str),
    fillFrom body v cur ts ≠ [] := by
  intro ts
  induction ts with
  | nil => intro cur; simp [fillFrom]
  | cons t ts ih =>
    intro cur
    rw [fillFrom]
    cases dropLit body t with
    | none => simp
    | some r => exact ih _

/-- A text added in front of the piece in hand stays in front of the result. -/
theorem fillFrom_append (body v : Str) : ∀ (ts : List Str) (a b : Str),
    ∃ h l, fillFrom body v b ts = h :: l ∧ fillFrom body v (a ++ b) ts = (a ++ h) :: l := by
  intro ts
  induction ts with
  | nil => intro a b; exact ⟨b, [], rfl, rfl⟩
  | cons t ts ih =>
    intro a b
    rw [fillFrom, fillFrom]
    cases dropLit body t with
    | none => exact ⟨b, _, rfl, rfl⟩
    | some r =>
      simp only []
      obtain ⟨h, l, h1, h2⟩ := ih a (b ++ v ++ r)
      refine ⟨h, l, h1, ?_⟩
      rw [← h2]
      simp [List.append_assoc]

theorem joinPieces_cons (cur : Str) (l : List Str) (hl : l ≠ []) :
    joinPieces (cur :: l) = cur ++ '$' :: joinPieces l := by
  cases l with
  | nil => exact absurd rfl hl
  | cons h ts => rfl

theorem joinPieces_fillFrom_append (body v : Str) (ts : List Str) (a b : Str) :
    joinPieces (fillFrom body v (a ++ b) ts) = a ++ joinPieces (fillFrom body v b ts) := by
  obtain ⟨h, l, h1, h2⟩ := fillFrom_append body v ts a b
  rw [h1, h2]
  exact joinDollar_append a h l

/-- A text without `$` starts a text made of pieces only if it starts the first
piece. -/
theorem startsWith_joinDollar (body t : Str) (ts : List Str) (hb : '$' ∉ body)
    (h : startsWith (joinDollar t ts) body = true) : ∃ r, t = body ++ r := by
  cases ts with
  | nil => exact (startsWith_iff _ _).1 h
  | cons t2 ts =>
    rw [joinDollar] at h
    obtain ⟨r, hr⟩ := (startsWith_iff _ _).1 h
    rcases List.append_eq_append_iff.1 hr with ⟨a, ha, ha2⟩ | ⟨c, hc, _⟩
    · cases a with
      | nil => exact ⟨[], by rw [ha]; simp⟩
      | cons x a =>
        exfalso
        simp only [List.cons_append, List.cons.injEq] at ha2
        apply hb
        rw [ha, ← ha2.1]
        simp
    · exact ⟨c, hc⟩

/-- The scan of `strings.Replace` for the token `$` + `body`, on a text made of
pieces without `$`. -/
theorem replaceScan_pieces (body v : Str) (hb : '$' ∉ body) :
    ∀ (ts : List Str) (cur : Str), '$' ∉ cur → (∀ t ∈ ts, '$' ∉ t) →
      replaceScan ('$' :: body) v 0 (joinDollar cur ts) =
        joinPieces (fillFrom body v cur ts) := by
  intro ts
  induction ts with
  | nil =>
    intro cur hcur _
    have := replaceScan_copy '$' body v cur [] hcur
    simpa [joinDollar, fillFrom, joinPieces, replaceScan] using this
  | cons t ts ih =>
    intro cur hcur hts
    have ht : '$' ∉ t := hts t (List.mem_cons_self _ _)
    have hts2 : ∀ x ∈ ts, '$' ∉ x := fun x hx => hts x (List.mem_cons_of_mem _ hx)
    rw [joinDollar, replaceScan_copy '$' body v cur _ hcur, fillFrom]
    cases hd : dropLit body t with
    | some r =>
      have htr : t = body ++ r := (dropLit_eq_some _ _ _).1 hd
      have hr : '$' ∉ r := fun h => ht (by rw [htr]; simp [h])
      simp only []
      have h1 : '$' :: joinDollar t ts = ('$' :: body) ++ joinDollar r ts := by
        rw [htr, joinDollar_append]
        rfl
      rw [h1, replaceScan_at _ _ _ (by simp), ih r hr hts2]
      have h2 := joinPieces_fillFrom_append body v ts (cur ++ v) r
      rw [h2]
      simp [List.append_assoc]
    | none =>
      simp only []
      have hno : startsWith ('$' :: joinDollar t ts) ('$' :: body) = false := by
        cases hs : startsWith ('$' :: joinDollar t ts) ('$' :: body) with
        | false => rfl
        | true =>
          exfalso
          simp only [startsWith, beq_self_eq_true, Bool.true_and] at hs
          obtain ⟨r, hr⟩ := startsWith_joinDollar body t ts hb hs
          rw [(dropLit_eq_some _ _ _).2 hr] at hd
          exact absurd hd (by simp)
      rw [replaceScan, hno]
      simp only [Bool.false_eq_true, if_false]
      rw [ih t ht hts2, joinPieces_cons cur _ (fillFrom_ne_nil body v ts t)]

/-! ### Replacements on pieces commute -/

theorem fillFrom_head (body v : Str) : ∀ (ts : List Str) (t : Str),
    ∃ x l, fillFrom body v t ts = (t ++ x) :: l ∧ (ts = [] → x = [] ∧ l = []) := by
  intro ts
  induction ts with
  | nil => intro t; exact ⟨[], [], by simp [fillFrom], fun _ => ⟨rfl, rfl⟩⟩
  | cons t2 ts ih =>
    intro t
    rw [fillFrom]
    cases dropLit body t2 with
    | none =>
      exact ⟨[], fillFrom body v t2 ts, by simp, fun h => absurd h (by simp)⟩
    | some r =>
      obtain ⟨x, l, h1, _⟩ := ih (t ++ v ++ r)
      refine ⟨v ++ r ++ x, l, ?_, fun h => absurd h (by simp)⟩
      show fillFrom body v (t ++ v ++ r) ts = _
      rw [h1]
      simp only [List.append_assoc]

theorem dropLit_self_append (b r : Str) : dropLit b (b ++ r) = some r :=
  (dropLit_eq_some _ _ _).2 rfl

theorem dropLit_none_of (b t : Str) (h : ∀ r, t ≠ b ++ r) : dropLit b t = none := by
  cases hd : dropLit b t with
  | none => rfl
  | some r => exact absurd ((dropLit_eq_some _ _ _).1 hd) (h r)

/-- A piece that neither starts with the body nor is the beginning of it does not
start with the body when text is added to it. -/
theorem dropLit_append_none (b t x : Str) (h1 : dropLit b t = none)
    (h2 : startsWith b t = true → t = b) : dropLit b (t ++ x) = none := by
  apply dropLit_none_of
  intro r hr
  rcases startsWith_of_append_eq t b x r hr with h | h
  · obtain ⟨r2, hr2⟩ := (startsWith_iff _ _).1 h
    rw [(dropLit_eq_some _ _ _).2 hr2] at h1
    exact absurd h1 (by simp)
  · have := h2 h
    rw [this, (dropLit_eq_some b b []).2 (by simp)] at h1
    exact absurd h1 (by simp)

/-- A piece that starts with a body does not start with another body, none of the
two being a prefix of the other. -/
theorem dropLit_other (bA bB t r : Str) (hA : dropLit bA t = some r)
    (h1 : startsWith bB bA = false) (h2 : startsWith bA bB = false) (x : Str) :
    dropLit bB (t ++ x) = none := by
  apply dropLit_none_of
  intro r2 hr2
  have ht : t = bA ++ r := (dropLit_eq_some _ _ _).1 hA
  rw [ht, List.append_assoc] at hr2
  rcases startsWith_of_append_eq bA bB _ _ hr2 with h | h
  · rw [h2] at h; exact absurd h (by decide)
  · rw [h1] at h; exact absurd h (by decide)

theorem noPartial_tail (bodies : List Str) (t : Str) (ts : List Str)
    (h : NoPartial bodies (t :: ts)) : NoPartial bodies ts := by
  intro p hp b hb hs
  cases ts with
  | nil => simp at hp
  | cons t2 ts =>
    apply h p _ b hb hs
    rw [List.dropLast_cons_of_ne_nil (by simp)]
    exact List.mem_cons_of_mem _ hp

theorem noPartial_head (bodies : List Str) (t t2 : Str) (ts : List Str)
    (h : NoPartial bodies (t :: t2 :: ts)) : ∀ b ∈ bodies, startsWith b t = true → t = b := by
  intro b hb hs
  apply h t _ b hb hs
  rw [List.dropLast_cons_of_ne_nil (by simp)]
  exact List.mem_cons_self _ _

/-- The step of the commutation at a piece that starts with the first body. -/
theorem fill_comm_at (bA vA bB vB : Str) (h1 : startsWith bB bA = false)
    (h2 : startsWith bA bB = false) (cur t r : Str) (ts : List Str)
    (hA : dropLit bA t = some r)
    (ih : ∀ cur1, fill bB vB (fill bA vA (cur1 :: ts)) = fill bA vA (fill bB vB (cur1 :: ts))) :
    fill bB vB (fill bA vA (cur :: t :: ts)) = fill bA vA (fill bB vB (cur :: t :: ts)) := by
  have hB : dropLit bB t = none := by
    have := dropLit_other bA bB t r hA h1 h2 []
    simpa using this
  have ht : t = bA ++ r := (dropLit_eq_some _ _ _).1 hA
  have hl : fill bA vA (cur :: t :: ts) = fill bA vA ((cur ++ vA ++ r) :: ts) := by
    show fillFrom bA vA cur (t :: ts) = fillFrom bA vA (cur ++ vA ++ r) ts
    rw [fillFrom, hA]
  have hr : fill bB vB (cur :: t :: ts) = cur :: fillFrom bB vB t ts := by
    show fillFrom bB vB cur (t :: ts) = _
    rw [fillFrom, hB]
  rw [hl, ih, hr]
  obtain ⟨h, l, e1, e2⟩ := fillFrom_append bB vB ts (cur ++ vA) r
  obtain ⟨h3, l3, e3, e4⟩ := fillFrom_append bB vB ts bA r
  rw [e1] at e3
  obtain ⟨rfl, rfl⟩ := List.cons.inj e3
  have e5 : fill bB vB ((cur ++ vA ++ r) :: ts) = (cur ++ vA ++ h) :: l := e2
  rw [e5, ht, e4]
  show fillFrom bA vA (cur ++ vA ++ h) l = fillFrom bA vA cur ((bA ++ h) :: l)
  rw [fillFrom, dropLit_self_append]

/-- **Replacements of two bodies commute** on pieces of which none but the last is an
incomplete body, when neither body is a prefix of the other. -/
theorem fill_comm (bodies : List Str) (bA vA bB vB : Str) (hbA : bA ∈ bodies)
    (hbB : bB ∈ bodies) (h1 : startsWith bB bA = false) (h2 : startsWith bA bB = false) :
    ∀ (ts : List Str) (cur : Str), NoPartial bodies ts →
      fill bB vB (fill bA vA (cur :: ts)) = fill bA vA (fill bB vB (cur :: ts)) := by
  intro ts
  induction ts with
  | nil => intro cur _; rfl
  | cons t ts ih =>
    intro cur hnp
    have ih2 := fun cur1 => ih cur1 (noPartial_tail bodies t ts hnp)
    cases hA : dropLit bA t with
    | some r => exact fill_comm_at bA vA bB vB h1 h2 cur t r ts hA ih2
    | none =>
      cases hB : dropLit bB t with
      | some r =>
        exact (fill_comm_at bB vB bA vA h2 h1 cur t r ts hB (fun cur1 => (ih2 cur1).symm)).symm
      | none =>
        cases ts with
        | nil =>
          show fill bB vB (fillFrom bA vA cur [t]) = fill bA vA (fillFrom bB vB cur [t])
          simp only [fillFrom, hA, hB]
          show fillFrom bB vB cur [t] = fillFrom bA vA cur [t]
          simp only [fillFrom, hA, hB]
        | cons t2 ts =>
          have hP := noPartial_head bodies t t2 ts hnp
          obtain ⟨x, l, e1, _⟩ := fillFrom_head bA vA (t2 :: ts) t
          obtain ⟨y, m, e2, _⟩ := fillFrom_head bB vB (t2 :: ts) t
          have hl : fill bA vA (cur :: t :: t2 :: ts) = cur :: (t ++ x) :: l := by
            show fillFrom bA vA cur (t :: t2 :: ts) = _
            rw [fillFrom, hA, e1]
          have hr : fill bB vB (cur :: t :: t2 :: ts) = cur :: (t ++ y) :: m := by
            show fillFrom bB vB cur (t :: t2 :: ts) = _
            rw [fillFrom, hB, e2]
          have hBx : dropLit bB (t ++ x) = none := dropLit_append_none bB t x hB (hP bB hbB)
          have hAy : dropLit bA (t ++ y) = none := dropLit_append_none bA t y hA (hP bA hbA)
          rw [hl, hr]
          show fillFrom bB vB cur ((t ++ x) :: l) = fillFrom bA vA cur ((t ++ y) :: m)
          rw [fillFrom, hBx, fillFrom, hAy]
          have e3 : fillFrom bB vB (t ++ x) l = fill bB vB (fill bA vA (t :: t2 :: ts)) := by
            show _ = fill bB vB (fillFrom bA vA t (t2 :: ts))
            rw [e1]
            rfl
          have e4 : fillFrom bA vA (t ++ y) m = fill bA vA (fill bB vB (t :: t2 :: ts)) := by
            show _ = fill bA vA (fillFrom bB vB t (t2 :: ts))
            rw [e2]
            rfl
          simp only [e3, e4, ih2 t]

/-- After a replacement, still no piece but the last is an incomplete body. -/
theorem noPartial_fillFrom (bodies : List Str) (body v : Str) :
    ∀ (ts : List Str) (cur h : Str) (l : List Str), NoPartial bodies ts →
      fillFrom body v cur ts = h :: l → NoPartial bodies l := by
  intro ts
  induction ts with
  | nil =>
    intro cur h l _ he
    simp only [fillFrom, List.cons.injEq] at he
    rw [← he.2]
    intro p hp
    simp at hp
  | cons t ts ih =>
    intro cur h l hnp he
    rw [fillFrom] at he
    cases hd : dropLit body t with
    | some r =>
      rw [hd] at he
      exact ih _ h l (noPartial_tail bodies t ts hnp) he
    | none =>
      rw [hd] at he
      simp only [List.cons.injEq] at he
      obtain ⟨x, l2, e1, e0⟩ := fillFrom_head body v ts t
      have hl2 : NoPartial bodies l2 := ih t (t ++ x) l2 (noPartial_tail bodies t ts hnp) e1
      rw [← he.2, e1]
      intro p hp b hb hs
      cases l2 with
      | nil => simp at hp
      | cons q l3 =>
        rw [List.dropLast_cons_of_ne_nil (by simp)] at hp
        rcases List.mem_cons.1 hp with rfl | hp
        · cases ts with
          | nil => exact absurd (e0 rfl).2 (by simp)
          | cons t2 ts =>
            have hP := noPartial_head bodies t t2 ts hnp b hb
            obtain ⟨r, hr⟩ := (startsWith_iff _ _).1 hs
            have hst : startsWith b t = true :=
              (startsWith_iff _ _).2 ⟨x ++ r, by rw [hr]; simp⟩
            have htb := hP hst
            rw [htb] at hr ⊢
            have hlen := congrArg List.length hr
            simp only [List.length_append] at hlen
            have hx : x = [] := List.length_eq_zero.1 (by omega)
            rw [hx, List.append_nil]
        · exact hl2 p hp b hb hs

theorem no_dollar_fillFrom (body v : Str) (hv : '$' ∉ v) :
    ∀ (ts : List Str) (cur : Str), '$' ∉ cur → (∀ t ∈ ts, '$' ∉ t) →
      ∀ p ∈ fillFrom body v cur ts, '$' ∉ p := by
  intro ts
  induction ts with
  | nil =>
    intro cur hcur _ p hp
    simp only [fillFrom, List.mem_singleton] at hp
    rw [hp]; exact hcur
  | cons t ts ih =>
    intro cur hcur hts p hp
    have ht : '$' ∉ t := hts t (List.mem_cons_self _ _)
    have hts2 : ∀ x ∈ ts, '$' ∉ x := fun x hx => hts x (List.mem_cons_of_mem _ hx)
    rw [fillFrom] at hp
    cases hd : dropLit body t with
    | some r =>
      rw [hd] at hp
      have htr : t = body ++ r := (dropLit_eq_some _ _ _).1 hd
      have hr : '$' ∉ r := fun h => ht (by rw [htr]; simp [h])
      refine ih (cur ++ v ++ r) ?_ hts2 p hp
      simp only [List.mem_append, not_or]
      exact ⟨⟨hcur, hv⟩, hr⟩
    | none =>
      rw [hd] at hp
      rcases List.mem_cons.1 hp with rfl | hp
      · exact hcur
      · exact ih t ht hts2 p hp

/-! ### Order of the visits of the map -/

/-- The output of `makeSubstitutions` on a template given by its pieces between the
`$` characters. -/
theorem makeSubstitutions_pieces (ext : Str) (hext : '$' ∉ ext) :
    ∀ (m : List (Str × Str)) (l : List Str), l ≠ [] → (∀ p ∈ l, '$' ∉ p) →
      (∀ e ∈ m, '$' ∉ e.1 ∧ '$' ∉ e.2) →
      makeSubstitutions (joinPieces l) ext m = joinPieces (m.foldl (fillStep ext) l) := by
  intro m
  induction m with
  | nil => intro l _ _ _; rfl
  | cons e m ih =>
    intro l hl hp hm
    obtain ⟨k, v⟩ := e
    have he := hm (k, v) (List.mem_cons_self _ _)
    have hm2 : ∀ e ∈ m, '$' ∉ e.1 ∧ '$' ∉ e.2 := fun e h => hm e (List.mem_cons_of_mem _ h)
    rw [makeSubstitutions, List.foldl_cons]
    by_cases hv : v = []
    · simp only [hv, if_true, fillStep]
      exact ih l hl hp hm2
    · simp only [hv, if_false, fillStep]
      cases l with
      | nil => exact absurd rfl hl
      | cons cur ts =>
        have hbody : '$' ∉ k ++ ext := by
          simp only [List.mem_append, not_or]
          exact ⟨he.1, hext⟩
        have hcur : '$' ∉ cur := hp cur (List.mem_cons_self _ _)
        have hts : ∀ t ∈ ts, '$' ∉ t := fun t ht => hp t (List.mem_cons_of_mem _ ht)
        have htok : "$".toList ++ k ++ ext = token k ext := rfl
        have hrep : multiWordReplace (joinPieces (cur :: ts)) ("$".toList ++ k ++ ext) v =
            joinPieces (fill (k ++ ext) (quoteWords v) (cur :: ts)) := by
          rw [multiWordReplace_eq, htok, replaceAll_token, token_eq]
          exact replaceScan_pieces (k ++ ext) (quoteWords v) hbody ts cur hcur hts
        rw [hrep]
        exact ih _ (fillFrom_ne_nil _ _ ts cur)
          (no_dollar_fillFrom _ _ (quoteWords_no_dollar v he.2) ts cur hcur hts) hm2

theorem startsWith_token (k1 k2 ext : Str) :
    startsWith (token k2 ext) (token k1 ext) = startsWith (k2 ++ ext) (k1 ++ ext) := by
  rw [token_eq, token_eq]
  simp [startsWith]

/-- The visits of two entries with different keys commute. -/
theorem fillStep_comm (ext : Str) (bodies : List Str) (x y : Str × Str) (cur : Str)
    (ts : List Str) (hx : x.1 ++ ext ∈ bodies) (hy : y.1 ++ ext ∈ bodies)
    (h1 : startsWith (y.1 ++ ext) (x.1 ++ ext) = false)
    (h2 : startsWith (x.1 ++ ext) (y.1 ++ ext) = false) (hnp : NoPartial bodies ts) :
    fillStep ext (fillStep ext (cur :: ts) x) y = fillStep ext (fillStep ext (cur :: ts) y) x := by
  unfold fillStep
  by_cases hxv : x.2 = []
  · simp only [hxv, if_true]
  · by_cases hyv : y.2 = []
    · simp only [hyv, if_true]
    · simp only [hxv, hyv, if_false]
      exact fill_comm bodies _ _ _ _ hx hy h1 h2 ts cur hnp

/-- A visit keeps the pieces such that none but the last is an incomplete body. -/
theorem fillStep_noPartial (ext : Str) (bodies : List Str) (e : Str × Str) (cur : Str)
    (ts : List Str) (hnp : NoPartial bodies ts) :
    ∃ cur1 ts1, fillStep ext (cur :: ts) e = cur1 :: ts1 ∧ NoPartial bodies ts1 := by
  unfold fillStep
  by_cases hv : e.2 = []
  · exact ⟨cur, ts, by simp [hv], hnp⟩
  · simp only [hv, if_false]
    obtain ⟨x, l, h1, _⟩ := fillFrom_head (e.1 ++ ext) (quoteWords e.2) ts cur
    exact ⟨cur ++ x, l, h1, noPartial_fillFrom bodies _ _ ts cur _ l hnp h1⟩

/-- The pieces after all the visits do not depend on the order of the visits. -/
theorem foldl_fillStep_perm (ext : Str) (bodies : List Str) {l1 l2 : List (Str × Str)}
    (hperm : l1.Perm l2) :
    ∀ (cur : Str) (ts : List Str), NoPartial bodies ts → (l1.map Prod.fst).Nodup →
      (∀ e ∈ l1, e.1 ++ ext ∈ bodies) →
      (∀ e1 ∈ l1, ∀ e2 ∈ l1, e1.1 ≠ e2.1 →
        startsWith (e2.1 ++ ext) (e1.1 ++ ext) = false) →
      l1.foldl (fillStep ext) (cur :: ts) = l2.foldl (fillStep ext) (cur :: ts) := by
  induction hperm with
  | nil => intro cur ts _ _ _ _; rfl
  | cons x _ ih =>
    intro cur ts hnp hnd hb hpf
    obtain ⟨cur1, ts1, he, hnp1⟩ := fillStep_noPartial ext bodies x cur ts hnp
    rw [List.foldl_cons, List.foldl_cons, he]
    exact ih cur1 ts1 hnp1 (List.nodup_cons.1 hnd).2
      (fun e h => hb e (List.mem_cons_of_mem _ h))
      (fun e1 h1 e2 h2 => hpf e1 (List.mem_cons_of_mem _ h1) e2 (List.mem_cons_of_mem _ h2))
  | swap x y l =>
    intro cur ts hnp hnd hb hpf
    have hy : y ∈ y :: x :: l := List.mem_cons_self _ _
    have hx : x ∈ y :: x :: l := List.mem_cons_of_mem _ (List.mem_cons_self _ _)
    have hne : y.1 ≠ x.1 := by
      intro h
      simp only [List.map_cons, List.nodup_cons, List.mem_cons, not_or] at hnd
      exact hnd.1.1 h
    rw [List.foldl_cons, List.foldl_cons, List.foldl_cons, List.foldl_cons,
      fillStep_comm ext bodies y x cur ts (hb y hy) (hb x hx) (hpf y hy x hx hne)
        (hpf x hx y hy (fun h => hne h.symm)) hnp]
  | trans p1 p2 ih1 ih2 =>
    intro cur ts hnp hnd hb hpf
    rw [ih1 cur ts hnp hnd hb hpf]
    exact ih2 cur ts hnp ((p1.map Prod.fst).nodup_iff.1 hnd)
      (fun e h => hb e (p1.mem_iff.2 h))
      (fun e1 h1 e2 h2 => hpf e1 (p1.mem_iff.2 h1) e2 (p1.mem_iff.2 h2))

/-- **C15, as stated, fails.** In each of the five maps below neither token is a prefix
of the other, yet the output depends on the order in which the two entries are
visited. In the first map the value of `a` is the token of `b`: visiting `a` first lets
the visit of `b` replace it. In the second the template has `$b_` in front of the
token of `a`, whose value `bin` completes the token of `b`. In the third the value
`$b` of `a` is completed to the token of `b` by the text after it. In the fourth
the suffix is `$`, so that the tokens `$a$` and `$b$` overlap in the template. In the
fifth the key `a$b` has a `$`, so that its token holds the token of `b`. -/
theorem makeSubstitutions_order_counterexample :
    (startsWith (token "b".toList "_bin".toList) (token "a".toList "_bin".toList) = false ∧
      startsWith (token "a".toList "_bin".toList) (token "b".toList "_bin".toList) = false ∧
      startsWith (token "b".toList "$".toList) (token "a".toList "$".toList) = false ∧
      startsWith (token "a".toList "$".toList) (token "b".toList "$".toList) = false ∧
      startsWith (token "b".toList "_bin".toList) (token "a$b".toList "_bin".toList) = false ∧
      startsWith (token "a$b".toList "_bin".toList) (token "b".toList "_bin".toList) = false) ∧
    (makeSubstitutions "$a_bin".toList "_bin".toList
        [("a".toList, "$b_bin".toList), ("b".toList, "x".toList)] = "x".toList ∧
      makeSubstitutions "$a_bin".toList "_bin".toList
        [("b".toList, "x".toList), ("a".toList, "$b_bin".toList)] = "$b_bin".toList) ∧
    (makeSubstitutions "$b_$a_bin".toList "_bin".toList
        [("a".toList, "bin".toList), ("b".toList, "x".toList)] = "x".toList ∧
      makeSubstitutions "$b_$a_bin".toList "_bin".toList
        [("b".toList, "x".toList), ("a".toList, "bin".toList)] = "$b_bin".toList) ∧
    (makeSubstitutions "$a_bin_bin".toList "_bin".toList
        [("a".toList, "$b".toList), ("b".toList, "x".toList)] = "x".toList ∧
      makeSubstitutions "$a_bin_bin".toList "_bin".toList
        [("b".toList, "x".toList), ("a".toList, "$b".toList)] = "$b_bin".toList) ∧
    (makeSubstitutions "$a$b$".toList "$".toList
        [("a".toList, "x".toList), ("b".toList, "y".toList)] = "xb$".toList ∧
      makeSubstitutions "$a$b$".toList "$".toList
        [("b".toList, "y".toList), ("a".toList, "x".toList)] = "$ay".toList) ∧
    (makeSubstitutions "$a$b_bin".toList "_bin".toList
        [("a$b".toList, "x".toList), ("b".toList, "y".toList)] = "x".toList ∧
      makeSubstitutions "$a$b_bin".toList "_bin".toList
        [("b".toList, "y".toList), ("a$b".toList, "x".toList)] = "$ay".toList) :=
  ⟨⟨by decide, by decide, by decide, by decide, by decide, by decide⟩,
    ⟨by decide, by decide⟩, ⟨by decide, by decide⟩, ⟨by decide, by decide⟩,
    ⟨by decide, by decide⟩, ⟨by decide, by decide⟩⟩

/-- **C15, amended.** Replacement is independent across keys when no replacement can
produce or complete a token: for a map with distinct keys in which `$` occurs in no
key, in no value and not in the suffix and no key's token is a prefix of another
key's token, and a template in which no text between two `$` characters that follow
one another is the beginning, without being the whole, of `<key><ext>` for a key of
the map, `makeSubstitutions` produces the same output for any two orders in which the
entries are visited. -/
theorem makeSubstitutions_order_independent (s ext : Str) (l1 l2 : List (Str × Str))
    (hperm : l1.Perm l2) (hind : Independent ext l1) (htpl : NoPartialToken ext l1 s) :
    makeSubstitutions s ext l1 = makeSubstitutions s ext l2 := by
  obtain ⟨hnd, hext, hval, hpf⟩ := hind
  have hval2 : ∀ e ∈ l2, '$' ∉ e.1 ∧ '$' ∉ e.2 := fun e he => hval e (hperm.mem_iff.2 he)
  have hnp : NoPartial (l1.map (fun e => e.1 ++ ext)) (split s '$').tail := by
    intro t ht b hb hs
    obtain ⟨e, he, rfl⟩ := List.mem_map.1 hb
    exact htpl t ht e he hs
  have hs : joinPieces (split s '$') = s := joinPieces_split s
  have hfree : ∀ p ∈ split s '$', '$' ∉ p := split_no_sep '$' s
  cases hsp : split s '$' with
  | nil => exact absurd hsp (split_ne_nil s '$')
  | cons cur ts =>
    rw [hsp] at hs hfree hnp
    rw [← hs, makeSubstitutions_pieces ext hext l1 _ (by simp) hfree hval,
      makeSubstitutions_pieces ext hext l2 _ (by simp) hfree hval2]
    congr 1
    apply foldl_fillStep_perm ext _ hperm cur ts hnp hnd
    · intro e he
      exact List.mem_map.2 ⟨e, he, rfl⟩
    · intro e1 h1 e2 h2 hne
      rw [← startsWith_token]
      exact hpf e1 h1 e2 h2 hne

/-- Instance of C15 amended: the pass for the suffix `bin` over a template that also
has the token `$kubeletconf` of the later pass for `conf`; one value has two words. -/
theorem makeSubstitutions_order_independent_witness :
    makeSubstitutions "$kubeletbin --config=$kubeletconf $apiserverbin".toList "bin".toList
        [("apiserver".toList, "kube-apiserver".toList),
          ("kubelet".toList, "/usr/bin/my kubelet".toList)] =
      makeSubstitutions "$kubeletbin --config=$kubeletconf $apiserverbin".toList "bin".toList
        [("kubelet".toList, "/usr/bin/my kubelet".toList),
          ("apiserver".toList, "kube-apiserver".toList)] :=
  makeSubstitutions_order_independent
    "$kubeletbin --config=$kubeletconf $apiserverbin".toList "bin".toList
    [("apiserver".toList, "kube-apiserver".toList),
      ("kubelet".toList, "/usr/bin/my kubelet".toList)]
    [("kubelet".toList, "/usr/bin/my kubelet".toList),
      ("apiserver".toList, "kube-apiserver".toList)]
    (List.Perm.swap _ _ _) ⟨by decide, by decide, by decide, by decide⟩
    (by decide)

end KubeBench
